import Mathlib

/-!
# malloclab-jungle: explicit free-list allocator (`mm.c`)

A shallow embedding of `mm.c` and theorems about it.

Modelling conventions.

* The build is the 32-bit one the source assumes (`WSIZE = 4`, pointers stored in one word):
  `size_t`, `unsigned int` and pointers are naturals below `2^32`; `size_t` arithmetic is
  taken modulo `2^32` where the source computes on sizes.
* Memory is a byte map `Nat → Nat`; `GET`/`PUT` read and write four bytes, least significant
  byte first.
* Address arithmetic is plain natural-number arithmetic (subtraction stops at zero); on the
  heaps the theorems speak about it never wraps.
* `NULL` is `0`; the provider's failure value `(void *)-1` is `4294967295`.
* The static locals of `find_fit` are fields of the heap state.
* The `for` loop of `find_fit` is run with fuel `brk`; running out of fuel is reported as
  `none`, every `some` result is the result of the C loop.
-/

namespace MM

/-! ## Constants and macros -/

def WSIZE : Nat := 4
def DSIZE : Nat := 8
def CHUNKSIZE : Nat := 4096

/-- Number of values of a 32-bit word. -/
def W32 : Nat := 4294967296

/-- The null pointer. -/
def NULL : Nat := 0

/-- The value `(void *)-1` with which the provider reports a denied request. -/
def SBRK_FAIL : Nat := 4294967295

/-- Byte-addressed memory. -/
abbrev Mem := Nat → Nat

def MAX (x y : Nat) : Nat := if x > y then x else y

/-- Unsigned 32-bit subtraction. -/
def sub32 (a b : Nat) : Nat := (a % W32 + W32 - b % W32) % W32

/-- Value of a 32-bit pattern read as `int`. -/
def toInt32 (x : Nat) : Int := if x % W32 < 2147483648 then (x % W32 : Nat) else ((x % W32 : Nat) : Int) - 4294967296

/-- The 32-bit pattern of an `int`. -/
def ofInt32 (i : Int) : Nat := (i % 4294967296).toNat

/-- `PACK(size, alloc) = size | alloc`. -/
def PACK (size alloc : Nat) : Nat := size ||| alloc

/-- `GET(p)`: the 32-bit word at byte address `p`. -/
def GET (m : Mem) (p : Nat) : Nat :=
  m p % 256 + 256 * (m (p + 1) % 256) + 65536 * (m (p + 2) % 256) + 16777216 * (m (p + 3) % 256)

/-- `PUT(p, val)`: store the low 32 bits of `val` at byte address `p`. -/
def PUT (m : Mem) (p val : Nat) : Mem := fun a =>
  if a = p then val % 256
  else if a = p + 1 then val / 256 % 256
  else if a = p + 2 then val / 65536 % 256
  else if a = p + 3 then val / 16777216 % 256
  else m a

/-- `GET_SIZE(p) = GET(p) & ~0x7`. -/
def GET_SIZE (m : Mem) (p : Nat) : Nat := GET m p &&& 4294967288

/-- `GET_ALLOC(p) = GET(p) & 0x1`. -/
def GET_ALLOC (m : Mem) (p : Nat) : Nat := GET m p &&& 1

def HDRP (bp : Nat) : Nat := bp - WSIZE

def FTRP (m : Mem) (bp : Nat) : Nat := bp + GET_SIZE m (HDRP bp) - DSIZE

def NEXT_BLK (m : Mem) (bp : Nat) : Nat := bp + GET_SIZE m (bp - WSIZE)

def PREV_BLK (m : Mem) (bp : Nat) : Nat := bp - GET_SIZE m (bp - DSIZE)

def GET_NEXT_PTR (m : Mem) (bp : Nat) : Nat := GET m bp

def GET_PREV_PTR (m : Mem) (bp : Nat) : Nat := GET m (bp + WSIZE)

def SET_NEXT_PTR (m : Mem) (bp qp : Nat) : Mem := PUT m bp qp

def SET_PREV_PTR (m : Mem) (bp qp : Nat) : Mem := PUT m (bp + WSIZE) qp

/-- `memcpy(dst, src, n)` for the case the C standard defines: every byte of the destination
gets the byte the source held before the call. -/
def memcpy (m : Mem) (dst src n : Nat) : Mem := fun a =>
  if dst ≤ a ∧ a < dst + n then m (src + (a - dst)) else m a

/-! ## Allocator state -/

/-- The allocator's globals, the statics of `find_fit`, the memory, and the provider's
break and limit. -/
structure Heap where
  mem : Mem
  brk : Nat
  limit : Nat
  heap_listp : Nat
  free_list_start : Nat
  last_malloced_size : Nat
  repeat_counter : Nat

/-- Modelled from the spec: the Arena Provider's `grow(bytes)` (`mem_sbrk` of `memlib.c`, which
is not part of the sources). It appends `incr` bytes at the end of the arena and returns the
old end, or denies the request, returning `(void *)-1`, when the arena would pass `limit`. -/
def mem_sbrk (h : Heap) (incr : Nat) : Heap × Nat :=
  if h.brk + incr ≤ h.limit then ({ h with brk := h.brk + incr }, h.brk) else (h, SBRK_FAIL)

/-! ## Free list -/

def insert_in_free_list (h : Heap) (bp : Nat) : Heap :=
  let m1 := SET_NEXT_PTR h.mem bp h.free_list_start
  let m2 := SET_PREV_PTR m1 h.free_list_start bp
  let m3 := SET_PREV_PTR m2 bp NULL
  { h with mem := m3, free_list_start := bp }

def remove_from_free_list (h : Heap) (bp : Nat) : Heap :=
  let h1 : Heap :=
    if GET_PREV_PTR h.mem bp ≠ 0 then
      { h with mem := SET_NEXT_PTR h.mem (GET_PREV_PTR h.mem bp) (GET_NEXT_PTR h.mem bp) }
    else
      { h with free_list_start := GET_NEXT_PTR h.mem bp }
  { h1 with mem := SET_PREV_PTR h1.mem (GET_NEXT_PTR h1.mem bp) (GET_PREV_PTR h1.mem bp) }

/-! ## Coalescing, extension, placement -/

def coalesce (h : Heap) (bp : Nat) : Heap × Nat :=
  let m := h.mem
  let NEXT_ALLOC := GET_ALLOC m (HDRP (NEXT_BLK m bp))
  let PREV_ALLOC : Nat :=
    if GET_ALLOC m (FTRP m (PREV_BLK m bp)) ≠ 0 ∨ PREV_BLK m bp = bp then 1 else 0
  let size := GET_SIZE m (HDRP bp)
  if PREV_ALLOC ≠ 0 ∧ NEXT_ALLOC = 0 then
    let size := (size + GET_SIZE m (HDRP (NEXT_BLK m bp))) % W32
    let h1 := remove_from_free_list h (NEXT_BLK m bp)
    let m1 := PUT h1.mem (HDRP bp) (PACK size 0)
    let m2 := PUT m1 (FTRP m1 bp) (PACK size 0)
    (insert_in_free_list { h1 with mem := m2 } bp, bp)
  else if PREV_ALLOC = 0 ∧ NEXT_ALLOC ≠ 0 then
    let size := (size + GET_SIZE m (HDRP (PREV_BLK m bp))) % W32
    let bp := PREV_BLK m bp
    let h1 := remove_from_free_list h bp
    let m1 := PUT h1.mem (HDRP bp) (PACK size 0)
    let m2 := PUT m1 (FTRP m1 bp) (PACK size 0)
    (insert_in_free_list { h1 with mem := m2 } bp, bp)
  else if PREV_ALLOC = 0 ∧ NEXT_ALLOC = 0 then
    let size := (size + (GET_SIZE m (HDRP (PREV_BLK m bp)) + GET_SIZE m (HDRP (NEXT_BLK m bp))) % W32) % W32
    let h1 := remove_from_free_list h (PREV_BLK m bp)
    let h2 := remove_from_free_list h1 (NEXT_BLK h1.mem bp)
    let bp := PREV_BLK h2.mem bp
    let m1 := PUT h2.mem (HDRP bp) (PACK size 0)
    let m2 := PUT m1 (FTRP m1 bp) (PACK size 0)
    (insert_in_free_list { h2 with mem := m2 } bp, bp)
  else
    (insert_in_free_list h bp, bp)

/-- The number of bytes `extend_heap` asks for: the word count rounded up to even, times the
word size (in 32-bit arithmetic), and at least 16. -/
def extend_size (words : Nat) : Nat :=
  let size := if words % 2 ≠ 0 then ((words + 1) * WSIZE) % W32 else (words * WSIZE) % W32
  if size < 16 then 16 else size

def extend_heap (h : Heap) (words : Nat) : Heap × Nat :=
  let size := extend_size words
  let r := mem_sbrk h size
  let h1 := r.1
  let bp := r.2
  if bp = SBRK_FAIL then (h1, NULL)
  else
    let m1 := PUT h1.mem (HDRP bp) (PACK size 0)
    let m2 := PUT m1 (FTRP m1 bp) (PACK size 0)
    let m3 := PUT m2 (HDRP (NEXT_BLK m2 bp)) (PACK 0 1)
    coalesce { h1 with mem := m3 } bp

def place (h : Heap) (bp asize : Nat) : Heap :=
  let csize := GET_SIZE h.mem (HDRP bp)
  if sub32 csize asize ≥ 4 * WSIZE then
    let m1 := PUT h.mem (HDRP bp) (PACK asize 1)
    let m2 := PUT m1 (FTRP m1 bp) (PACK asize 1)
    let h1 := remove_from_free_list { h with mem := m2 } bp
    let bp := NEXT_BLK h1.mem bp
    let m3 := PUT h1.mem (HDRP bp) (PACK (sub32 csize asize) 0)
    let m4 := PUT m3 (FTRP m3 bp) (PACK (sub32 csize asize) 0)
    (coalesce { h1 with mem := m4 } bp).1
  else
    let m1 := PUT h.mem (HDRP bp) (PACK csize 1)
    let m2 := PUT m1 (FTRP m1 bp) (PACK csize 1)
    remove_from_free_list { h with mem := m2 } bp

/-! ## Search -/

/-- The `for` loop of `find_fit`, started at `bp`: `some (some b)` when the loop returns the
block `b`, `some none` when the loop ends at an allocated header, `none` when `fuel` steps did
not finish it. -/
def find_fit_loop (m : Mem) (asize : Nat) : Nat → Nat → Option (Option Nat)
  | 0, _ => none
  | fuel + 1, bp =>
    if GET_ALLOC m (HDRP bp) = 0 then
      if asize ≤ GET_SIZE m (HDRP bp) then some (some bp)
      else find_fit_loop m asize fuel (GET_NEXT_PTR m bp)
    else some none

/-- The scan part of `find_fit` (after the repeat counter was updated). -/
def find_fit_scan (h : Heap) (asize : Nat) : Option (Heap × Nat) :=
  match find_fit_loop h.mem asize h.brk h.free_list_start with
  | none => none
  | some (some bp) => some ({ h with last_malloced_size := asize }, bp)
  | some none => some (h, NULL)

def find_fit (h : Heap) (asize : Nat) : Option (Heap × Nat) :=
  if h.last_malloced_size = asize % W32 then
    if h.repeat_counter > 30 then
      let extendsize := toInt32 (MAX asize (4 * WSIZE))
      some (extend_heap h (ofInt32 (Int.tdiv extendsize 4)))
    else
      find_fit_scan { h with repeat_counter := h.repeat_counter + 1 } asize
  else
    find_fit_scan { h with repeat_counter := 0 } asize

/-- The test at the head of `find_fit`: the request repeats the remembered size and the repeat
counter is above 30. -/
def bypass (h : Heap) (asize : Nat) : Prop :=
  h.last_malloced_size = asize % W32 ∧ h.repeat_counter > 30

instance (h : Heap) (asize : Nat) : Decidable (bypass h asize) := by
  unfold bypass; infer_instance

/-! ## The interface: init, malloc, free, realloc -/

/-- The adjusted block size computed at the start of `mm_malloc`. -/
def adjust (size : Nat) : Nat :=
  if size ≤ DSIZE then 2 * DSIZE
  else (DSIZE * (((size + DSIZE + (DSIZE - 1)) % W32) / DSIZE)) % W32

def mm_init (h : Heap) : Heap × Int :=
  let r := mem_sbrk h (8 * WSIZE)
  let h1 : Heap := { r.1 with heap_listp := r.2 }
  if h1.heap_listp = NULL then (h1, -1)
  else
    let m1 := PUT h1.mem h1.heap_listp 0
    let m2 := PUT m1 (h1.heap_listp + 1 * WSIZE) (PACK DSIZE 1)
    let m3 := PUT m2 (h1.heap_listp + 2 * WSIZE) (PACK DSIZE 1)
    let m4 := PUT m3 (h1.heap_listp + 3 * WSIZE) (PACK 0 1)
    let h2 : Heap := { h1 with mem := m4, free_list_start := h1.heap_listp + 2 * WSIZE }
    let e := extend_heap h2 4
    if e.2 = NULL then (e.1, -1) else (e.1, 0)

def mm_malloc (h : Heap) (size : Nat) : Option (Heap × Nat) :=
  if size = 0 then some (h, NULL)
  else
    let asize := adjust size
    match find_fit h asize with
    | none => none
    | some (h1, bp) =>
      if bp ≠ NULL then some (place h1 bp asize, bp)
      else
        let extendsize := MAX asize CHUNKSIZE
        let e := extend_heap h1 (extendsize / WSIZE)
        if e.2 = NULL then some (e.1, NULL)
        else some (place e.1 e.2 asize, e.2)

def mm_free (h : Heap) (bp : Nat) : Heap :=
  if bp = NULL then h
  else
    let size := GET_SIZE h.mem (HDRP bp)
    let m1 := PUT h.mem (HDRP bp) (PACK size 0)
    let m2 := PUT m1 (FTRP m1 bp) (PACK size 0)
    (coalesce { h with mem := m2 } bp).1

def mm_realloc (h : Heap) (bp size : Nat) : Option (Heap × Nat) :=
  if toInt32 size < 0 then some (h, NULL)
  else if toInt32 size = 0 then some (mm_free h bp, NULL)
  else if size > 0 then
    let oldsize := GET_SIZE h.mem (HDRP bp)
    let newsize := (size + 2 * WSIZE) % W32
    if newsize ≤ oldsize then some (h, bp)
    else
      let next_alloc := GET_ALLOC h.mem (HDRP (NEXT_BLK h.mem bp))
      let csize := (oldsize + GET_SIZE h.mem (HDRP (NEXT_BLK h.mem bp))) % W32
      if next_alloc = 0 ∧ csize ≥ newsize then
        let h1 := remove_from_free_list h (NEXT_BLK h.mem bp)
        let m1 := PUT h1.mem (HDRP bp) (PACK csize 1)
        let m2 := PUT m1 (FTRP m1 bp) (PACK csize 1)
        some ({ h1 with mem := m2 }, bp)
      else
        match mm_malloc h newsize with
        | none => none
        | some (h1, new_ptr) =>
          let h2 := place h1 new_ptr newsize
          let h3 : Heap := { h2 with mem := memcpy h2.mem new_ptr bp newsize }
          some (mm_free h3 bp, new_ptr)
  else some (h, NULL)

/-! ## Call sequences -/

/-- One call of the interface after `mm_init`. -/
inductive Op where
  | malloc (size : Nat)
  | free (p : Nat)
  | realloc (p size : Nat)

/-- The heap together with the client's view: the live allocations (pointer, size last
requested), most recent first, and the pointers returned by `mm_malloc` so far. -/
structure Sys where
  heap : Heap
  live : List (Nat × Nat)
  rets : List Nat

/-- Result of running a call sequence: it ran, a call had an invalid argument, or a loop of
the allocator did not finish. -/
inductive Outcome where
  | ok (s : Sys)
  | invalid
  | diverged

/-- The size computation of `mm_malloc` does not wrap around for this request: `size + 15`
is below `2^32`. -/
def validSize (size : Nat) : Prop := size + 15 < W32

instance (size : Nat) : Decidable (validSize size) := by unfold validSize; infer_instance

def isLive (s : Sys) (p : Nat) : Prop := p ∈ s.live.map Prod.fst

instance (s : Sys) (p : Nat) : Decidable (isLive s p) := by unfold isLive; infer_instance

def dropLive (live : List (Nat × Nat)) (p : Nat) : List (Nat × Nat) :=
  live.filter fun e => e.1 ≠ p

/-- One call. A size argument is a `size_t`, any value below `2^32`; `free` and `realloc`
are valid on live pointers only (`free(NULL)` is the no-op of the source). -/
def step (s : Sys) : Op → Outcome
  | .malloc size =>
    if size < W32 then
      match mm_malloc s.heap size with
      | none => .diverged
      | some (h, p) =>
        .ok { heap := h, live := if p = NULL then s.live else (p, size) :: s.live, rets := p :: s.rets }
    else .invalid
  | .free p =>
    if p = NULL then .ok { s with heap := mm_free s.heap p }
    else if isLive s p then .ok { s with heap := mm_free s.heap p, live := dropLive s.live p }
    else .invalid
  | .realloc p size =>
    if isLive s p ∧ size < W32 then
      match mm_realloc s.heap p size with
      | none => .diverged
      | some (h, q) =>
        if q = NULL then
          .ok { s with heap := h, live := if size = 0 then dropLive s.live p else s.live }
        else .ok { s with heap := h, live := (q, size) :: dropLive s.live p }
    else .invalid

def run (s : Sys) : List Op → Outcome
  | [] => .ok s
  | op :: ops =>
    match step s op with
    | .ok s1 => run s1 ops
    | .invalid => .invalid
    | .diverged => .diverged

/-- The system right after `mm_init` on the provider state `h`. -/
def initSys (h : Heap) : Sys := { heap := (mm_init h).1, live := [], rets := [] }

/-- The blocks the loop of `find_fit` walks through from `bp` when no block is large enough:
the free-list members in list order (`none` when `fuel` steps do not reach an allocated
header). -/
def free_list_from (m : Mem) : Nat → Nat → Option (List Nat)
  | 0, _ => none
  | fuel + 1, bp =>
    if GET_ALLOC m (HDRP bp) = 0 then
      (free_list_from m fuel (GET_NEXT_PTR m bp)).map fun l => bp :: l
    else some []

/-- A fresh provider: zero-filled memory, arena starting at the 8-aligned address `65536`,
one mebibyte available. -/
def arena0 : Heap :=
  { mem := fun _ => 0, brk := 65536, limit := 65536 + 1048576, heap_listp := 0,
    free_list_start := 0, last_malloced_size := 0, repeat_counter := 0 }

/-- The call sequence used against the no-overlap property. -/
def overlapOps : List Op :=
  [.malloc 8, .malloc 24, .malloc 56, .malloc 8, .malloc 48, .malloc 8,
   .free (65536 + 80), .free (65536 + 160), .realloc (65536 + 32) 24,
   .free (65536 + 48), .malloc 104, .free (65536 + 160), .malloc 56]

/-- The live allocations of an outcome (empty when the run did not finish). -/
def Outcome.live : Outcome → List (Nat × Nat)
  | .ok s => s.live
  | _ => []

/-- The heap after `mm_init` on `arena0` and the calls `ops` (`arena0` itself when the run
does not finish). -/
def heapAfter (ops : List Op) : Heap :=
  match run (initSys arena0) ops with
  | .ok s => s.heap
  | _ => arena0

/-- The pointers `mm_malloc` returned in a run, most recent first. -/
def Outcome.rets : Outcome → List Nat
  | .ok s => s.rets
  | _ => []

/-- Calls after which `mm_realloc` is called on the first block with a free block elsewhere
in the list. -/
def listOps : List Op :=
  [.malloc 8, .malloc 24, .malloc 56, .malloc 8, .malloc 48, .malloc 8,
   .free (65536 + 80), .free (65536 + 160)]

/-- Calls after which the first block is followed by an allocated block, and the only free
block is eight bytes larger than the adjusted size of a request of `65593 + 8` bytes. -/
def copyOps : List Op :=
  [.malloc 8, .malloc 65592, .malloc 65616, .malloc 65560, .free 131184]

/-- The reuse scenario: `a = malloc 100`, `b = malloc 200`, `free a`, `c = malloc 90`. -/
def reuseOps : List Op := [.malloc 100, .malloc 200, .free (65536 + 32), .malloc 90]

/-- The heap `mm_init` hands to `extend_heap`: prologue and first epilogue written, the
sentinel as the empty list. -/
def init_heap (h : Heap) : Heap :=
  { h with
    brk := h.brk + 32
    heap_listp := h.brk
    free_list_start := h.brk + 8
    mem := PUT (PUT (PUT (PUT h.mem h.brk 0) (h.brk + 4) 9) (h.brk + 8) 9) (h.brk + 12) 1 }

/-- The heap of `init_heap` after `extend_heap` has formatted the first block, before
`coalesce`. -/
def init_block (h : Heap) : Heap :=
  { init_heap h with
    brk := h.brk + 48
    mem := PUT (PUT (PUT (init_heap h).mem (h.brk + 28) 16) (h.brk + 40) 16) (h.brk + 44) 1 }

/-- A provider that can grow the arena by 20 more bytes only: the 32 bytes `mm_init` asks for
first are denied, the 16 bytes of its `extend_heap(4)` are granted. -/
def arenaTight : Heap := { arena0 with limit := 65536 + 20 }

/-- The provider of `arena0` with a stale word in the memory it hands out: the word at
`base + 24` holds 8. -/
def arenaStale : Heap := { arena0 with mem := PUT arena0.mem (65536 + 24) 8 }

/-- The block scan of `checkheap`, with the stop test of the specification: from `bp`, step to
the next block by the size in the header until a header with size 0 and the allocated bit set
is met. The result is the list of blocks visited and the address the scan stopped at (`none`
when `fuel` steps do not reach such a header). -/
def heap_scan (m : Mem) : Nat → Nat → Option (List Nat × Nat)
  | 0, _ => none
  | fuel + 1, bp =>
    if GET_SIZE m (HDRP bp) = 0 ∧ GET_ALLOC m (HDRP bp) = 1 then some ([], bp)
    else (heap_scan m fuel (NEXT_BLK m bp)).map fun r => (bp :: r.1, r.2)

/-- The heap after `n` repetitions of `p = mm_malloc(s); mm_free(p)` (`none` when a call does
not finish). -/
def churn (s : Nat) : Nat → Heap → Option Heap
  | 0, h => some h
  | n + 1, h =>
    match mm_malloc h s with
    | none => none
    | some (h1, p) => churn s n (mm_free h1 p)

/-- Thirty-one requests of 5000 bytes. -/
def sameOps : List Op := List.replicate 31 (Op.malloc 5000)

/-- A provider with room for the 48 bytes of `mm_init` and nothing more. -/
def arenaFull : Heap := { arena0 with limit := 65536 + 48 }

/-- The free-list operations of the specification, on the sequence of list members: `insert`
pushes at the head, `remove` splices the member out. -/
def list_insert (b : Nat) (L : List Nat) : List Nat := b :: L

def list_remove (b : Nat) (L : List Nat) : List Nat := L.erase b

/-! ## Well-formed heaps -/

/-- A block as its boundary tags describe it: payload address, total size, allocated bit. -/
structure Blk where
  bp : Nat
  size : Nat
  alloc : Nat
deriving DecidableEq

/-- The blocks met when stepping from payload address `a` by the sizes in the headers until
`e` is reached (`none` when `fuel` steps do not reach `e`). -/
def blocks_from (m : Mem) (e : Nat) : Nat → Nat → Option (List Blk)
  | 0, _ => none
  | fuel + 1, a =>
    if a = e then some []
    else (blocks_from m e fuel (NEXT_BLK m a)).map fun l =>
      ⟨a, GET_SIZE m (HDRP a), GET_ALLOC m (HDRP a)⟩ :: l

/-- The tags of block `b` in memory: its size is a multiple of 8 and at least 16, and header
and footer both hold `size | alloc`. -/
def BlkOK (m : Mem) (b : Blk) : Prop :=
  b.size % 8 = 0 ∧ 16 ≤ b.size ∧ b.alloc ≤ 1 ∧
  GET m (b.bp - 4) = b.size + b.alloc ∧ GET m (b.bp + b.size - 8) = b.size + b.alloc

instance (m : Mem) (b : Blk) : Decidable (BlkOK m b) := by unfold BlkOK; infer_instance

/-- The blocks `bs`, in address order, tile a region: the first block has payload address `a`,
every block starts where the one before it ends, and a block after the last one would have
payload address `e`. (The header of a block is the word before its payload address.) -/
def Tiles (m : Mem) : Nat → List Blk → Nat → Prop
  | a, [], e => a = e
  | a, b :: bs, e => b.bp = a ∧ BlkOK m b ∧ Tiles m (a + b.size) bs e

/-- The free list as a sequence: following `next` links from `cur` visits exactly the members
of the list in order and then the sentinel `S`; every member's `prev` word holds its
predecessor (`prev` for the first). -/
def Chain (m : Mem) (S : Nat) : Nat → Nat → List Nat → Prop
  | _, cur, [] => cur = S
  | prev, cur, x :: xs => cur = x ∧ GET m (x + 4) = prev ∧ Chain m S x (GET m x) xs

instance decTiles (m : Mem) : (a : Nat) → (bs : List Blk) → (e : Nat) → Decidable (Tiles m a bs e)
  | a, [], e => inferInstanceAs (Decidable (a = e))
  | a, b :: bs, e =>
    have := decTiles m (a + b.size) bs e
    inferInstanceAs (Decidable (b.bp = a ∧ BlkOK m b ∧ Tiles m (a + b.size) bs e))

instance decChain (m : Mem) (S : Nat) :
    (prev cur : Nat) → (L : List Nat) → Decidable (Chain m S prev cur L)
  | _, cur, [] => inferInstanceAs (Decidable (cur = S))
  | prev, cur, x :: xs =>
    have := decChain m S x (GET m x) xs
    inferInstanceAs (Decidable (cur = x ∧ GET m (x + 4) = prev ∧ Chain m S x (GET m x) xs))

/-- The arena part of well-formedness: prologue header, the untouched word before the first
block, blocks `bs` tiling the arena from the first block (header `heap_listp + 28`, payload
`heap_listp + 32`) to the epilogue `PACK(0,1)` in the last word; all addresses fit in 32
bits. -/
structure Arena (h : Heap) (bs : List Blk) : Prop where
  base_pos : 0 < h.heap_listp
  brk_le : h.brk ≤ h.limit
  limit_lt : h.limit < W32
  brk_ge : h.heap_listp + 32 ≤ h.brk
  prologue : GET h.mem (h.heap_listp + 4) = 9
  pad : GET h.mem (h.heap_listp + 24) = 0
  tiles : Tiles h.mem (h.heap_listp + 32) bs h.brk
  epilogue : GET h.mem (h.brk - 4) = 1

/-- The list part: the chain from `free_list_start` along `next` links is the duplicate-free
sequence `L` ending at the prologue sentinel `heap_listp + 8`, with matching `prev` links. -/
structure Listed (h : Heap) (L : List Nat) : Prop where
  chain : Chain h.mem (h.heap_listp + 8) 0 h.free_list_start L
  nodup : L.Nodup

/-- Well-formed heap: the arena is tiled by `bs` and the free list `L` holds exactly the free
blocks of `bs`, each once. -/
structure WF (h : Heap) (bs : List Blk) (L : List Nat) : Prop where
  arena : Arena h bs
  listed : Listed h L
  list_free : ∀ x ∈ L, ∃ b ∈ bs, b.bp = x ∧ b.alloc = 0
  free_list : ∀ b ∈ bs, b.alloc = 0 → b.bp ∈ L

/-- Addresses that can be list members next to each other: nonzero, above the sentinel, below
`2^32`, and any two of them equal or at least 8 bytes apart. -/
def Sep (S : Nat) (L : List Nat) : Prop :=
  S < W32 ∧ ∀ y ∈ L, S + 8 ≤ y ∧ y < W32 ∧ ∀ z ∈ L, y = z ∨ y + 8 ≤ z ∨ z + 8 ≤ y

/-- The bytes the free-list operations may write when the list is `L`: the `prev` word of the
sentinel and the two link words of the members. -/
def InLinks (S : Nat) (L : List Nat) (a : Nat) : Prop :=
  (S + 4 ≤ a ∧ a < S + 8) ∨ ∃ y ∈ L, y ≤ a ∧ a < y + 8

/-- Allocated bit of the physically next block as `coalesce` sees it: the bit of the first block
of `post`, or the epilogue's bit when there is none. -/
def nextAlloc : List Blk → Nat
  | [] => 1
  | n :: _ => n.alloc

/-- Allocated bit of the physically previous block as `coalesce` sees it: the bit of the last
block of `pre`; the first block of the arena has no previous block and sees 1. -/
def prevAlloc (pre : List Blk) : Nat :=
  match pre.getLast? with
  | none => 1
  | some p => p.alloc

/-- The state `coalesce` is called in: the arena is tiled by `pre ++ b :: post`, block `b` is
marked free and is not in the free list `L`, which holds exactly the other free blocks. -/
structure CoalPre (h : Heap) (pre : List Blk) (b : Blk) (post : List Blk) (L : List Nat) :
    Prop where
  arena : Arena h (pre ++ b :: post)
  listed : Listed h L
  free : b.alloc = 0
  list_free : ∀ x ∈ L, ∃ c ∈ pre ++ b :: post, c.bp = x ∧ c.alloc = 0
  notin : b.bp ∉ L
  free_list : ∀ c ∈ pre ++ b :: post, c.alloc = 0 → c.bp ≠ b.bp → c.bp ∈ L

/-- What `coalesce` leaves behind: a well-formed heap whose free list starts with the block
at `r`, and that block has `PACK(total, 0)` in header and footer. -/
def CoalPost (h : Heap) (r total : Nat) (bs : List Blk) (L : List Nat) : Prop :=
  WF h bs (r :: L) ∧ h.free_list_start = r ∧
  GET h.mem (HDRP r) = PACK total 0 ∧ GET h.mem (FTRP h.mem r) = PACK total 0

/-- No two blocks next to each other are both free. -/
def NoAdj : List Blk → Prop
  | [] => True
  | b :: bs => (b.alloc = 0 → nextAlloc bs ≠ 0) ∧ NoAdj bs

instance decNoAdj : (bs : List Blk) → Decidable (NoAdj bs)
  | [] => inferInstanceAs (Decidable True)
  | b :: bs =>
    have := decNoAdj bs
    inferInstanceAs (Decidable ((b.alloc = 0 → nextAlloc bs ≠ 0) ∧ NoAdj bs))

/-- The heaps agree on everything but memory and the head of the free list. -/
def SameFields (h h1 : Heap) : Prop :=
  h1.brk = h.brk ∧ h1.limit = h.limit ∧ h1.heap_listp = h.heap_listp ∧
  h1.last_malloced_size = h.last_malloced_size ∧ h1.repeat_counter = h.repeat_counter

/-- First fit on the free list as a sequence: the first member whose block size is at least
`asize`. -/
def firstFit (m : Mem) (asize : Nat) (L : List Nat) : Option Nat :=
  L.find? fun x => decide (asize ≤ GET_SIZE m (HDRP x))

/-- A request of adjusted size `asize` does not grow the arena of this well-formed heap: a
member of the free list is large enough, or the provider denies the `MAX(asize, CHUNKSIZE)`
bytes `mm_malloc` would ask for. -/
def Settled (h : Heap) (asize : Nat) : Prop :=
  ∃ bs L, WF h bs L ∧
    (firstFit h.mem asize L ≠ none ∨
      h.limit < h.brk + extend_size (MAX asize CHUNKSIZE / WSIZE))

/-- Calls of `mm_malloc` and `mm_free` only. -/
def Op.noRealloc : Op → Bool
  | .realloc _ _ => false
  | _ => true

/-- The request of this call, if it is a call of `mm_malloc`, has a size whose adjustment
does not wrap around (`validSize`). -/
def Op.fits : Op → Prop
  | .malloc size => validSize size
  | _ => True

instance (op : Op) : Decidable op.fits := by
  cases op <;> unfold Op.fits <;> infer_instance

/-- The invariant of call sequences: the heap with arena base `base` is well formed, every
live pointer is the payload address of an allocated block, and every non-null pointer
`mm_malloc` returned is congruent to `base` modulo 8. -/
def Inv (base : Nat) (s : Sys) : Prop :=
  ∃ bs L, WF s.heap bs L ∧ s.heap.heap_listp = base ∧
    (∀ p ∈ s.live.map Prod.fst, ∃ c ∈ bs, c.bp = p ∧ c.alloc = 1) ∧
    (∀ p ∈ s.rets, p ≠ NULL → p % 8 = base % 8)

/-! ## Words and bytes -/

theorem GET_lt (m : Mem) (p : Nat) : GET m p < W32 := by
  unfold GET W32
  have h0 := Nat.mod_lt (m p) (show 256 > 0 by decide)
  have h1 := Nat.mod_lt (m (p + 1)) (show 256 > 0 by decide)
  have h2 := Nat.mod_lt (m (p + 2)) (show 256 > 0 by decide)
  have h3 := Nat.mod_lt (m (p + 3)) (show 256 > 0 by decide)
  omega

theorem PUT_bytes (m : Mem) (p v a : Nat) (h : a < p ∨ p + 4 ≤ a) : PUT m p v a = m a := by
  unfold PUT
  rw [if_neg (by omega), if_neg (by omega), if_neg (by omega), if_neg (by omega)]

theorem GET_congr (m m1 : Mem) (q : Nat) (h : ∀ a, q ≤ a → a < q + 4 → m1 a = m a) :
    GET m1 q = GET m q := by
  unfold GET
  rw [h q (by omega) (by omega), h (q + 1) (by omega) (by omega),
    h (q + 2) (by omega) (by omega), h (q + 3) (by omega) (by omega)]

theorem GET_PUT_same (m : Mem) (p v : Nat) : GET (PUT m p v) p = v % W32 := by
  unfold GET PUT W32
  simp only [if_true, if_neg (show p + 1 ≠ p by omega), if_neg (show p + 2 ≠ p by omega),
    if_neg (show p + 3 ≠ p by omega), if_neg (show p + 2 ≠ p + 1 by omega),
    if_neg (show p + 3 ≠ p + 1 by omega), if_neg (show p + 3 ≠ p + 2 by omega)]
  omega

theorem GET_PUT_disj (m : Mem) (p v q : Nat) (h : q + 4 ≤ p ∨ p + 4 ≤ q) :
    GET (PUT m p v) q = GET m q :=
  GET_congr _ _ _ fun a h1 h2 => PUT_bytes m p v a (by omega)

theorem GET_PUT_same_lt (m : Mem) (p v : Nat) (hv : v < W32) : GET (PUT m p v) p = v := by
  rw [GET_PUT_same, Nat.mod_eq_of_lt hv]

/-! ## Bit operations of the macros -/

theorem testBit_mask8 (i : Nat) : Nat.testBit 4294967288 i = (decide (3 ≤ i) && decide (i < 32)) := by
  by_cases h : i < 32
  · interval_cases i <;> rfl
  · rw [Nat.testBit_lt_two_pow]
    · simp [h]
    · calc 4294967288 < 2 ^ 32 := by norm_num
        _ ≤ 2 ^ i := Nat.pow_le_pow_right (by norm_num) (by omega)

theorem and_mask8 (v : Nat) (hv : v < W32) : v &&& 4294967288 = v - v % 8 := by
  have e : v - v % 8 = 2 ^ 3 * (v / 2 ^ 3) := by norm_num; omega
  rw [e]
  apply Nat.eq_of_testBit_eq
  intro i
  rw [Nat.testBit_and, testBit_mask8, Nat.testBit_mul_pow_two, ← Nat.shiftRight_eq_div_pow,
    Nat.testBit_shiftRight]
  by_cases h3 : 3 ≤ i
  · by_cases h32 : i < 32
    · simp [h3, h32, show 3 + (i - 3) = i by omega]
    · have : v.testBit i = false := by
        apply Nat.testBit_lt_two_pow
        calc v < 2 ^ 32 := hv
          _ ≤ 2 ^ i := Nat.pow_le_pow_right (by norm_num) (by omega)
      simp [h3, h32, show 3 + (i - 3) = i by omega, this]
  · simp [h3]

theorem PACK_zero (s : Nat) : PACK s 0 = s := by
  unfold PACK; exact Nat.or_zero s

theorem PACK_one (s : Nat) (h : s % 8 = 0) : PACK s 1 = s + 1 := by
  unfold PACK
  have e : s = 2 ^ 3 * (s / 8) := by norm_num; omega
  rw [e, ← Nat.mul_add_lt_is_or (by norm_num)]

theorem PACK_eq (s al : Nat) (h : s % 8 = 0) (hal : al ≤ 1) : PACK s al = s + al := by
  rcases Nat.le_one_iff_eq_zero_or_eq_one.mp hal with rfl | rfl
  · exact PACK_zero s
  · exact PACK_one s h

theorem GET_SIZE_eq (m : Mem) (p s al : Nat) (hg : GET m p = s + al) (h : s % 8 = 0)
    (hal : al ≤ 1) : GET_SIZE m p = s := by
  unfold GET_SIZE
  rw [and_mask8 _ (GET_lt m p), hg]; omega

theorem GET_ALLOC_eq (m : Mem) (p s al : Nat) (hg : GET m p = s + al) (h : s % 8 = 0)
    (hal : al ≤ 1) : GET_ALLOC m p = al := by
  unfold GET_ALLOC
  rw [Nat.and_one_is_mod, hg]; omega

theorem GET_SIZE_lt (m : Mem) (p : Nat) : GET_SIZE m p < W32 := by
  unfold GET_SIZE
  rw [and_mask8 _ (GET_lt m p)]
  have := GET_lt m p
  omega

theorem GET_SIZE_mod (m : Mem) (p : Nat) : GET_SIZE m p % 8 = 0 := by
  unfold GET_SIZE
  rw [and_mask8 _ (GET_lt m p)]
  omega

/-! ## Tilings -/

theorem Tiles_append (m : Mem) (xs ys : List Blk) (a e : Nat) :
    Tiles m a (xs ++ ys) e ↔ ∃ c, Tiles m a xs c ∧ Tiles m c ys e := by
  induction xs generalizing a with
  | nil => simp [Tiles]
  | cons b xs ih =>
    show (b.bp = a ∧ BlkOK m b ∧ Tiles m (a + b.size) (xs ++ ys) e) ↔
      ∃ c, (b.bp = a ∧ BlkOK m b ∧ Tiles m (a + b.size) xs c) ∧ Tiles m c ys e
    rw [ih]
    constructor
    · rintro ⟨h1, h2, c, h3, h4⟩; exact ⟨c, ⟨h1, h2, h3⟩, h4⟩
    · rintro ⟨c, ⟨h1, h2, h3⟩, h4⟩; exact ⟨h1, h2, c, h3, h4⟩

theorem Tiles_length (m : Mem) (bs : List Blk) (a e : Nat) (h : Tiles m a bs e) :
    a + 16 * bs.length ≤ e ∧ e % 8 = a % 8 := by
  induction bs generalizing a with
  | nil => simp [Tiles] at h; subst h; simp
  | cons b bs ih =>
    obtain ⟨_, hb, ht⟩ := h
    have := ih _ ht
    obtain ⟨h8, h16, _⟩ := hb
    simp only [List.length_cons]
    omega

theorem Tiles_le (m : Mem) (bs : List Blk) (a e : Nat) (h : Tiles m a bs e) : a ≤ e := by
  have := (Tiles_length m bs a e h).1; omega

theorem Tiles_mem (m : Mem) (bs : List Blk) (a e : Nat) (h : Tiles m a bs e) (c : Blk)
    (hc : c ∈ bs) :
    a ≤ c.bp ∧ c.bp + c.size ≤ e ∧ BlkOK m c ∧ c.bp % 8 = a % 8 ∧ 16 ≤ c.size := by
  induction bs generalizing a with
  | nil => cases hc
  | cons b bs ih =>
    obtain ⟨h1, hb, ht⟩ := h
    have hle := Tiles_le _ _ _ _ ht
    rcases List.mem_cons.mp hc with rfl | hc
    · exact ⟨by omega, by omega, hb, by rw [h1], hb.2.1⟩
    · have := ih _ ht hc
      obtain ⟨h8, h16, _⟩ := hb
      exact ⟨by omega, by omega, this.2.2.1, by omega, this.2.2.2.2⟩

/-- Two blocks of a tiling are the same block or have disjoint extents. -/
theorem Tiles_disjoint (m : Mem) (bs : List Blk) (a e : Nat) (h : Tiles m a bs e)
    (c d : Blk) (hc : c ∈ bs) (hd : d ∈ bs) :
    c = d ∨ c.bp + c.size ≤ d.bp ∨ d.bp + d.size ≤ c.bp := by
  induction bs generalizing a with
  | nil => cases hc
  | cons b bs ih =>
    obtain ⟨h1, hb, ht⟩ := h
    rcases List.mem_cons.mp hc with hc1 | hc1 <;> rcases List.mem_cons.mp hd with hd1 | hd1
    · left; rw [hc1, hd1]
    · have := Tiles_mem _ _ _ _ ht d hd1
      subst hc1
      right; left; omega
    · have := Tiles_mem _ _ _ _ ht c hc1
      subst hd1
      right; right; omega
    · exact ih _ ht hc1 hd1

/-- A tiling is determined by the payload address: blocks with the same `bp` are equal. -/
theorem Tiles_bp_inj (m : Mem) (bs : List Blk) (a e : Nat) (h : Tiles m a bs e)
    (c d : Blk) (hc : c ∈ bs) (hd : d ∈ bs) (hbp : c.bp = d.bp) : c = d := by
  rcases Tiles_disjoint m bs a e h c d hc hd with h1 | h1 | h1
  · exact h1
  · have := (Tiles_mem m bs a e h c hc).2.2.2.2; omega
  · have := (Tiles_mem m bs a e h d hd).2.2.2.2; omega

/-- Frame rule for tilings: a tiling only depends on its header and footer words, so it
survives any change confined to the first 8 payload bytes of its blocks and to bytes outside
the tiled region (which starts 4 bytes before `a` and ends 4 bytes before `e`). -/
theorem Tiles_frame (m m1 : Mem) (bs : List Blk) (a e : Nat) (h4 : 4 ≤ a)
    (h : Tiles m a bs e)
    (hf : ∀ x, a ≤ x + 4 → x + 4 < e → (∀ c ∈ bs, x < c.bp ∨ c.bp + 8 ≤ x) → m1 x = m x) :
    Tiles m1 a bs e := by
  induction bs generalizing a with
  | nil => exact h
  | cons b bs ih =>
    obtain ⟨h1, hb, ht⟩ := h
    have hle := Tiles_le _ _ _ _ ht
    obtain ⟨h8, h16, hal, hh, hfo⟩ := hb
    have out : ∀ x, a ≤ x + 4 → x + 4 < e → (x < b.bp ∨ b.bp + 8 ≤ x) → x + 4 < a + b.size →
        m1 x = m x := by
      intro x hx1 hx2 hx3 hx4
      apply hf x hx1 hx2
      intro c hc
      rcases List.mem_cons.mp hc with rfl | hc
      · exact hx3
      · have := Tiles_mem _ _ _ _ ht c hc
        left; omega
    refine ⟨h1, ⟨h8, h16, hal, ?_, ?_⟩, ?_⟩
    · rw [← hh]; apply GET_congr; intro x hx1 hx2
      exact out x (by omega) (by omega) (by omega) (by omega)
    · rw [← hfo]; apply GET_congr; intro x hx1 hx2
      exact out x (by omega) (by omega) (by omega) (by omega)
    · apply ih _ (by omega) ht
      intro x hx1 hx2 hx3
      apply hf x (by omega) hx2
      intro c hc
      rcases List.mem_cons.mp hc with rfl | hc
      · right; omega
      · exact hx3 c hc

theorem Tiles_frame_range (m m1 : Mem) (bs : List Blk) (a e : Nat) (h4 : 4 ≤ a)
    (h : Tiles m a bs e)
    (hf : ∀ x, a ≤ x + 4 → x + 4 < e → m1 x = m x) : Tiles m1 a bs e :=
  Tiles_frame m m1 bs a e h4 h fun x h1 h2 _ => hf x h1 h2

/-- Writing the two tags of a region turns it into one block of the tiling. -/
theorem Tiles_set_block (m : Mem) (pre post : List Blk) (a0 bp e s al : Nat) (h4 : 4 ≤ a0)
    (hpre : Tiles m a0 pre bp) (hpost : Tiles m (bp + s) post e)
    (h8 : s % 8 = 0) (h16 : 16 ≤ s) (hal : al ≤ 1) (hlt : s + al < W32) :
    Tiles (PUT (PUT m (bp - 4) (s + al)) (bp + s - 8) (s + al)) a0
      (pre ++ ⟨bp, s, al⟩ :: post) e := by
  have hle := Tiles_le _ _ _ _ hpre
  rw [Tiles_append]
  refine ⟨bp, ?_, ?_, ⟨h8, h16, hal, ?_, ?_⟩, ?_⟩
  · apply Tiles_frame_range _ _ _ _ _ h4 hpre
    intro x h1 h2
    rw [PUT_bytes _ _ _ _ (by omega), PUT_bytes _ _ _ _ (by omega)]
  · rfl
  · show GET _ (bp - 4) = _
    rw [GET_PUT_disj _ _ _ _ (by omega), GET_PUT_same_lt _ _ _ hlt]
  · show GET _ (bp + s - 8) = _
    rw [GET_PUT_same_lt _ _ _ hlt]
  · apply Tiles_frame_range _ _ _ _ _ (by omega) hpost
    intro x h1 h2
    rw [PUT_bytes _ _ _ _ (by omega), PUT_bytes _ _ _ _ (by omega)]

theorem Tiles_end (m : Mem) (bs : List Blk) (a e e1 : Nat) (h : Tiles m a bs e)
    (h1 : Tiles m a bs e1) : e = e1 := by
  induction bs generalizing a with
  | nil => exact h.symm.trans h1
  | cons b bs ih => exact ih _ h.2.2 h1.2.2

theorem Tiles_snoc (m : Mem) (pre : List Blk) (p : Blk) (a e : Nat)
    (h : Tiles m a (pre ++ [p]) e) :
    Tiles m a pre p.bp ∧ BlkOK m p ∧ p.bp + p.size = e ∧ a ≤ p.bp := by
  rw [Tiles_append] at h
  obtain ⟨c, h1, h2, h3, h4⟩ := h
  have h4' : c + p.size = e := h4
  have := Tiles_le _ _ _ _ h1
  refine ⟨by rw [h2]; exact h1, h3, by omega, by omega⟩

/-! ## Chains -/

theorem Chain_frame (m m1 : Mem) (S : Nat) (L : List Nat) (p c : Nat) (h : Chain m S p c L)
    (hf : ∀ y ∈ L, ∀ x, y ≤ x → x < y + 8 → m1 x = m x) : Chain m1 S p c L := by
  induction L generalizing p c with
  | nil => exact h
  | cons y L ih =>
    obtain ⟨h1, h2, h3⟩ := h
    have e1 : GET m1 (y + 4) = GET m (y + 4) :=
      GET_congr _ _ _ fun x hx1 hx2 => hf y (List.mem_cons_self _ _) x (by omega) (by omega)
    have e2 : GET m1 y = GET m y :=
      GET_congr _ _ _ fun x hx1 hx2 => hf y (List.mem_cons_self _ _) x (by omega) (by omega)
    refine ⟨h1, by rw [e1]; exact h2, ?_⟩
    rw [e2]
    exact ih _ _ h3 fun z hz x => hf z (List.mem_cons_of_mem _ hz) x

theorem Sep_cons (S : Nat) (y : Nat) (L : List Nat) (h : Sep S (y :: L)) : Sep S L :=
  ⟨h.1, fun z hz => ⟨(h.2 z (List.mem_cons_of_mem _ hz)).1, (h.2 z (List.mem_cons_of_mem _ hz)).2.1,
    fun w hw => (h.2 z (List.mem_cons_of_mem _ hz)).2.2 w (List.mem_cons_of_mem _ hw)⟩⟩

theorem Sep_sub (S : Nat) (L L1 : List Nat) (h : Sep S L) (hs : ∀ y ∈ L1, y ∈ L) : Sep S L1 :=
  ⟨h.1, fun z hz => ⟨(h.2 z (hs z hz)).1, (h.2 z (hs z hz)).2.1,
    fun w hw => (h.2 z (hs z hz)).2.2 w (hs w hw)⟩⟩

/-- The head of a chain is its first member, or the sentinel. -/
theorem Chain_head (m : Mem) (S p c : Nat) (L : List Nat) (h : Chain m S p c L) :
    c = L.headD S := by
  cases L with
  | nil => exact h
  | cons y L => exact h.1

/-- Storing a new `prev` pointer in the head of a chain (in the sentinel when the chain is
empty). -/
theorem Chain_set_prev (m : Mem) (S p c q : Nat) (L : List Nat) (h : Chain m S p c L)
    (hs : Sep S L) (hnd : L.Nodup) (hq : q < W32) : Chain (PUT m (c + 4) q) S q c L := by
  cases L with
  | nil => exact h
  | cons y L =>
    obtain ⟨h1, h2, h3⟩ := h
    subst h1
    refine ⟨rfl, GET_PUT_same_lt _ _ _ hq, ?_⟩
    rw [GET_PUT_disj _ _ _ _ (by omega)]
    apply Chain_frame _ _ _ _ _ _ h3
    intro z hz x hx1 hx2
    have hne : c ≠ z := fun e => (List.nodup_cons.mp hnd).1 (e ▸ hz)
    have := (hs.2 c (List.mem_cons_self _ _)).2.2 z (List.mem_cons_of_mem _ hz)
    apply PUT_bytes; omega

/-! ## Free-list operations on chains -/

theorem headD_sep (S : Nat) (L l2 : List Nat) (y : Nat) (hs : Sep S L) (hy : y ∈ L)
    (hsub : ∀ z ∈ l2, z ∈ L) (hny : y ∉ l2) :
    l2.headD S < W32 ∧ (l2.headD S + 8 ≤ y ∨ y + 8 ≤ l2.headD S) := by
  cases l2 with
  | nil => exact ⟨hs.1, Or.inl (hs.2 y hy).1⟩
  | cons z l2 =>
    simp only [List.headD_cons]
    have hz := hsub z (List.mem_cons_self _ _)
    have hne : y ≠ z := fun e => hny (e ▸ List.mem_cons_self _ _)
    have := (hs.2 y hy).2.2 z hz
    exact ⟨(hs.2 z hz).2.1, by omega⟩

/-- Unlinking the first member of the list: the `else` branch of `remove_from_free_list`. -/
theorem Chain_remove_head (m : Mem) (S x c0 : Nat) (l2 : List Nat)
    (h : Chain m S 0 c0 (x :: l2)) (hs : Sep S (x :: l2)) (hnd : (x :: l2).Nodup) :
    c0 = x ∧ GET m (x + 4) = 0 ∧ GET m x = l2.headD S ∧
    Chain (PUT m (GET m x + 4) 0) S 0 (GET m x) l2 := by
  obtain ⟨h1, h2, h3⟩ := h
  exact ⟨h1, h2, Chain_head _ _ _ _ _ h3,
    Chain_set_prev _ _ _ _ _ _ h3 (Sep_cons _ _ _ hs) (List.nodup_cons.mp hnd).2 (by decide)⟩

/-- Unlinking a member that has a predecessor: the `if` branch of `remove_from_free_list`. -/
theorem Chain_remove_mid (m : Mem) (S x : Nat) (l1 l2 : List Nat) (p0 c0 : Nat)
    (h : Chain m S p0 c0 (l1 ++ x :: l2)) (hne : l1 ≠ [])
    (hs : Sep S (l1 ++ x :: l2)) (hnd : (l1 ++ x :: l2).Nodup) :
    GET m (x + 4) ∈ l1 ∧ GET m x = l2.headD S ∧
    Chain (PUT (PUT m (GET m (x + 4)) (GET m x)) (GET m x + 4) (GET m (x + 4))) S p0 c0
      (l1 ++ l2) := by
  induction l1 generalizing p0 c0 with
  | nil => exact absurd rfl hne
  | cons y l1 ih =>
    obtain ⟨h1, h2, h3⟩ := h
    have hy : y ∈ y :: l1 ++ x :: l2 := List.mem_cons_self _ _
    have hnd' : (y :: (l1 ++ x :: l2)).Nodup := hnd
    have hndt := (List.nodup_cons.mp hnd').2
    have hynot := (List.nodup_cons.mp hnd').1
    have hs' : Sep S (y :: (l1 ++ x :: l2)) := hs
    have hyS := (hs.2 y hy)
    cases l1 with
    | nil =>
      obtain ⟨h4, h5, h6⟩ := h3
      have hnx := Chain_head _ _ _ _ _ h6
      have hsep := headD_sep S _ l2 y hs hy
        (fun z hz => List.mem_cons_of_mem _ (List.mem_cons_of_mem _ hz))
        (fun hz => hynot (List.mem_cons_of_mem _ hz))
      rw [← hnx] at hsep
      have hxy : x ≠ y := fun e => hynot (e ▸ List.mem_cons_self _ _)
      have hxsep := hyS.2.2 x (List.mem_cons_of_mem _ (List.mem_cons_self _ _))
      refine ⟨by rw [h5]; exact List.mem_cons_self _ _, hnx, ?_⟩
      rw [h5]
      refine ⟨h1, ?_, ?_⟩
      · rw [GET_PUT_disj _ _ _ _ (by omega), GET_PUT_disj _ _ _ _ (by omega)]; exact h2
      · rw [GET_PUT_disj _ _ _ _ (by omega), GET_PUT_same_lt _ _ _ hsep.1]
        refine Chain_set_prev _ _ x _ _ _ ?_ (Sep_sub _ _ _ hs
          (fun z hz => List.mem_cons_of_mem _ (List.mem_cons_of_mem _ hz)))
          (List.nodup_cons.mp hndt).2 hyS.2.1
        apply Chain_frame _ _ _ _ _ _ h6
        intro z hz a ha1 ha2
        have hzy : y ≠ z := fun e => hynot (e ▸ List.mem_cons_of_mem _ hz)
        have := hyS.2.2 z (List.mem_cons_of_mem _ (List.mem_cons_of_mem _ hz))
        apply PUT_bytes; omega
    | cons y' l1' =>
      have ih' := ih y (GET m y) h3 (by simp) (Sep_cons _ _ _ hs') hndt
      obtain ⟨i1, i2, i3⟩ := ih'
      have hpv : GET m (x + 4) ∈ y :: (y' :: l1' ++ x :: l2) :=
        List.mem_cons_of_mem _ (List.mem_append_left _ i1)
      have hpvy : y ≠ GET m (x + 4) := fun e => hynot (e ▸ List.mem_append_left _ i1)
      have hpvsep := hyS.2.2 _ hpv
      have hsep := headD_sep S _ l2 y hs hy
        (fun z hz => List.mem_cons_of_mem _ (List.mem_append_right _ (List.mem_cons_of_mem _ hz)))
        (fun hz => hynot (List.mem_append_right _ (List.mem_cons_of_mem _ hz)))
      rw [← i2] at hsep
      refine ⟨List.mem_cons_of_mem _ i1, i2, h1, ?_, ?_⟩
      · rw [GET_PUT_disj _ _ _ _ (by omega), GET_PUT_disj _ _ _ _ (by omega)]; exact h2
      · rw [GET_PUT_disj _ _ _ _ (by omega), GET_PUT_disj _ _ _ _ (by omega)]; exact i3

/-- Linking a new first member: `insert_in_free_list`. -/
theorem Chain_insert (m : Mem) (S x c0 : Nat) (L : List Nat)
    (h : Chain m S 0 c0 L) (hs : Sep S (x :: L)) (hnd : (x :: L).Nodup) :
    Chain (PUT (PUT (PUT m x c0) (c0 + 4) x) (x + 4) 0) S 0 x (x :: L) := by
  have hx := hs.2 x (List.mem_cons_self _ _)
  have hc := Chain_head _ _ _ _ _ h
  have hsep := headD_sep S _ L x hs (List.mem_cons_self _ _)
    (fun z hz => List.mem_cons_of_mem _ hz) (List.nodup_cons.mp hnd).1
  rw [← hc] at hsep
  refine ⟨rfl, GET_PUT_same_lt _ _ _ (by decide), ?_⟩
  rw [GET_PUT_disj _ _ _ _ (by omega), GET_PUT_disj _ _ _ _ (by omega),
    GET_PUT_same_lt _ _ _ hsep.1]
  apply Chain_frame _ _ _ _ _ _
    (Chain_set_prev (PUT m x c0) S 0 c0 x L ?_ (Sep_cons _ _ _ hs) (List.nodup_cons.mp hnd).2
      hx.2.1)
  · intro z hz a ha1 ha2
    have hzx : x ≠ z := fun e => (List.nodup_cons.mp hnd).1 (e ▸ hz)
    have := hx.2.2 z (List.mem_cons_of_mem _ hz)
    apply PUT_bytes; omega
  · apply Chain_frame _ _ _ _ _ _ h
    intro z hz a ha1 ha2
    have hzx : x ≠ z := fun e => (List.nodup_cons.mp hnd).1 (e ▸ hz)
    have := hx.2.2 z (List.mem_cons_of_mem _ hz)
    apply PUT_bytes; omega

/-! ## Free-list operations on heaps -/

theorem remove_fields (h : Heap) (x : Nat) :
    (remove_from_free_list h x).brk = h.brk ∧
    (remove_from_free_list h x).limit = h.limit ∧
    (remove_from_free_list h x).heap_listp = h.heap_listp ∧
    (remove_from_free_list h x).last_malloced_size = h.last_malloced_size ∧
    (remove_from_free_list h x).repeat_counter = h.repeat_counter := by
  unfold remove_from_free_list
  dsimp only
  split_ifs <;> exact ⟨rfl, rfl, rfl, rfl, rfl⟩

theorem insert_fields (h : Heap) (x : Nat) :
    (insert_in_free_list h x).brk = h.brk ∧
    (insert_in_free_list h x).limit = h.limit ∧
    (insert_in_free_list h x).heap_listp = h.heap_listp ∧
    (insert_in_free_list h x).last_malloced_size = h.last_malloced_size ∧
    (insert_in_free_list h x).repeat_counter = h.repeat_counter ∧
    (insert_in_free_list h x).free_list_start = x :=
  ⟨rfl, rfl, rfl, rfl, rfl, rfl⟩

theorem erase_mid (l1 l2 : List Nat) (x : Nat) (hnd : (l1 ++ x :: l2).Nodup) :
    (l1 ++ x :: l2).erase x = l1 ++ l2 := by
  have hx : x ∉ l1 := fun hx => by
    have := List.nodup_append.mp hnd
    exact this.2.2 hx (List.mem_cons_self _ _)
  rw [List.erase_append_right _ hx, List.erase_cons_head]

theorem remove_chain (h : Heap) (S x : Nat) (L : List Nat)
    (hc : Chain h.mem S 0 h.free_list_start L) (hs : Sep S L) (hnd : L.Nodup) (hx : x ∈ L) :
    Chain (remove_from_free_list h x).mem S 0 (remove_from_free_list h x).free_list_start
      (L.erase x) ∧
    (∀ a, ¬ InLinks S (L.erase x) a → (remove_from_free_list h x).mem a = h.mem a) := by
  obtain ⟨l1, l2, rfl⟩ := List.append_of_mem hx
  rw [erase_mid l1 l2 x hnd]
  have hxs := hs.2 x hx
  cases l1 with
  | nil =>
    obtain ⟨h1, h2, h3, h4⟩ := Chain_remove_head _ _ _ _ _ hc hs hnd
    have hp : ¬ (GET_PREV_PTR h.mem x ≠ 0) := by
      unfold GET_PREV_PTR WSIZE; rw [h2]; simp
    unfold remove_from_free_list
    simp only [if_neg hp]
    simp only [GET_PREV_PTR, GET_NEXT_PTR, SET_PREV_PTR, WSIZE, h2, List.nil_append]
    refine ⟨h4, ?_⟩
    intro a ha
    apply PUT_bytes
    by_contra hcon
    apply ha
    rw [h3] at hcon
    cases l2 with
    | nil => left; simp only [List.headD_nil] at hcon; omega
    | cons z l2 =>
      right; simp only [List.headD_cons] at hcon
      exact ⟨z, List.mem_cons_self _ _, by omega, by omega⟩
  | cons y l1 =>
    obtain ⟨h1, h2, h3⟩ := Chain_remove_mid _ _ _ _ _ _ _ hc (by simp) hs hnd
    have hpv := hs.2 _ (List.mem_append_left (x :: l2) h1)
    have hxpv : x ≠ GET h.mem (x + 4) := fun e => by
      have := List.nodup_append.mp hnd
      exact this.2.2 (e ▸ h1) (List.mem_cons_self _ _)
    have hsep := hxs.2.2 _ (List.mem_append_left (x :: l2) h1)
    have hp : GET_PREV_PTR h.mem x ≠ 0 := by
      unfold GET_PREV_PTR WSIZE; omega
    have e1 : GET (PUT h.mem (GET h.mem (x + 4)) (GET h.mem x)) x = GET h.mem x :=
      GET_PUT_disj _ _ _ _ (by omega)
    have e2 : GET (PUT h.mem (GET h.mem (x + 4)) (GET h.mem x)) (x + 4) = GET h.mem (x + 4) :=
      GET_PUT_disj _ _ _ _ (by omega)
    unfold remove_from_free_list
    simp only [if_pos hp]
    simp only [GET_PREV_PTR, GET_NEXT_PTR, SET_PREV_PTR, SET_NEXT_PTR, WSIZE, e1, e2]
    refine ⟨h3, ?_⟩
    intro a ha
    rw [PUT_bytes, PUT_bytes]
    · by_contra hcon
      exact ha (Or.inr ⟨_, List.mem_append_left _ h1, by omega, by omega⟩)
    · by_contra hcon
      apply ha
      rw [h2] at hcon
      cases l2 with
      | nil => left; simp only [List.headD_nil] at hcon; omega
      | cons z l2 =>
        right; simp only [List.headD_cons] at hcon
        exact ⟨z, List.mem_append_right _ (List.mem_cons_self _ _), by omega, by omega⟩

theorem insert_chain (h : Heap) (S x : Nat) (L : List Nat)
    (hc : Chain h.mem S 0 h.free_list_start L) (hs : Sep S (x :: L)) (hnd : (x :: L).Nodup) :
    Chain (insert_in_free_list h x).mem S 0 (insert_in_free_list h x).free_list_start (x :: L) ∧
    (∀ a, ¬ InLinks S (x :: L) a → (insert_in_free_list h x).mem a = h.mem a) := by
  refine ⟨Chain_insert _ _ _ _ _ hc hs hnd, ?_⟩
  intro a ha
  have hd := Chain_head _ _ _ _ _ hc
  show PUT (PUT (PUT h.mem x h.free_list_start) (h.free_list_start + 4) x) (x + 4) 0 a = h.mem a
  rw [PUT_bytes, PUT_bytes, PUT_bytes]
  · by_contra hcon
    exact ha (Or.inr ⟨x, List.mem_cons_self _ _, by omega, by omega⟩)
  · by_contra hcon
    apply ha
    rw [hd] at hcon
    cases L with
    | nil => left; simp only [List.headD_nil] at hcon; omega
    | cons z L =>
      right; simp only [List.headD_cons] at hcon
      exact ⟨z, List.mem_cons_of_mem _ (List.mem_cons_self _ _), by omega, by omega⟩
  · by_contra hcon
    exact ha (Or.inr ⟨x, List.mem_cons_self _ _, by omega, by omega⟩)

/-- The two tag writes `PUT(HDRP(bp), PACK(s, al)); PUT(FTRP(bp), PACK(s, al))`. -/
theorem set_tags (m : Mem) (bp s al : Nat) (h8 : s % 8 = 0) (hal : al ≤ 1)
    (hlt : s + al < W32) :
    PUT (PUT m (HDRP bp) (PACK s al)) (FTRP (PUT m (HDRP bp) (PACK s al)) bp) (PACK s al) =
      PUT (PUT m (bp - 4) (s + al)) (bp + s - 8) (s + al) := by
  have e : PACK s al = s + al := PACK_eq s al h8 hal
  have g : GET_SIZE (PUT m (bp - 4) (s + al)) (bp - 4) = s :=
    GET_SIZE_eq _ _ s al (GET_PUT_same_lt _ _ _ hlt) h8 hal
  unfold FTRP HDRP WSIZE DSIZE
  rw [e, g]

/-! ## Arena lemmas -/

/-- The members of a tiling of the arena are separated list addresses. -/
theorem Arena_sep (h : Heap) (bs : List Blk) (X : List Nat) (ha : Arena h bs)
    (hX : ∀ y ∈ X, ∃ c ∈ bs, c.bp = y) : Sep (h.heap_listp + 8) X := by
  have hbl := ha.brk_le
  have hll := ha.limit_lt
  have hbg := ha.brk_ge
  refine ⟨by omega, ?_⟩
  intro y hy
  obtain ⟨c, hc, rfl⟩ := hX y hy
  have hcm := Tiles_mem _ _ _ _ ha.tiles c hc
  refine ⟨by omega, by omega, ?_⟩
  intro z hz
  obtain ⟨d, hd, rfl⟩ := hX z hz
  have hdm := Tiles_mem _ _ _ _ ha.tiles d hd
  rcases Tiles_disjoint _ _ _ _ ha.tiles c d hc hd with e | e | e
  · left; rw [e]
  · right; left; omega
  · right; right; omega

/-- Rebuilding the arena after a change of memory that leaves the prologue header, the pad
word and the epilogue alone. -/
theorem Arena_rebuild (h h1 : Heap) (bs bs1 : List Blk) (ha : Arena h bs)
    (hb : h1.brk = h.brk) (hl : h1.limit = h.limit) (hp : h1.heap_listp = h.heap_listp)
    (ht : Tiles h1.mem (h.heap_listp + 32) bs1 h.brk)
    (hf : ∀ a, (a < h.heap_listp + 12 ∨ (h.heap_listp + 16 ≤ a ∧ a < h.heap_listp + 28) ∨
      h.brk - 4 ≤ a) → h1.mem a = h.mem a) : Arena h1 bs1 := by
  have hbg := ha.brk_ge
  refine ⟨by rw [hp]; exact ha.base_pos, by rw [hb, hl]; exact ha.brk_le,
    by rw [hl]; exact ha.limit_lt, by rw [hp, hb]; exact ha.brk_ge, ?_, ?_, by rw [hp, hb]; exact ht, ?_⟩
  · rw [hp, ← ha.prologue]; exact GET_congr _ _ _ fun a h1 h2 => hf a (by omega)
  · rw [hp, ← ha.pad]; exact GET_congr _ _ _ fun a h1 h2 => hf a (by omega)
  · rw [hb, ← ha.epilogue]; exact GET_congr _ _ _ fun a h1 h2 => hf a (by omega)

/-- Link bytes of blocks of the arena lie in the sentinel's `prev` word or in payloads. -/
theorem InLinks_range (h : Heap) (bs : List Blk) (X : List Nat) (_ha : Arena h bs)
    (hX : ∀ y ∈ X, ∃ c ∈ bs, c.bp = y) (a : Nat) (hin : InLinks (h.heap_listp + 8) X a) :
    (h.heap_listp + 12 ≤ a ∧ a < h.heap_listp + 16) ∨
    ∃ c ∈ bs, c.bp ∈ X ∧ c.bp ≤ a ∧ a < c.bp + 8 := by
  rcases hin with hin | ⟨y, hy, h1, h2⟩
  · left; omega
  · obtain ⟨c, hc, rfl⟩ := hX y hy
    exact Or.inr ⟨c, hc, hy, h1, h2⟩

/-- The arena survives the writes of the free-list operations. -/
theorem Arena_links (h h1 : Heap) (bs : List Blk) (X : List Nat) (ha : Arena h bs)
    (hX : ∀ y ∈ X, ∃ c ∈ bs, c.bp = y)
    (hb : h1.brk = h.brk) (hl : h1.limit = h.limit) (hp : h1.heap_listp = h.heap_listp)
    (hf : ∀ a, ¬ InLinks (h.heap_listp + 8) X a → h1.mem a = h.mem a) : Arena h1 bs := by
  have hbg := ha.brk_ge
  have key : ∀ a, (∀ c ∈ bs, a < c.bp ∨ c.bp + 8 ≤ a) →
      (a < h.heap_listp + 12 ∨ h.heap_listp + 16 ≤ a) → h1.mem a = h.mem a := by
    intro a h1 h2
    apply hf
    intro hin
    rcases InLinks_range h bs X ha hX a hin with h3 | ⟨c, hc, _, h4, h5⟩
    · omega
    · have := h1 c hc; omega
  apply Arena_rebuild h h1 bs bs ha hb hl hp
  · apply Tiles_frame _ _ _ _ _ (by omega) ha.tiles
    intro x hx1 hx2 hx3
    exact key x hx3 (by omega)
  · intro a hcase
    apply key a _ (by omega)
    intro c hc
    have := Tiles_mem _ _ _ _ ha.tiles c hc
    omega

/-! ## Reading the tags of a block and of its neighbours -/

theorem read_hdr (m : Mem) (b : Blk) (hb : BlkOK m b) :
    GET_SIZE m (HDRP b.bp) = b.size ∧ GET_ALLOC m (HDRP b.bp) = b.alloc ∧
    GET_SIZE m (b.bp - WSIZE) = b.size ∧
    FTRP m b.bp = b.bp + b.size - 8 ∧ NEXT_BLK m b.bp = b.bp + b.size := by
  obtain ⟨h8, h16, hal, hh, hf⟩ := hb
  have e1 : GET_SIZE m (b.bp - 4) = b.size := GET_SIZE_eq m _ _ _ hh h8 hal
  have e2 : GET_ALLOC m (b.bp - 4) = b.alloc := GET_ALLOC_eq m _ _ _ hh h8 hal
  unfold FTRP NEXT_BLK HDRP WSIZE DSIZE
  exact ⟨e1, e2, e1, by rw [e1], by rw [e1]⟩

theorem read_ftr (m : Mem) (b : Blk) (hb : BlkOK m b) :
    GET_SIZE m (b.bp + b.size - 8) = b.size ∧ GET_ALLOC m (b.bp + b.size - 8) = b.alloc := by
  obtain ⟨h8, h16, hal, hh, hf⟩ := hb
  exact ⟨GET_SIZE_eq m _ _ _ hf h8 hal, GET_ALLOC_eq m _ _ _ hf h8 hal⟩

/-- The previous block seen from `bp` when the block before it is `p`. -/
theorem read_prev (m : Mem) (p : Blk) (bp : Nat) (hp : BlkOK m p) (he : p.bp + p.size = bp) :
    PREV_BLK m bp = p.bp ∧ GET_ALLOC m (FTRP m (PREV_BLK m bp)) = p.alloc ∧
    GET_SIZE m (HDRP (PREV_BLK m bp)) = p.size ∧ PREV_BLK m bp ≠ bp := by
  have h16 := hp.2.1
  have e0 : GET_SIZE m (bp - DSIZE) = p.size := by
    have := (read_ftr m p hp).1
    rw [show p.bp + p.size - 8 = bp - 8 by omega] at this
    exact this
  have e1 : PREV_BLK m bp = p.bp := by
    unfold PREV_BLK; rw [e0]; omega
  have hh := read_hdr m p hp
  rw [e1, hh.2.2.2.1]
  exact ⟨rfl, (read_ftr m p hp).2, hh.1, by omega⟩

/-- The previous block seen from the first block: the word before its header is zero. -/
theorem read_prev_none (m : Mem) (bp : Nat) (h0 : GET m (bp - 8) = 0) : PREV_BLK m bp = bp := by
  have : GET_SIZE m (bp - DSIZE) = 0 := GET_SIZE_eq m _ 0 0 h0 (by decide) (by decide)
  unfold PREV_BLK; rw [this]; rfl

/-! ## Writing the tags of the merged block and inserting it -/

/-- Blocks of the front part of a tiling lie before blocks of the back part. -/
theorem Tiles_lt (m : Mem) (pre post : List Blk) (a e : Nat) (h : Tiles m a (pre ++ post) e)
    (c d : Blk) (hc : c ∈ pre) (hd : d ∈ post) : c.bp + c.size ≤ d.bp ∧ c.bp < d.bp := by
  rw [Tiles_append] at h
  obtain ⟨x, h1, h2⟩ := h
  have := Tiles_mem _ _ _ _ h1 c hc
  have := Tiles_mem _ _ _ _ h2 d hd
  omega

theorem finish_arena (h : Heap) (bs pre post : List Blk) (bp s al : Nat)
    (ha : Arena h bs)
    (hpre : Tiles h.mem (h.heap_listp + 32) pre bp)
    (hpost : Tiles h.mem (bp + s) post h.brk)
    (h8 : s % 8 = 0) (h16 : 16 ≤ s) (hal : al ≤ 1) :
    Arena { h with mem := PUT (PUT h.mem (bp - 4) (s + al)) (bp + s - 8) (s + al) }
      (pre ++ ⟨bp, s, al⟩ :: post) := by
  have hle1 := Tiles_le _ _ _ _ hpre
  have hle2 := Tiles_le _ _ _ _ hpost
  have hbl := ha.brk_le
  have hll := ha.limit_lt
  refine Arena_rebuild h _ bs _ ha ?_ ?_ ?_ ?_ ?_
  · rfl
  · rfl
  · rfl
  · exact Tiles_set_block h.mem pre post _ bp _ s al (by omega) hpre hpost h8 h16 hal
      (by omega)
  · intro a hcase
    show PUT (PUT h.mem (bp - 4) (s + al)) (bp + s - 8) (s + al) a = h.mem a
    rw [PUT_bytes _ _ _ _ (by omega), PUT_bytes _ _ _ _ (by omega)]

/-- Link words of list members outside the region `[bp - 4, bp + s - 4)` survive the two tag
writes of that region. -/
theorem finish_listed (h : Heap) (L : List Nat) (bp s v : Nat) (hl : Listed h L)
    (hmemL : ∀ x ∈ L, x + 8 ≤ bp - 4 ∨ bp + s ≤ x) (hbp : 4 ≤ bp) (h16 : 16 ≤ s) :
    Listed { h with mem := PUT (PUT h.mem (bp - 4) v) (bp + s - 8) v } L := by
  refine ⟨?_, hl.nodup⟩
  apply Chain_frame _ _ _ _ _ _ hl.chain
  intro y hy x hx1 hx2
  have := hmemL y hy
  show PUT (PUT h.mem (bp - 4) v) (bp + s - 8) v x = h.mem x
  rw [PUT_bytes _ _ _ _ (by omega), PUT_bytes _ _ _ _ (by omega)]

theorem mem_pre_post_sep (m : Mem) (pre post : List Blk) (a bp s e : Nat)
    (hpre : Tiles m a pre bp) (hpost : Tiles m (bp + s) post e) (h4 : 4 ≤ a) (h16 : 16 ≤ s)
    (c : Blk)
    (hc : c ∈ pre ∨ c ∈ post) : (c.bp + 8 ≤ bp - 4 ∨ bp + s ≤ c.bp) ∧ c.bp ≠ bp := by
  have := Tiles_le _ _ _ _ hpre
  rcases hc with hc | hc
  · have := Tiles_mem _ _ _ _ hpre c hc
    omega
  · have := Tiles_mem _ _ _ _ hpost c hc
    omega

theorem finish_spec (h : Heap) (bs pre post : List Blk) (L : List Nat) (bp s : Nat)
    (ha : Arena h bs) (hl : Listed h L)
    (hpre : Tiles h.mem (h.heap_listp + 32) pre bp)
    (hpost : Tiles h.mem (bp + s) post h.brk)
    (h8 : s % 8 = 0) (h16 : 16 ≤ s)
    (hL1 : ∀ x ∈ L, ∃ c, (c ∈ pre ∨ c ∈ post) ∧ c.bp = x ∧ c.alloc = 0)
    (hL2 : ∀ c, (c ∈ pre ∨ c ∈ post) → c.alloc = 0 → c.bp ∈ L) :
    WF (insert_in_free_list { h with mem := PUT (PUT h.mem (bp - 4) s) (bp + s - 8) s } bp)
      (pre ++ ⟨bp, s, 0⟩ :: post) (bp :: L) := by
  have hle1 := Tiles_le _ _ _ _ hpre
  have ha1 := finish_arena h bs pre post bp s 0 ha hpre hpost h8 h16 (by decide)
  have hmemL : ∀ x ∈ L, (x + 8 ≤ bp - 4 ∨ bp + s ≤ x) ∧ x ≠ bp := by
    intro x hx
    obtain ⟨c, hc, rfl, _⟩ := hL1 x hx
    exact mem_pre_post_sep _ pre post _ bp s _ hpre hpost (by omega) h16 c hc
  have hl1 := finish_listed h L bp s s hl (fun x hx => (hmemL x hx).1) (by omega) h16
  have hblk : ∀ y ∈ bp :: L, ∃ c ∈ pre ++ ⟨bp, s, 0⟩ :: post, c.bp = y := by
    intro y hy
    rcases List.mem_cons.mp hy with rfl | hy
    · exact ⟨⟨y, s, 0⟩, by simp, rfl⟩
    · obtain ⟨c, hc, rfl, _⟩ := hL1 y hy
      refine ⟨c, ?_, rfl⟩
      rcases hc with hc | hc
      · exact List.mem_append_left _ hc
      · exact List.mem_append_right _ (List.mem_cons_of_mem _ hc)
  have hnd : (bp :: L).Nodup :=
    List.nodup_cons.mpr ⟨fun hin => (hmemL bp hin).2 rfl, hl.nodup⟩
  have hsep := Arena_sep _ _ (bp :: L) ha1 hblk
  obtain ⟨hc2, hf2⟩ := insert_chain _ _ bp L hl1.chain hsep hnd
  refine ⟨?_, ⟨hc2, hnd⟩, ?_, ?_⟩
  · exact Arena_links _ _ _ (bp :: L) ha1 hblk (by rfl) (by rfl) (by rfl) hf2
  · intro x hx
    rcases List.mem_cons.mp hx with rfl | hx
    · exact ⟨⟨x, s, 0⟩, by simp, rfl, rfl⟩
    · obtain ⟨c, hc, rfl, hc0⟩ := hL1 x hx
      refine ⟨c, ?_, rfl, hc0⟩
      rcases hc with hc | hc
      · exact List.mem_append_left _ hc
      · exact List.mem_append_right _ (List.mem_cons_of_mem _ hc)
  · intro c hc hc0
    rcases List.mem_append.mp hc with hc | hc
    · exact List.mem_cons_of_mem _ (hL2 c (Or.inl hc) hc0)
    · rcases List.mem_cons.mp hc with rfl | hc
      · exact List.mem_cons_self _ _
      · exact List.mem_cons_of_mem _ (hL2 c (Or.inr hc) hc0)

/-! ## One removal inside a tiled arena -/

theorem remove_step (h : Heap) (bs : List Blk) (L : List Nat) (y : Nat)
    (ha : Arena h bs) (hl : Listed h L) (hL : ∀ x ∈ L, ∃ c ∈ bs, c.bp = x) (hy : y ∈ L) :
    Arena (remove_from_free_list h y) bs ∧ Listed (remove_from_free_list h y) (L.erase y) ∧
    SameFields h (remove_from_free_list h y) ∧
    (∀ a, ¬ InLinks (h.heap_listp + 8) (L.erase y) a →
      (remove_from_free_list h y).mem a = h.mem a) := by
  have hf := remove_fields h y
  have hsep := Arena_sep h bs L ha hL
  obtain ⟨hc, hfr⟩ := remove_chain h _ y L hl.chain hsep hl.nodup hy
  have hL' : ∀ x ∈ L.erase y, ∃ c ∈ bs, c.bp = x := fun x hx => hL x (List.mem_of_mem_erase hx)
  refine ⟨Arena_links h _ bs (L.erase y) ha hL' hf.1 hf.2.1 hf.2.2.1 hfr, ⟨?_, hl.nodup.erase y⟩,
    hf, hfr⟩
  rw [hf.2.2.1]; exact hc

theorem SameFields.trans {h h1 h2 : Heap} (a : SameFields h h1) (b : SameFields h1 h2) :
    SameFields h h2 :=
  ⟨b.1.trans a.1, b.2.1.trans a.2.1, b.2.2.1.trans a.2.2.1, b.2.2.2.1.trans a.2.2.2.1,
    b.2.2.2.2.trans a.2.2.2.2⟩

/-! ## What `coalesce` reads -/

theorem list_snoc_cases {α : Type} (l : List α) : l = [] ∨ ∃ l1 a, l = l1 ++ [a] := by
  rcases List.eq_nil_or_concat l with h | ⟨l1, a, h⟩
  · exact Or.inl h
  · exact Or.inr ⟨l1, a, by simpa using h⟩

theorem Arena_split (h : Heap) (pre post : List Blk) (b : Blk) (ha : Arena h (pre ++ b :: post)) :
    Tiles h.mem (h.heap_listp + 32) pre b.bp ∧ BlkOK h.mem b ∧
    Tiles h.mem (b.bp + b.size) post h.brk ∧ h.heap_listp + 32 ≤ b.bp ∧
    b.bp + b.size ≤ h.brk ∧ h.brk < W32 := by
  have ht := ha.tiles
  rw [Tiles_append] at ht
  obtain ⟨c, h1, h2, h3, h4⟩ := ht
  subst h2
  have := Tiles_le _ _ _ _ h1
  have := Tiles_le _ _ _ _ h4
  have := ha.brk_le
  have := ha.limit_lt
  exact ⟨h1, h3, h4, by omega, by omega, by omega⟩

/-- The value of `NEXT_ALLOC` in `coalesce`. -/
theorem next_alloc_val (h : Heap) (pre post : List Blk) (b : Blk)
    (ha : Arena h (pre ++ b :: post)) :
    GET_ALLOC h.mem (HDRP (NEXT_BLK h.mem b.bp)) = nextAlloc post := by
  obtain ⟨h1, h2, h3, h4, h5, -⟩ := Arena_split h pre post b ha
  rw [(read_hdr _ _ h2).2.2.2.2]
  cases post with
  | nil =>
    have e : b.bp + b.size = h.brk := h3
    have := ha.epilogue
    unfold HDRP WSIZE
    rw [e]
    exact GET_ALLOC_eq _ _ 0 1 this (by decide) (by decide)
  | cons n post =>
    obtain ⟨e, hn, _⟩ := h3
    have := (read_hdr _ _ hn).2.1
    rw [e] at this
    exact this

/-- The value of `PREV_ALLOC` in `coalesce`. -/
theorem prev_alloc_val (h : Heap) (pre post : List Blk) (b : Blk)
    (ha : Arena h (pre ++ b :: post)) :
    (if GET_ALLOC h.mem (FTRP h.mem (PREV_BLK h.mem b.bp)) ≠ 0 ∨ PREV_BLK h.mem b.bp = b.bp
      then 1 else 0) = prevAlloc pre := by
  obtain ⟨h1, h2, h3, h4, h5, -⟩ := Arena_split h pre post b ha
  rcases list_snoc_cases pre with rfl | ⟨pre1, p, rfl⟩
  · have e : h.heap_listp + 32 = b.bp := h1
    have hp := ha.pad
    rw [show h.heap_listp + 24 = b.bp - 8 by omega] at hp
    rw [if_pos (Or.inr (read_prev_none _ _ hp))]
    rfl
  · obtain ⟨t1, t2, t3, t4⟩ := Tiles_snoc _ _ _ _ _ h1
    obtain ⟨r1, r2, r3, r4⟩ := read_prev h.mem p b.bp t2 t3
    have hpa : prevAlloc (pre1 ++ [p]) = p.alloc := by
      unfold prevAlloc; rw [List.getLast?_append]; rfl
    rw [hpa, r2]
    have := t2.2.2.1
    rcases Nat.le_one_iff_eq_zero_or_eq_one.mp this with e | e
    · rw [e, if_neg (by simp [r4])]
    · rw [e, if_pos (Or.inl (by decide))]

/-! ## Resolving the branches of `coalesce` -/

theorem coalesce_eq_none (h : Heap) (bp : Nat)
    (hP : (if GET_ALLOC h.mem (FTRP h.mem (PREV_BLK h.mem bp)) ≠ 0 ∨ PREV_BLK h.mem bp = bp
      then 1 else 0) = 1)
    (hN : GET_ALLOC h.mem (HDRP (NEXT_BLK h.mem bp)) = 1) :
    coalesce h bp = (insert_in_free_list h bp, bp) := by
  unfold coalesce
  simp only [hP, hN]
  simp

theorem coalesce_eq_next (h : Heap) (bp : Nat)
    (hP : (if GET_ALLOC h.mem (FTRP h.mem (PREV_BLK h.mem bp)) ≠ 0 ∨ PREV_BLK h.mem bp = bp
      then 1 else 0) = 1)
    (hN : GET_ALLOC h.mem (HDRP (NEXT_BLK h.mem bp)) = 0) :
    coalesce h bp =
      (insert_in_free_list { remove_from_free_list h (NEXT_BLK h.mem bp) with
        mem := PUT (PUT (remove_from_free_list h (NEXT_BLK h.mem bp)).mem (HDRP bp)
            (PACK ((GET_SIZE h.mem (HDRP bp) +
              GET_SIZE h.mem (HDRP (NEXT_BLK h.mem bp))) % W32) 0))
          (FTRP (PUT (remove_from_free_list h (NEXT_BLK h.mem bp)).mem (HDRP bp)
            (PACK ((GET_SIZE h.mem (HDRP bp) +
              GET_SIZE h.mem (HDRP (NEXT_BLK h.mem bp))) % W32) 0)) bp)
          (PACK ((GET_SIZE h.mem (HDRP bp) +
              GET_SIZE h.mem (HDRP (NEXT_BLK h.mem bp))) % W32) 0) } bp, bp) := by
  unfold coalesce
  simp only [hP, hN]
  simp

theorem coalesce_eq_prev (h : Heap) (bp : Nat)
    (hP : (if GET_ALLOC h.mem (FTRP h.mem (PREV_BLK h.mem bp)) ≠ 0 ∨ PREV_BLK h.mem bp = bp
      then 1 else 0) = 0)
    (hN : GET_ALLOC h.mem (HDRP (NEXT_BLK h.mem bp)) = 1) :
    coalesce h bp =
      (insert_in_free_list { remove_from_free_list h (PREV_BLK h.mem bp) with
        mem := PUT (PUT (remove_from_free_list h (PREV_BLK h.mem bp)).mem
            (HDRP (PREV_BLK h.mem bp))
            (PACK ((GET_SIZE h.mem (HDRP bp) +
              GET_SIZE h.mem (HDRP (PREV_BLK h.mem bp))) % W32) 0))
          (FTRP (PUT (remove_from_free_list h (PREV_BLK h.mem bp)).mem
            (HDRP (PREV_BLK h.mem bp))
            (PACK ((GET_SIZE h.mem (HDRP bp) +
              GET_SIZE h.mem (HDRP (PREV_BLK h.mem bp))) % W32) 0)) (PREV_BLK h.mem bp))
          (PACK ((GET_SIZE h.mem (HDRP bp) +
              GET_SIZE h.mem (HDRP (PREV_BLK h.mem bp))) % W32) 0) } (PREV_BLK h.mem bp),
        PREV_BLK h.mem bp) := by
  unfold coalesce
  simp only [hP, hN]
  simp

theorem coalesce_eq_both (h : Heap) (bp : Nat)
    (hP : (if GET_ALLOC h.mem (FTRP h.mem (PREV_BLK h.mem bp)) ≠ 0 ∨ PREV_BLK h.mem bp = bp
      then 1 else 0) = 0)
    (hN : GET_ALLOC h.mem (HDRP (NEXT_BLK h.mem bp)) = 0) :
    coalesce h bp =
      (insert_in_free_list
        { remove_from_free_list (remove_from_free_list h (PREV_BLK h.mem bp))
            (NEXT_BLK (remove_from_free_list h (PREV_BLK h.mem bp)).mem bp) with
          mem := PUT (PUT (remove_from_free_list (remove_from_free_list h (PREV_BLK h.mem bp))
              (NEXT_BLK (remove_from_free_list h (PREV_BLK h.mem bp)).mem bp)).mem
              (HDRP (PREV_BLK (remove_from_free_list (remove_from_free_list h (PREV_BLK h.mem bp))
                (NEXT_BLK (remove_from_free_list h (PREV_BLK h.mem bp)).mem bp)).mem bp))
              (PACK ((GET_SIZE h.mem (HDRP bp) + (GET_SIZE h.mem (HDRP (PREV_BLK h.mem bp)) +
                GET_SIZE h.mem (HDRP (NEXT_BLK h.mem bp))) % W32) % W32) 0))
            (FTRP (PUT (remove_from_free_list (remove_from_free_list h (PREV_BLK h.mem bp))
              (NEXT_BLK (remove_from_free_list h (PREV_BLK h.mem bp)).mem bp)).mem
              (HDRP (PREV_BLK (remove_from_free_list (remove_from_free_list h (PREV_BLK h.mem bp))
                (NEXT_BLK (remove_from_free_list h (PREV_BLK h.mem bp)).mem bp)).mem bp))
              (PACK ((GET_SIZE h.mem (HDRP bp) + (GET_SIZE h.mem (HDRP (PREV_BLK h.mem bp)) +
                GET_SIZE h.mem (HDRP (NEXT_BLK h.mem bp))) % W32) % W32) 0))
              (PREV_BLK (remove_from_free_list (remove_from_free_list h (PREV_BLK h.mem bp))
                (NEXT_BLK (remove_from_free_list h (PREV_BLK h.mem bp)).mem bp)).mem bp))
            (PACK ((GET_SIZE h.mem (HDRP bp) + (GET_SIZE h.mem (HDRP (PREV_BLK h.mem bp)) +
                GET_SIZE h.mem (HDRP (NEXT_BLK h.mem bp))) % W32) % W32) 0) }
        (PREV_BLK (remove_from_free_list (remove_from_free_list h (PREV_BLK h.mem bp))
          (NEXT_BLK (remove_from_free_list h (PREV_BLK h.mem bp)).mem bp)).mem bp),
        PREV_BLK (remove_from_free_list (remove_from_free_list h (PREV_BLK h.mem bp))
          (NEXT_BLK (remove_from_free_list h (PREV_BLK h.mem bp)).mem bp)).mem bp) := by
  unfold coalesce
  simp only [hP, hN]
  simp

/-! ## The four cases of `coalesce` -/

theorem set_tags_free (m : Mem) (bp s : Nat) (h8 : s % 8 = 0) (hlt : s < W32) :
    PUT (PUT m (HDRP bp) (PACK s 0)) (FTRP (PUT m (HDRP bp) (PACK s 0)) bp) (PACK s 0) =
      PUT (PUT m (bp - 4) s) (bp + s - 8) s :=
  set_tags m bp s 0 h8 (by decide) hlt

/-- List members outside the merged blocks `mid` belong to blocks before or after them. -/
theorem merge_members (pre mid post : List Blk) (L L1 : List Nat)
    (hlf : ∀ x ∈ L, ∃ c ∈ pre ++ mid ++ post, c.bp = x ∧ c.alloc = 0)
    (hL1 : ∀ x ∈ L1, x ∈ L ∧ ∀ d ∈ mid, d.bp ≠ x) :
    ∀ x ∈ L1, ∃ c, (c ∈ pre ∨ c ∈ post) ∧ c.bp = x ∧ c.alloc = 0 := by
  intro x hx
  obtain ⟨h1, h2⟩ := hL1 x hx
  obtain ⟨c, hc, hcx, hc0⟩ := hlf x h1
  rcases List.mem_append.mp hc with hc | hc
  · rcases List.mem_append.mp hc with hc | hc
    · exact ⟨c, Or.inl hc, hcx, hc0⟩
    · exact absurd hcx (h2 c hc)
  · exact ⟨c, Or.inr hc, hcx, hc0⟩

/-- Free blocks before or after the merged blocks `mid` stay in the list. -/
theorem merge_free (m : Mem) (a e : Nat) (pre mid post : List Blk) (L L1 : List Nat) (b : Blk)
    (ht : Tiles m a (pre ++ mid ++ post) e) (hb : b ∈ mid)
    (hfl : ∀ c ∈ pre ++ mid ++ post, c.alloc = 0 → c.bp ≠ b.bp → c.bp ∈ L)
    (hL1 : ∀ x, x ∈ L → (∀ d ∈ mid, d.bp ≠ x) → x ∈ L1) :
    ∀ c, (c ∈ pre ∨ c ∈ post) → c.alloc = 0 → c.bp ∈ L1 := by
  intro c hc hc0
  have hne : ∀ d ∈ mid, d.bp ≠ c.bp := by
    intro d hd
    rcases hc with hc | hc
    · have := Tiles_lt m pre (mid ++ post) a e (by rw [← List.append_assoc]; exact ht) c d hc
        (List.mem_append_left _ hd)
      omega
    · have := Tiles_lt m (pre ++ mid) post a e ht d c (List.mem_append_right _ hd) hc
      omega
  have hin : c ∈ pre ++ mid ++ post := by
    rcases hc with hc | hc
    · exact List.mem_append_left _ (List.mem_append_left _ hc)
    · exact List.mem_append_right _ hc
  exact hL1 _ (hfl c hin hc0 (fun e => hne b hb e.symm)) hne

theorem SameFields_insert (h : Heap) (x : Nat) : SameFields h (insert_in_free_list h x) :=
  ⟨rfl, rfl, rfl, rfl, rfl⟩

theorem SameFields_mem (h : Heap) (m : Mem) : SameFields h { h with mem := m } :=
  ⟨rfl, rfl, rfl, rfl, rfl⟩

/-- Neither neighbour is free: the block is inserted as it is. -/
theorem coalesce_none (h : Heap) (pre post : List Blk) (b : Blk) (L : List Nat)
    (hc : CoalPre h pre b post L) (hp : prevAlloc pre = 1) (hn : nextAlloc post = 1) :
    coalesce h b.bp = (insert_in_free_list h b.bp, b.bp) ∧
    WF (insert_in_free_list h b.bp) (pre ++ b :: post) (b.bp :: L) := by
  have hP := prev_alloc_val h pre post b hc.arena
  have hN := next_alloc_val h pre post b hc.arena
  rw [hp] at hP; rw [hn] at hN
  refine ⟨coalesce_eq_none h b.bp hP hN, ?_⟩
  have hblk : ∀ y ∈ b.bp :: L, ∃ c ∈ pre ++ b :: post, c.bp = y := by
    intro y hy
    rcases List.mem_cons.mp hy with rfl | hy
    · exact ⟨b, by simp, rfl⟩
    · obtain ⟨c, hc1, hc2, _⟩ := hc.list_free y hy
      exact ⟨c, hc1, hc2⟩
  have hnd : (b.bp :: L).Nodup := List.nodup_cons.mpr ⟨hc.notin, hc.listed.nodup⟩
  have hsep := Arena_sep _ _ (b.bp :: L) hc.arena hblk
  obtain ⟨hc2, hf2⟩ := insert_chain _ _ b.bp L hc.listed.chain hsep hnd
  refine ⟨Arena_links _ _ _ (b.bp :: L) hc.arena hblk (by rfl) (by rfl) (by rfl) hf2,
    ⟨hc2, hnd⟩, ?_, ?_⟩
  · intro x hx
    rcases List.mem_cons.mp hx with rfl | hx
    · exact ⟨b, by simp, rfl, hc.free⟩
    · exact hc.list_free x hx
  · intro c hc1 hc0
    by_cases hcb : c.bp = b.bp
    · rw [hcb]; exact List.mem_cons_self _ _
    · exact List.mem_cons_of_mem _ (hc.free_list c hc1 hc0 hcb)

/-- Only the next block is free: it is unlinked and absorbed. -/
theorem coalesce_next (h : Heap) (pre post : List Blk) (b n : Blk) (L : List Nat)
    (hc : CoalPre h pre b (n :: post) L) (hp : prevAlloc pre = 1) (hn : n.alloc = 0) :
    (coalesce h b.bp).2 = b.bp ∧
    WF (coalesce h b.bp).1 (pre ++ ⟨b.bp, b.size + n.size, 0⟩ :: post)
      (b.bp :: L.erase n.bp) ∧
    SameFields h (coalesce h b.bp).1 := by
  have hP := prev_alloc_val h pre (n :: post) b hc.arena
  have hN := next_alloc_val h pre (n :: post) b hc.arena
  rw [hp] at hP
  rw [show nextAlloc (n :: post) = 0 from hn] at hN
  obtain ⟨s1, s2, ⟨n1, n2, n3⟩, s4, s5, s6⟩ := Arena_split h pre (n :: post) b hc.arena
  have hle := Tiles_le _ _ _ _ n3
  obtain ⟨rb1, -, -, -, rb5⟩ := read_hdr _ _ s2
  have rn1 := (read_hdr _ _ n2).1
  have hb8 := s2.1
  have hn8 := n2.1
  have hb16 := s2.2.1
  have hnext : NEXT_BLK h.mem b.bp = n.bp := by rw [rb5, n1]
  have hsz : (b.size + n.size) % W32 = b.size + n.size := Nat.mod_eq_of_lt (by omega)
  have hnL : n.bp ∈ L := hc.free_list n (by simp) hn (by omega)
  have hLb : ∀ x ∈ L, ∃ c ∈ pre ++ b :: n :: post, c.bp = x := fun x hx => by
    obtain ⟨c, hc1, hc2, _⟩ := hc.list_free x hx
    exact ⟨c, hc1, hc2⟩
  obtain ⟨ra, rl, rf, -⟩ := remove_step h _ L n.bp hc.arena hc.listed hLb hnL
  obtain ⟨t1, -, ⟨-, -, t4⟩, -, -, -⟩ := Arena_split _ pre (n :: post) b ra
  have hbs : pre ++ b :: n :: post = pre ++ [b, n] ++ post := by simp
  have e : coalesce h b.bp =
      (insert_in_free_list { remove_from_free_list h n.bp with
        mem := PUT (PUT (remove_from_free_list h n.bp).mem (b.bp - 4) (b.size + n.size))
          (b.bp + (b.size + n.size) - 8) (b.size + n.size) } b.bp, b.bp) := by
    rw [coalesce_eq_next h b.bp hP hN, hnext, rb1, rn1, hsz,
      set_tags_free _ b.bp (b.size + n.size) (by omega) (by omega)]
  rw [e]
  refine ⟨rfl, ?_, ⟨rf.1, rf.2.1, rf.2.2.1, rf.2.2.2.1, rf.2.2.2.2⟩⟩
  apply finish_spec _ _ pre post (L.erase n.bp) b.bp (b.size + n.size) ra rl t1
  · rw [← Nat.add_assoc]; exact t4
  · omega
  · omega
  · apply merge_members pre [b, n] post L _ (by rw [← hbs]; exact hc.list_free)
    intro x hx
    have hx' := (List.Nodup.mem_erase_iff hc.listed.nodup).mp hx
    refine ⟨hx'.2, ?_⟩
    intro d hd
    simp only [List.mem_cons, List.mem_singleton, List.not_mem_nil, or_false] at hd
    rcases hd with rfl | rfl
    · exact fun e => hc.notin (e ▸ hx'.2)
    · exact fun e => hx'.1 e.symm
  · apply merge_free h.mem _ _ pre [b, n] post L _ b (by rw [← hbs]; exact hc.arena.tiles)
      (by simp) (by rw [← hbs]; exact hc.free_list)
    intro x hx hd
    exact (List.Nodup.mem_erase_iff hc.listed.nodup).mpr
      ⟨fun e => hd n (by simp) e.symm, hx⟩

/-- Only the previous block is free: it is unlinked and absorbs the block. -/
theorem coalesce_prev (h : Heap) (pre post : List Blk) (p b : Blk) (L : List Nat)
    (hc : CoalPre h (pre ++ [p]) b post L) (hp : p.alloc = 0) (hn : nextAlloc post = 1) :
    (coalesce h b.bp).2 = p.bp ∧
    WF (coalesce h b.bp).1 (pre ++ ⟨p.bp, b.size + p.size, 0⟩ :: post)
      (p.bp :: L.erase p.bp) ∧
    SameFields h (coalesce h b.bp).1 := by
  have hP := prev_alloc_val h (pre ++ [p]) post b hc.arena
  have hN := next_alloc_val h (pre ++ [p]) post b hc.arena
  have hpa : prevAlloc (pre ++ [p]) = 0 := by
    unfold prevAlloc; rw [List.getLast?_append]; exact hp
  rw [hpa] at hP
  rw [hn] at hN
  obtain ⟨s1, s2, s3, s4, s5, s6⟩ := Arena_split h (pre ++ [p]) post b hc.arena
  obtain ⟨t1, t2, t3, t4⟩ := Tiles_snoc _ _ _ _ _ s1
  have rb1 := (read_hdr _ _ s2).1
  have hb8 := s2.1
  have hp8 := t2.1
  have hp16 := t2.2.1
  obtain ⟨r1, -, r3, -⟩ := read_prev h.mem p b.bp t2 t3
  rw [r1] at r3
  have hsz : (b.size + p.size) % W32 = b.size + p.size := Nat.mod_eq_of_lt (by omega)
  have hpL : p.bp ∈ L := hc.free_list p (by simp) hp (by omega)
  have hLb : ∀ x ∈ L, ∃ c ∈ (pre ++ [p]) ++ b :: post, c.bp = x := fun x hx => by
    obtain ⟨c, hc1, hc2, _⟩ := hc.list_free x hx
    exact ⟨c, hc1, hc2⟩
  obtain ⟨ra, rl, rf, -⟩ := remove_step h _ L p.bp hc.arena hc.listed hLb hpL
  obtain ⟨u1, -, u3, -, -, -⟩ := Arena_split _ (pre ++ [p]) post b ra
  obtain ⟨v1, -, -, -⟩ := Tiles_snoc _ _ _ _ _ u1
  have hbs : (pre ++ [p]) ++ b :: post = pre ++ [p, b] ++ post := by simp
  have e : coalesce h b.bp =
      (insert_in_free_list { remove_from_free_list h p.bp with
        mem := PUT (PUT (remove_from_free_list h p.bp).mem (p.bp - 4) (b.size + p.size))
          (p.bp + (b.size + p.size) - 8) (b.size + p.size) } p.bp, p.bp) := by
    rw [coalesce_eq_prev h b.bp hP hN, r1, rb1, r3, hsz,
      set_tags_free _ p.bp (b.size + p.size) (by omega) (by omega)]
  rw [e]
  refine ⟨rfl, ?_, ⟨rf.1, rf.2.1, rf.2.2.1, rf.2.2.2.1, rf.2.2.2.2⟩⟩
  apply finish_spec _ _ pre post (L.erase p.bp) p.bp (b.size + p.size) ra rl v1
  · rw [show p.bp + (b.size + p.size) = b.bp + b.size by omega]; exact u3
  · omega
  · omega
  · apply merge_members pre [p, b] post L _ (by rw [← hbs]; exact hc.list_free)
    intro x hx
    have hx' := (List.Nodup.mem_erase_iff hc.listed.nodup).mp hx
    refine ⟨hx'.2, ?_⟩
    intro d hd
    simp only [List.mem_cons, List.mem_singleton, List.not_mem_nil, or_false] at hd
    rcases hd with rfl | rfl
    · exact fun e => hx'.1 e.symm
    · exact fun e => hc.notin (e ▸ hx'.2)
  · apply merge_free h.mem _ _ pre [p, b] post L _ b (by rw [← hbs]; exact hc.arena.tiles)
      (by simp) (by rw [← hbs]; exact hc.free_list)
    intro x hx hd
    exact (List.Nodup.mem_erase_iff hc.listed.nodup).mpr
      ⟨fun e => hd p (by simp) e.symm, hx⟩

/-- Both neighbours are free: both are unlinked and the previous block absorbs all three. -/
theorem coalesce_both (h : Heap) (pre post : List Blk) (p b n : Blk) (L : List Nat)
    (hc : CoalPre h (pre ++ [p]) b (n :: post) L) (hp : p.alloc = 0) (hn : n.alloc = 0) :
    (coalesce h b.bp).2 = p.bp ∧
    WF (coalesce h b.bp).1 (pre ++ ⟨p.bp, b.size + (p.size + n.size), 0⟩ :: post)
      (p.bp :: (L.erase p.bp).erase n.bp) ∧
    SameFields h (coalesce h b.bp).1 := by
  have hP := prev_alloc_val h (pre ++ [p]) (n :: post) b hc.arena
  have hN := next_alloc_val h (pre ++ [p]) (n :: post) b hc.arena
  have hpa : prevAlloc (pre ++ [p]) = 0 := by
    unfold prevAlloc; rw [List.getLast?_append]; exact hp
  rw [hpa] at hP
  rw [show nextAlloc (n :: post) = 0 from hn] at hN
  obtain ⟨s1, s2, ⟨n1, n2, n3⟩, s4, s5, s6⟩ :=
    Arena_split h (pre ++ [p]) (n :: post) b hc.arena
  obtain ⟨t1, t2, t3, t4⟩ := Tiles_snoc _ _ _ _ _ s1
  have hle := Tiles_le _ _ _ _ n3
  obtain ⟨rb1, -, -, -, rb5⟩ := read_hdr _ _ s2
  have rn1 := (read_hdr _ _ n2).1
  have hb8 := s2.1
  have hp8 := t2.1
  have hn8 := n2.1
  have hb16 := s2.2.1
  have hp16 := t2.2.1
  obtain ⟨r1, -, r3, -⟩ := read_prev h.mem p b.bp t2 t3
  rw [r1] at r3
  have hnext : NEXT_BLK h.mem b.bp = n.bp := by rw [rb5, n1]
  have hsz1 : (p.size + n.size) % W32 = p.size + n.size := Nat.mod_eq_of_lt (by omega)
  have hsz : (b.size + (p.size + n.size)) % W32 = b.size + (p.size + n.size) :=
    Nat.mod_eq_of_lt (by omega)
  have hpn : n.bp ≠ p.bp := by omega
  have hpL : p.bp ∈ L := hc.free_list p (by simp) hp (by omega)
  have hnL : n.bp ∈ L := hc.free_list n (by simp) hn (by omega)
  have hLb : ∀ x ∈ L, ∃ c ∈ (pre ++ [p]) ++ b :: n :: post, c.bp = x := fun x hx => by
    obtain ⟨c, hc1, hc2, _⟩ := hc.list_free x hx
    exact ⟨c, hc1, hc2⟩
  obtain ⟨ra, rl, rf, -⟩ := remove_step h _ L p.bp hc.arena hc.listed hLb hpL
  have hnL1 : n.bp ∈ L.erase p.bp :=
    (List.Nodup.mem_erase_iff hc.listed.nodup).mpr ⟨hpn, hnL⟩
  have hLb1 : ∀ x ∈ L.erase p.bp, ∃ c ∈ (pre ++ [p]) ++ b :: n :: post, c.bp = x :=
    fun x hx => hLb x (List.mem_of_mem_erase hx)
  obtain ⟨ra2, rl2, rf2, -⟩ := remove_step _ _ (L.erase p.bp) n.bp ra rl hLb1 hnL1
  obtain ⟨-, u2, -, -, -, -⟩ := Arena_split _ (pre ++ [p]) (n :: post) b ra
  have hnext1 : NEXT_BLK (remove_from_free_list h p.bp).mem b.bp = n.bp := by
    rw [(read_hdr _ _ u2).2.2.2.2, n1]
  obtain ⟨w1, -, ⟨-, -, w4⟩, -, -, -⟩ := Arena_split _ (pre ++ [p]) (n :: post) b ra2
  obtain ⟨v1, v2, -, -⟩ := Tiles_snoc _ _ _ _ _ w1
  have hprev2 : PREV_BLK (remove_from_free_list (remove_from_free_list h p.bp) n.bp).mem b.bp
      = p.bp := (read_prev _ p b.bp v2 t3).1
  have hbs : (pre ++ [p]) ++ b :: n :: post = pre ++ [p, b, n] ++ post := by simp
  have e : coalesce h b.bp =
      (insert_in_free_list { remove_from_free_list (remove_from_free_list h p.bp) n.bp with
        mem := PUT (PUT (remove_from_free_list (remove_from_free_list h p.bp) n.bp).mem
          (p.bp - 4) (b.size + (p.size + n.size)))
          (p.bp + (b.size + (p.size + n.size)) - 8) (b.size + (p.size + n.size)) } p.bp,
        p.bp) := by
    rw [coalesce_eq_both h b.bp hP (by rw [hnext]; rw [hnext] at hN; exact hN)]
    simp only [r1, hnext, hnext1, hprev2, rb1, r3, rn1, hsz1, hsz]
    rw [set_tags_free _ p.bp (b.size + (p.size + n.size)) (by omega) (by omega)]
  rw [e]
  refine ⟨rfl, ?_, SameFields.trans rf rf2⟩
  apply finish_spec _ _ pre post ((L.erase p.bp).erase n.bp) p.bp
    (b.size + (p.size + n.size)) ra2 rl2 v1
  · rw [show p.bp + (b.size + (p.size + n.size)) = b.bp + b.size + n.size by omega]
    exact w4
  · omega
  · omega
  · apply merge_members pre [p, b, n] post L _ (by rw [← hbs]; exact hc.list_free)
    intro x hx
    have hx1 := (List.Nodup.mem_erase_iff rl.nodup).mp hx
    have hx' := (List.Nodup.mem_erase_iff hc.listed.nodup).mp hx1.2
    refine ⟨hx'.2, ?_⟩
    intro d hd
    simp only [List.mem_cons, List.mem_singleton, List.not_mem_nil, or_false] at hd
    rcases hd with rfl | rfl | rfl
    · exact fun e => hx'.1 e.symm
    · exact fun e => hc.notin (e ▸ hx'.2)
    · exact fun e => hx1.1 e.symm
  · apply merge_free h.mem _ _ pre [p, b, n] post L _ b (by rw [← hbs]; exact hc.arena.tiles)
      (by simp) (by rw [← hbs]; exact hc.free_list)
    intro x hx hd
    exact (List.Nodup.mem_erase_iff rl.nodup).mpr ⟨fun e => hd n (by simp) e.symm,
      (List.Nodup.mem_erase_iff hc.listed.nodup).mpr ⟨fun e => hd p (by simp) e.symm, hx⟩⟩

/-! ## Tag writes commute with unlinking -/

theorem PUT_in (m m1 : Mem) (p v a : Nat) (h : p ≤ a ∧ a < p + 4) :
    PUT m p v a = PUT m1 p v a := by
  unfold PUT
  by_cases h0 : a = p
  · rw [if_pos h0, if_pos h0]
  · rw [if_neg h0, if_neg h0]
    by_cases h1 : a = p + 1
    · rw [if_pos h1, if_pos h1]
    · rw [if_neg h1, if_neg h1]
      by_cases h2 : a = p + 2
      · rw [if_pos h2, if_pos h2]
      · rw [if_neg h2, if_neg h2]
        by_cases h3 : a = p + 3
        · rw [if_pos h3, if_pos h3]
        · omega

theorem PUT_comm (m : Mem) (p v q w : Nat) (h : p + 4 ≤ q ∨ q + 4 ≤ p) :
    PUT (PUT m p v) q w = PUT (PUT m q w) p v := by
  funext a
  by_cases h1 : a < q ∨ q + 4 ≤ a
  · by_cases h2 : a < p ∨ p + 4 ≤ a
    · rw [PUT_bytes _ _ _ _ h1, PUT_bytes _ _ _ _ h2, PUT_bytes _ _ _ _ h2,
        PUT_bytes _ _ _ _ h1]
    · rw [PUT_bytes _ _ _ _ h1]
      exact PUT_in _ _ _ _ _ (by omega)
  · have h2 : a < p ∨ p + 4 ≤ a := by omega
    rw [PUT_bytes _ p v a h2]
    exact PUT_in _ _ _ _ _ (by omega)

/-- A word write away from the link words that `remove_from_free_list` touches can be moved
after the removal. -/
theorem remove_put_comm (h : Heap) (x p v : Nat)
    (hx : p + 4 ≤ x ∨ x + 8 ≤ p)
    (hpv : GET h.mem (x + 4) ≠ 0 → p + 4 ≤ GET h.mem (x + 4) ∨ GET h.mem (x + 4) + 4 ≤ p)
    (hsep : GET h.mem (x + 4) ≠ 0 → GET h.mem (x + 4) + 4 ≤ x ∨ x + 8 ≤ GET h.mem (x + 4))
    (hnx : p + 4 ≤ GET h.mem x + 4 ∨ GET h.mem x + 8 ≤ p) :
    remove_from_free_list { h with mem := PUT h.mem p v } x =
      { remove_from_free_list h x with mem := PUT (remove_from_free_list h x).mem p v } := by
  have e1 : GET (PUT h.mem p v) (x + 4) = GET h.mem (x + 4) := GET_PUT_disj _ _ _ _ (by omega)
  have e2 : GET (PUT h.mem p v) x = GET h.mem x := GET_PUT_disj _ _ _ _ (by omega)
  unfold remove_from_free_list
  simp only [GET_PREV_PTR, GET_NEXT_PTR, SET_PREV_PTR, SET_NEXT_PTR, WSIZE, e1, e2]
  by_cases hp : GET h.mem (x + 4) ≠ 0
  · have hpv' := hpv hp
    have hsep' := hsep hp
    have e5 : GET (PUT h.mem (GET h.mem (x + 4)) (GET h.mem x)) x = GET h.mem x :=
      GET_PUT_disj _ _ _ _ (by omega)
    have e6 : GET (PUT h.mem (GET h.mem (x + 4)) (GET h.mem x)) (x + 4) = GET h.mem (x + 4) :=
      GET_PUT_disj _ _ _ _ (by omega)
    have e3 : GET (PUT (PUT h.mem p v) (GET h.mem (x + 4)) (GET h.mem x)) x = GET h.mem x := by
      rw [GET_PUT_disj _ _ _ _ (by omega), e2]
    have e4 : GET (PUT (PUT h.mem p v) (GET h.mem (x + 4)) (GET h.mem x)) (x + 4)
        = GET h.mem (x + 4) := by
      rw [GET_PUT_disj _ _ _ _ (by omega), e1]
    simp only [if_pos hp, e3, e4, e5, e6]
    rw [PUT_comm h.mem p v _ _ (by omega), PUT_comm _ p v _ _ (by omega)]
  · simp only [if_neg hp, e1, e2]
    rw [PUT_comm _ _ _ _ _ (by omega)]

/-! ## Summary of `coalesce` -/

theorem alloc_mem_iff (pre mid mid1 post : List Blk) (c : Blk) (hc : c.alloc = 1)
    (h1 : ∀ d ∈ mid, d.alloc = 0) (h2 : ∀ d ∈ mid1, d.alloc = 0) :
    c ∈ pre ++ mid1 ++ post ↔ c ∈ pre ++ mid ++ post := by
  have e1 : c ∉ mid := fun h => by have := h1 c h; omega
  have e2 : c ∉ mid1 := fun h => by have := h2 c h; omega
  simp only [List.mem_append, e1, e2, or_false]

theorem prevAlloc_cases (pre : List Blk) (h : ∀ c ∈ pre, c.alloc ≤ 1) :
    prevAlloc pre = 1 ∨ ∃ pre1 p, pre = pre1 ++ [p] ∧ p.alloc = 0 := by
  rcases list_snoc_cases pre with rfl | ⟨pre1, p, rfl⟩
  · left; rfl
  · have hpa : prevAlloc (pre1 ++ [p]) = p.alloc := by
      unfold prevAlloc; rw [List.getLast?_append]; rfl
    rcases Nat.le_one_iff_eq_zero_or_eq_one.mp (h p (by simp)) with e | e
    · right; exact ⟨pre1, p, rfl, e⟩
    · left; rw [hpa, e]

theorem nextAlloc_cases (post : List Blk) (h : ∀ c ∈ post, c.alloc ≤ 1) :
    nextAlloc post = 1 ∨ ∃ n post1, post = n :: post1 ∧ n.alloc = 0 := by
  cases post with
  | nil => left; rfl
  | cons n post1 =>
    rcases Nat.le_one_iff_eq_zero_or_eq_one.mp (h n (by simp)) with e | e
    · right; exact ⟨n, post1, rfl, e⟩
    · left; exact e

/-- What every caller of `coalesce` can rely on: the result is a free block `r` containing the
given block, it is the head of the free list, the heap is well formed again, and the allocated
blocks are the same as before. -/
theorem coalesce_spec (h : Heap) (pre post : List Blk) (b : Blk) (L : List Nat)
    (hc : CoalPre h pre b post L) :
    ∃ pre1 r post1 L1, WF (coalesce h b.bp).1 (pre1 ++ r :: post1) (r.bp :: L1) ∧
      (coalesce h b.bp).2 = r.bp ∧ r.alloc = 0 ∧ b.size ≤ r.size ∧
      SameFields h (coalesce h b.bp).1 ∧
      (∀ c, c.alloc = 1 → (c ∈ pre1 ++ r :: post1 ↔ c ∈ pre ++ b :: post)) ∧
      (∀ x ∈ L1, x ∈ L) := by
  have hal : ∀ c ∈ pre ++ b :: post, c.alloc ≤ 1 := fun c hcm =>
    (Tiles_mem _ _ _ _ hc.arena.tiles c hcm).2.2.1.2.2.1
  have hb0 := hc.free
  rcases prevAlloc_cases pre (fun c h1 => hal c (List.mem_append_left _ h1)) with hp | hp <;>
  rcases nextAlloc_cases post (fun c h1 => hal c (List.mem_append_right _
    (List.mem_cons_of_mem _ h1))) with hn | hn
  · obtain ⟨e, hw⟩ := coalesce_none h pre post b L hc hp hn
    rw [e]
    exact ⟨pre, b, post, L, hw, rfl, hb0, le_refl _, SameFields_insert _ _,
      fun _ _ => Iff.rfl, fun _ hx => hx⟩
  · obtain ⟨n, post1, rfl, hn0⟩ := hn
    obtain ⟨e, hw, hs⟩ := coalesce_next h pre post1 b n L hc hp hn0
    refine ⟨pre, ⟨b.bp, b.size + n.size, 0⟩, post1, L.erase n.bp, hw, e, rfl,
      Nat.le_add_right _ _, hs, ?_, fun _ hx => List.mem_of_mem_erase hx⟩
    intro c hc1
    have := alloc_mem_iff pre [b, n] [⟨b.bp, b.size + n.size, 0⟩] post1 c hc1
      (by simp [hb0, hn0]) (by simp)
    simpa using this
  · obtain ⟨pre1, p, rfl, hp0⟩ := hp
    obtain ⟨e, hw, hs⟩ := coalesce_prev h pre1 post p b L hc hp0 hn
    refine ⟨pre1, ⟨p.bp, b.size + p.size, 0⟩, post, L.erase p.bp, hw, e, rfl,
      Nat.le_add_right _ _, hs, ?_, fun _ hx => List.mem_of_mem_erase hx⟩
    intro c hc1
    have := alloc_mem_iff pre1 [p, b] [⟨p.bp, b.size + p.size, 0⟩] post c hc1
      (by simp [hb0, hp0]) (by simp)
    simpa using this
  · obtain ⟨pre1, p, rfl, hp0⟩ := hp
    obtain ⟨n, post1, rfl, hn0⟩ := hn
    obtain ⟨e, hw, hs⟩ := coalesce_both h pre1 post1 p b n L hc hp0 hn0
    refine ⟨pre1, ⟨p.bp, b.size + (p.size + n.size), 0⟩, post1, (L.erase p.bp).erase n.bp,
      hw, e, rfl, Nat.le_add_right _ _, hs, ?_,
      fun _ hx => List.mem_of_mem_erase (List.mem_of_mem_erase hx)⟩
    intro c hc1
    have := alloc_mem_iff pre1 [p, b, n] [⟨p.bp, b.size + (p.size + n.size), 0⟩] post1 c hc1
      (by simp [hb0, hp0, hn0]) (by simp)
    simpa using this

/-! ## Links of a list member -/

theorem Chain_links (m : Mem) (S c0 x : Nat) (L : List Nat) (hc : Chain m S 0 c0 L)
    (hs : Sep S L) (hnd : L.Nodup) (hx : x ∈ L) :
    (GET m (x + 4) = 0 ∨ (GET m (x + 4) ∈ L ∧ GET m (x + 4) ≠ x)) ∧
    (GET m x = S ∨ (GET m x ∈ L ∧ GET m x ≠ x)) := by
  obtain ⟨l1, l2, rfl⟩ := List.append_of_mem hx
  have hdis := (List.nodup_append.mp hnd).2.2
  have hx2 : x ∉ l2 := (List.nodup_cons.mp (List.nodup_append.mp hnd).2.1).1
  have hnx : ∀ v, v = l2.headD S → v = S ∨ (v ∈ l1 ++ x :: l2 ∧ v ≠ x) := by
    intro v hv
    cases l2 with
    | nil => left; exact hv
    | cons z l2 =>
      right
      simp only [List.headD_cons] at hv
      subst hv
      exact ⟨List.mem_append_right _ (List.mem_cons_of_mem _ (List.mem_cons_self _ _)),
        fun e => hx2 (e ▸ List.mem_cons_self _ _)⟩
  cases l1 with
  | nil =>
    obtain ⟨h1, h2, h3, h4⟩ := Chain_remove_head _ _ _ _ _ hc hs hnd
    exact ⟨Or.inl h2, hnx _ h3⟩
  | cons y l1 =>
    obtain ⟨h1, h2, h3⟩ := Chain_remove_mid _ _ _ _ _ _ _ hc (by simp) hs hnd
    refine ⟨Or.inr ⟨List.mem_append_left _ h1, fun e => hdis (e ▸ h1) (List.mem_cons_self _ _)⟩,
      hnx _ h2⟩

/-- A tag write inside the extent of a listed block can be moved after the removal of that
block from the list. -/
theorem place_comm1 (h : Heap) (bs : List Blk) (L : List Nat) (b : Blk) (p v : Nat)
    (ha : Arena h bs) (hl : Listed h L) (hL : ∀ x ∈ L, ∃ c ∈ bs, c.bp = x)
    (hb : b ∈ bs) (hbL : b.bp ∈ L)
    (hp1 : b.bp ≤ p + 4) (hp2 : p + 8 ≤ b.bp + b.size) (hp3 : p + 4 ≤ b.bp ∨ b.bp + 8 ≤ p) :
    remove_from_free_list { h with mem := PUT h.mem p v } b.bp =
      { remove_from_free_list h b.bp with
        mem := PUT (remove_from_free_list h b.bp).mem p v } := by
  have hsep := Arena_sep h bs L ha hL
  obtain ⟨k1, k2⟩ := Chain_links _ _ _ b.bp L hl.chain hsep hl.nodup hbL
  have hbm := Tiles_mem _ _ _ _ ha.tiles b hb
  have hbg := ha.brk_ge
  have far : ∀ y ∈ L, y ≠ b.bp → (p + 4 ≤ y ∨ y + 8 ≤ p) ∧ (y + 8 ≤ b.bp ∨ b.bp + 8 ≤ y) := by
    intro y hy hne
    obtain ⟨c, hc, rfl⟩ := hL y hy
    have hcm := Tiles_mem _ _ _ _ ha.tiles c hc
    rcases Tiles_disjoint _ _ _ _ ha.tiles c b hc hb with e | e | e
    · exact absurd (by rw [e]) hne
    · omega
    · omega
  apply remove_put_comm h b.bp p v hp3
  · intro hne
    rcases k1 with k1 | ⟨k1, k1'⟩
    · exact absurd k1 hne
    · have := far _ k1 k1'; omega
  · intro hne
    rcases k1 with k1 | ⟨k1, k1'⟩
    · exact absurd k1 hne
    · have := far _ k1 k1'; omega
  · rcases k2 with k2 | ⟨k2, k2'⟩
    · rw [k2]; omega
    · have := far _ k2 k2'; omega

theorem place_comm (h : Heap) (bs : List Blk) (L : List Nat) (b : Blk) (p v q w : Nat)
    (ha : Arena h bs) (hl : Listed h L) (hL : ∀ x ∈ L, ∃ c ∈ bs, c.bp = x)
    (hb : b ∈ bs) (hbL : b.bp ∈ L)
    (hp1 : b.bp ≤ p + 4) (hp2 : p + 8 ≤ b.bp + b.size) (hp3 : p + 4 ≤ b.bp ∨ b.bp + 8 ≤ p)
    (hq1 : b.bp ≤ q + 4) (hq2 : q + 8 ≤ b.bp + b.size) (hq3 : q + 4 ≤ b.bp ∨ b.bp + 8 ≤ q) :
    remove_from_free_list { h with mem := PUT (PUT h.mem p v) q w } b.bp =
      { remove_from_free_list h b.bp with
        mem := PUT (PUT (remove_from_free_list h b.bp).mem p v) q w } := by
  have hbm := Tiles_mem _ _ _ _ ha.tiles b hb
  have hbg := ha.brk_ge
  have e1 : GET (PUT h.mem p v) (b.bp + 4) = GET h.mem (b.bp + 4) :=
    GET_PUT_disj _ _ _ _ (by omega)
  have e2 : GET (PUT h.mem p v) b.bp = GET h.mem b.bp := GET_PUT_disj _ _ _ _ (by omega)
  have hsep := Arena_sep h bs L ha hL
  obtain ⟨k1, k2⟩ := Chain_links _ _ _ b.bp L hl.chain hsep hl.nodup hbL
  have far : ∀ y ∈ L, y ≠ b.bp → (q + 4 ≤ y ∨ y + 8 ≤ q) ∧ (y + 8 ≤ b.bp ∨ b.bp + 8 ≤ y) := by
    intro y hy hne
    obtain ⟨c, hc, rfl⟩ := hL y hy
    have hcm := Tiles_mem _ _ _ _ ha.tiles c hc
    rcases Tiles_disjoint _ _ _ _ ha.tiles c b hc hb with e | e | e
    · exact absurd (by rw [e]) hne
    · omega
    · omega
  have step1 := remove_put_comm { h with mem := PUT h.mem p v } b.bp q w hq3
    (by
      intro hne
      rw [show ({ h with mem := PUT h.mem p v } : Heap).mem = PUT h.mem p v from rfl, e1] at hne ⊢
      rcases k1 with k1 | ⟨k1, k1'⟩
      · exact absurd k1 hne
      · have := far _ k1 k1'; omega)
    (by
      intro hne
      rw [show ({ h with mem := PUT h.mem p v } : Heap).mem = PUT h.mem p v from rfl, e1] at hne ⊢
      rcases k1 with k1 | ⟨k1, k1'⟩
      · exact absurd k1 hne
      · have := far _ k1 k1'; omega)
    (by
      rw [show ({ h with mem := PUT h.mem p v } : Heap).mem = PUT h.mem p v from rfl, e2]
      rcases k2 with k2 | ⟨k2, k2'⟩
      · rw [k2]; omega
      · have := far _ k2 k2'; omega)
  have step2 := place_comm1 h bs L b p v ha hl hL hb hbL hp1 hp2 hp3
  rw [show ({ h with mem := PUT (PUT h.mem p v) q w } : Heap) =
    { ({ h with mem := PUT h.mem p v } : Heap) with
      mem := PUT ({ h with mem := PUT h.mem p v } : Heap).mem q w } from rfl, step1, step2]

/-! ## `mm_free` -/

theorem mem_split_cases (pre post : List Blk) (b c : Blk) (hc : c ∈ pre ++ b :: post)
    (hne : c.bp ≠ b.bp) : c ∈ pre ∨ c ∈ post := by
  rcases List.mem_append.mp hc with h | h
  · exact Or.inl h
  · rcases List.mem_cons.mp h with h | h
    · exact absurd (by rw [h]) hne
    · exact Or.inr h

theorem WF_split_alloc (h : Heap) (pre post : List Blk) (b : Blk) (L : List Nat)
    (hw : WF h (pre ++ b :: post) L) (hb : b.alloc = 1) :
    b.bp ∉ L ∧ (∀ x ∈ L, ∃ c, (c ∈ pre ∨ c ∈ post) ∧ c.bp = x ∧ c.alloc = 0) ∧
    (∀ c, (c ∈ pre ∨ c ∈ post) → c.alloc = 0 → c.bp ∈ L) := by
  have hnot : b.bp ∉ L := by
    intro hin
    obtain ⟨c, hc, hcb, hc0⟩ := hw.list_free _ hin
    have := Tiles_bp_inj _ _ _ _ hw.arena.tiles c b hc (by simp) hcb
    rw [this] at hc0; omega
  refine ⟨hnot, ?_, ?_⟩
  · intro x hx
    obtain ⟨c, hc, hcx, hc0⟩ := hw.list_free x hx
    have hne : c.bp ≠ b.bp := fun e => hnot (by rw [← e, hcx]; exact hx)
    rcases mem_split_cases pre post b c hc hne with h1 | h1
    · exact ⟨c, Or.inl h1, hcx, hc0⟩
    · exact ⟨c, Or.inr h1, hcx, hc0⟩
  · intro c hc hc0
    apply hw.free_list c _ hc0
    rcases hc with h1 | h1
    · exact List.mem_append_left _ h1
    · exact List.mem_append_right _ (List.mem_cons_of_mem _ h1)

/-- The state after `mm_free` has rewritten the tags of an allocated block. -/
theorem free_pre (h : Heap) (pre post : List Blk) (b : Blk) (L : List Nat)
    (hw : WF h (pre ++ b :: post) L) (hb : b.alloc = 1) :
    CoalPre { h with mem := PUT (PUT h.mem (b.bp - 4) b.size) (b.bp + b.size - 8) b.size }
      pre ⟨b.bp, b.size, 0⟩ post L := by
  obtain ⟨s1, s2, s3, s4, s5, s6⟩ := Arena_split h pre post b hw.arena
  obtain ⟨k1, k2, k3⟩ := WF_split_alloc h pre post b L hw hb
  have h16 := s2.2.1
  refine ⟨finish_arena h _ pre post b.bp b.size 0 hw.arena s1 s3 s2.1 h16 (by decide), ?_,
    rfl, ?_, k1, ?_⟩
  · apply finish_listed h L b.bp b.size b.size hw.listed _ (by omega) h16
    intro x hx
    obtain ⟨c, hc, rfl, _⟩ := k2 x hx
    exact (mem_pre_post_sep _ pre post _ b.bp b.size _ s1 s3 (by omega) h16 c hc).1
  · intro x hx
    obtain ⟨c, hc, hcx, hc0⟩ := k2 x hx
    refine ⟨c, ?_, hcx, hc0⟩
    rcases hc with h1 | h1
    · exact List.mem_append_left _ h1
    · exact List.mem_append_right _ (List.mem_cons_of_mem _ h1)
  · intro c hc hc0 hne
    rcases mem_split_cases pre post ⟨b.bp, b.size, 0⟩ c hc hne with h1 | h1
    · exact k3 c (Or.inl h1) hc0
    · exact k3 c (Or.inr h1) hc0

theorem mm_free_eq (h : Heap) (pre post : List Blk) (b : Blk) (L : List Nat)
    (hw : WF h (pre ++ b :: post) L) :
    mm_free h b.bp =
      (coalesce { h with mem := PUT (PUT h.mem (b.bp - 4) b.size) (b.bp + b.size - 8) b.size }
        b.bp).1 := by
  obtain ⟨s1, s2, s3, s4, s5, s6⟩ := Arena_split h pre post b hw.arena
  have rb1 := (read_hdr _ _ s2).1
  have hne : ¬ (b.bp = NULL) := by unfold NULL; omega
  unfold mm_free
  rw [if_neg hne]
  simp only [rb1]
  rw [set_tags_free _ b.bp b.size s2.1 (by omega)]

/-- Freeing an allocated block of a well-formed heap: the heap is well formed again, the freed
block is part of the free block `r` at the head of the list, and the other allocated blocks
are untouched. -/
theorem mm_free_spec (h : Heap) (pre post : List Blk) (b : Blk) (L : List Nat)
    (hw : WF h (pre ++ b :: post) L) (hb : b.alloc = 1) :
    ∃ pre1 r post1 L1, WF (mm_free h b.bp) (pre1 ++ r :: post1) (r.bp :: L1) ∧ r.alloc = 0 ∧
      SameFields h (mm_free h b.bp) ∧
      (∀ c, c.alloc = 1 → (c ∈ pre1 ++ r :: post1 ↔ (c ∈ pre ∨ c ∈ post))) := by
  have hc := free_pre h pre post b L hw hb
  obtain ⟨pre1, r, post1, L1, hw1, -, hr0, -, hs, hal, -⟩ := coalesce_spec _ pre post _ L hc
  rw [mm_free_eq h pre post b L hw]
  refine ⟨pre1, r, post1, L1, hw1, hr0, ⟨hs.1, hs.2.1, hs.2.2.1, hs.2.2.2.1, hs.2.2.2.2⟩, ?_⟩
  intro c hc1
  rw [hal c hc1]
  constructor
  · intro hin
    rcases List.mem_append.mp hin with h1 | h1
    · exact Or.inl h1
    · rcases List.mem_cons.mp h1 with h2 | h2
      · rw [h2] at hc1; simp at hc1
      · exact Or.inr h2
  · rintro (h1 | h1)
    · exact List.mem_append_left _ h1
    · exact List.mem_append_right _ (List.mem_cons_of_mem _ h1)

/-! ## `place` -/

theorem sub32_eq (a b : Nat) (hle : b ≤ a) (hlt : a < W32) : sub32 a b = a - b := by
  unfold sub32 W32 at *
  omega

theorem WF_split_free (h : Heap) (pre post : List Blk) (b : Blk) (L : List Nat)
    (hw : WF h (pre ++ b :: post) L) (hb : b.alloc = 0) :
    b.bp ∈ L ∧ (∀ x ∈ L.erase b.bp, ∃ c, (c ∈ pre ∨ c ∈ post) ∧ c.bp = x ∧ c.alloc = 0) ∧
    (∀ c, (c ∈ pre ∨ c ∈ post) → c.alloc = 0 → c.bp ∈ L.erase b.bp) := by
  have hbs : pre ++ b :: post = pre ++ [b] ++ post := by simp
  refine ⟨hw.free_list b (by simp) hb, ?_, ?_⟩
  · apply merge_members pre [b] post L _ (by rw [← hbs]; exact hw.list_free)
    intro x hx
    have hx' := (List.Nodup.mem_erase_iff hw.listed.nodup).mp hx
    refine ⟨hx'.2, ?_⟩
    intro d hd
    rw [List.mem_singleton] at hd
    subst hd
    exact fun e => hx'.1 e.symm
  · apply merge_free h.mem _ _ pre [b] post L _ b (by rw [← hbs]; exact hw.arena.tiles)
      (by simp) (by rw [← hbs]; exact fun c hc hc0 _ => hw.free_list c hc hc0)
    intro x hx hd
    exact (List.Nodup.mem_erase_iff hw.listed.nodup).mpr ⟨fun e => hd b (by simp) e.symm, hx⟩

theorem place_eq_whole (h : Heap) (bp asize : Nat)
    (hc : ¬ (sub32 (GET_SIZE h.mem (HDRP bp)) asize ≥ 4 * WSIZE)) :
    place h bp asize =
      remove_from_free_list { h with
        mem := PUT (PUT h.mem (HDRP bp) (PACK (GET_SIZE h.mem (HDRP bp)) 1))
          (FTRP (PUT h.mem (HDRP bp) (PACK (GET_SIZE h.mem (HDRP bp)) 1)) bp)
          (PACK (GET_SIZE h.mem (HDRP bp)) 1) } bp := by
  unfold place
  simp only [if_neg hc]

theorem place_eq_split (h : Heap) (bp asize : Nat)
    (hc : sub32 (GET_SIZE h.mem (HDRP bp)) asize ≥ 4 * WSIZE) :
    place h bp asize =
      (coalesce { remove_from_free_list { h with
          mem := PUT (PUT h.mem (HDRP bp) (PACK asize 1))
            (FTRP (PUT h.mem (HDRP bp) (PACK asize 1)) bp) (PACK asize 1) } bp with
        mem := PUT (PUT (remove_from_free_list { h with
              mem := PUT (PUT h.mem (HDRP bp) (PACK asize 1))
                (FTRP (PUT h.mem (HDRP bp) (PACK asize 1)) bp) (PACK asize 1) } bp).mem
            (HDRP (NEXT_BLK (remove_from_free_list { h with
              mem := PUT (PUT h.mem (HDRP bp) (PACK asize 1))
                (FTRP (PUT h.mem (HDRP bp) (PACK asize 1)) bp) (PACK asize 1) } bp).mem bp))
            (PACK (sub32 (GET_SIZE h.mem (HDRP bp)) asize) 0))
          (FTRP (PUT (remove_from_free_list { h with
              mem := PUT (PUT h.mem (HDRP bp) (PACK asize 1))
                (FTRP (PUT h.mem (HDRP bp) (PACK asize 1)) bp) (PACK asize 1) } bp).mem
            (HDRP (NEXT_BLK (remove_from_free_list { h with
              mem := PUT (PUT h.mem (HDRP bp) (PACK asize 1))
                (FTRP (PUT h.mem (HDRP bp) (PACK asize 1)) bp) (PACK asize 1) } bp).mem bp))
            (PACK (sub32 (GET_SIZE h.mem (HDRP bp)) asize) 0))
            (NEXT_BLK (remove_from_free_list { h with
              mem := PUT (PUT h.mem (HDRP bp) (PACK asize 1))
                (FTRP (PUT h.mem (HDRP bp) (PACK asize 1)) bp) (PACK asize 1) } bp).mem bp))
          (PACK (sub32 (GET_SIZE h.mem (HDRP bp)) asize) 0) }
        (NEXT_BLK (remove_from_free_list { h with
              mem := PUT (PUT h.mem (HDRP bp) (PACK asize 1))
                (FTRP (PUT h.mem (HDRP bp) (PACK asize 1)) bp) (PACK asize 1) } bp).mem bp)).1 := by
  unfold place
  simp only [if_pos hc]

/-- The block found is used whole when the rest would be smaller than a minimal block. -/
theorem place_whole (h : Heap) (pre post : List Blk) (b : Blk) (L : List Nat) (asize : Nat)
    (hw : WF h (pre ++ b :: post) L) (hb : b.alloc = 0)
    (hle : asize ≤ b.size) (hsm : b.size < asize + 16) :
    place h b.bp asize =
      { remove_from_free_list h b.bp with
        mem := PUT (PUT (remove_from_free_list h b.bp).mem (b.bp - 4) (b.size + 1))
          (b.bp + b.size - 8) (b.size + 1) } ∧
    WF (place h b.bp asize) (pre ++ ⟨b.bp, b.size, 1⟩ :: post) (L.erase b.bp) ∧
    SameFields h (place h b.bp asize) := by
  obtain ⟨s1, s2, s3, s4, s5, s6⟩ := Arena_split h pre post b hw.arena
  obtain ⟨k1, k2, k3⟩ := WF_split_free h pre post b L hw hb
  have rb1 := (read_hdr _ _ s2).1
  have h8 := s2.1
  have h16 := s2.2.1
  have hLb : ∀ x ∈ L, ∃ c ∈ pre ++ b :: post, c.bp = x := fun x hx => by
    obtain ⟨c, hc1, hc2, _⟩ := hw.list_free x hx
    exact ⟨c, hc1, hc2⟩
  have hcond : ¬ (sub32 (GET_SIZE h.mem (HDRP b.bp)) asize ≥ 4 * WSIZE) := by
    rw [rb1, sub32_eq _ _ hle (by omega)]; unfold WSIZE; omega
  have e : place h b.bp asize =
      { remove_from_free_list h b.bp with
        mem := PUT (PUT (remove_from_free_list h b.bp).mem (b.bp - 4) (b.size + 1))
          (b.bp + b.size - 8) (b.size + 1) } := by
    rw [place_eq_whole h b.bp asize hcond, rb1, set_tags _ b.bp b.size 1 h8 (by decide) (by omega)]
    exact place_comm h _ L b _ _ _ _ hw.arena hw.listed hLb (by simp) k1 (by omega) (by omega)
      (by omega) (by omega) (by omega) (by omega)
  obtain ⟨ra, rl, rf, -⟩ := remove_step h _ L b.bp hw.arena hw.listed hLb k1
  obtain ⟨t1, -, t3, -, -, -⟩ := Arena_split _ pre post b ra
  rw [e]
  refine ⟨rfl, ⟨finish_arena _ _ pre post b.bp b.size 1 ra t1 t3 h8 h16 (by decide), ?_, ?_, ?_⟩,
    ⟨rf.1, rf.2.1, rf.2.2.1, rf.2.2.2.1, rf.2.2.2.2⟩⟩
  · apply finish_listed _ (L.erase b.bp) b.bp b.size (b.size + 1) rl _ (by omega) h16
    intro x hx
    obtain ⟨c, hc, rfl, _⟩ := k2 x hx
    exact (mem_pre_post_sep _ pre post _ b.bp b.size _ s1 s3 (by omega) h16 c hc).1
  · intro x hx
    obtain ⟨c, hc, hcx, hc0⟩ := k2 x hx
    refine ⟨c, ?_, hcx, hc0⟩
    rcases hc with h1 | h1
    · exact List.mem_append_left _ h1
    · exact List.mem_append_right _ (List.mem_cons_of_mem _ h1)
  · intro c hc hc0
    rcases List.mem_append.mp hc with h1 | h1
    · exact k3 c (Or.inl h1) hc0
    · rcases List.mem_cons.mp h1 with h2 | h2
      · rw [h2] at hc0; simp at hc0
      · exact k3 c (Or.inr h2) hc0

/-- Writing the tags of an allocated front part and of a free rest splits a block. -/
theorem Tiles_split_block (m : Mem) (pre post : List Blk) (a0 bp e a c : Nat) (h4 : 4 ≤ a0)
    (hpre : Tiles m a0 pre bp) (hpost : Tiles m (bp + c) post e)
    (ha8 : a % 8 = 0) (ha16 : 16 ≤ a) (hc8 : c % 8 = 0) (hac : a + 16 ≤ c) (hlt : c < W32) :
    Tiles (PUT (PUT (PUT (PUT m (bp - 4) (a + 1)) (bp + a - 8) (a + 1)) (bp + a - 4) (c - a))
        (bp + a + (c - a) - 8) (c - a)) a0
      ((pre ++ [⟨bp, a, 1⟩]) ++ ⟨bp + a, c - a, 0⟩ :: post) e := by
  have hle := Tiles_le _ _ _ _ hpre
  have t1 : Tiles (PUT (PUT m (bp - 4) (a + 1)) (bp + a - 8) (a + 1)) a0
      (pre ++ [⟨bp, a, 1⟩]) (bp + a) :=
    Tiles_set_block m pre [] a0 bp (bp + a) a 1 h4 hpre rfl ha8 ha16 (by decide) (by omega)
  have t2 : Tiles (PUT (PUT m (bp - 4) (a + 1)) (bp + a - 8) (a + 1)) (bp + a + (c - a))
      post e := by
    rw [show bp + a + (c - a) = bp + c by omega]
    apply Tiles_frame_range _ _ _ _ _ (by omega) hpost
    intro x h1 h2
    rw [PUT_bytes _ _ _ _ (by omega), PUT_bytes _ _ _ _ (by omega)]
  exact Tiles_set_block _ (pre ++ [⟨bp, a, 1⟩]) post a0 (bp + a) e (c - a) 0 h4 t1 t2
    (by omega) (by omega) (by decide) (by omega)

/-- The state in which `place` calls `coalesce` on the rest of a split block. -/
theorem place_split (h : Heap) (pre post : List Blk) (b : Blk) (L : List Nat) (asize : Nat)
    (hw : WF h (pre ++ b :: post) L) (hb : b.alloc = 0)
    (ha8 : asize % 8 = 0) (ha16 : 16 ≤ asize) (hbig : asize + 16 ≤ b.size) :
    ∃ h4, place h b.bp asize = (coalesce h4 (b.bp + asize)).1 ∧
      CoalPre h4 (pre ++ [⟨b.bp, asize, 1⟩]) ⟨b.bp + asize, b.size - asize, 0⟩ post
        (L.erase b.bp) ∧
      SameFields h h4 := by
  obtain ⟨s1, s2, s3, s4, s5, s6⟩ := Arena_split h pre post b hw.arena
  obtain ⟨k1, k2, k3⟩ := WF_split_free h pre post b L hw hb
  have rb1 := (read_hdr _ _ s2).1
  have h8 := s2.1
  have hLb : ∀ x ∈ L, ∃ c ∈ pre ++ b :: post, c.bp = x := fun x hx => by
    obtain ⟨c, hc1, hc2, _⟩ := hw.list_free x hx
    exact ⟨c, hc1, hc2⟩
  have e4 : sub32 b.size asize = b.size - asize := sub32_eq _ _ (by omega) (by omega)
  have hcond : sub32 (GET_SIZE h.mem (HDRP b.bp)) asize ≥ 4 * WSIZE := by
    rw [rb1, e4]; unfold WSIZE; omega
  have e1 := set_tags h.mem b.bp asize 1 ha8 (by decide) (by omega)
  have e2 := place_comm h _ L b (b.bp - 4) (asize + 1) (b.bp + asize - 8) (asize + 1)
    hw.arena hw.listed hLb (by simp) k1 (by omega) (by omega) (by omega) (by omega) (by omega)
    (by omega)
  have e3 : NEXT_BLK (PUT (PUT (remove_from_free_list h b.bp).mem (b.bp - 4) (asize + 1))
      (b.bp + asize - 8) (asize + 1)) b.bp = b.bp + asize := by
    unfold NEXT_BLK WSIZE
    rw [GET_SIZE_eq _ _ asize 1 (by
      rw [GET_PUT_disj _ _ _ _ (by omega), GET_PUT_same_lt _ _ _ (by omega)]) ha8 (by decide)]
  have e5 := set_tags_free (PUT (PUT (remove_from_free_list h b.bp).mem (b.bp - 4) (asize + 1))
      (b.bp + asize - 8) (asize + 1)) (b.bp + asize) (b.size - asize) (by omega) (by omega)
  obtain ⟨ra, rl, rf, -⟩ := remove_step h _ L b.bp hw.arena hw.listed hLb k1
  obtain ⟨t1, -, t3, -, -, -⟩ := Arena_split _ pre post b ra
  have hbl := ra.brk_le
  have hll := ra.limit_lt
  have hsepL : ∀ x ∈ L.erase b.bp, (x + 8 ≤ b.bp - 4 ∨ b.bp + b.size ≤ x) ∧ x ≠ b.bp := by
    intro x hx
    obtain ⟨c, hc, rfl, _⟩ := k2 x hx
    exact mem_pre_post_sep _ pre post _ b.bp b.size _ s1 s3 (by omega) (by omega) c hc
  refine ⟨{ remove_from_free_list h b.bp with
      mem := PUT (PUT (PUT (PUT (remove_from_free_list h b.bp).mem (b.bp - 4) (asize + 1))
          (b.bp + asize - 8) (asize + 1)) (b.bp + asize - 4) (b.size - asize))
        (b.bp + asize + (b.size - asize) - 8) (b.size - asize) }, ?_, ⟨?_, ?_, rfl, ?_, ?_, ?_⟩,
    ⟨rf.1, rf.2.1, rf.2.2.1, rf.2.2.2.1, rf.2.2.2.2⟩⟩
  · rw [place_eq_split h b.bp asize hcond]
    simp only [e1, e2, e3, rb1, e4, e5]
  · refine Arena_rebuild _ _ _ _ ra ?_ ?_ ?_ ?_ ?_
    · rfl
    · rfl
    · rfl
    · exact Tiles_split_block _ pre post _ b.bp _ asize b.size (by omega) t1 t3 ha8 ha16 h8
        hbig (by omega)
    · intro a hcase
      show PUT (PUT (PUT (PUT (remove_from_free_list h b.bp).mem (b.bp - 4) (asize + 1))
          (b.bp + asize - 8) (asize + 1)) (b.bp + asize - 4) (b.size - asize))
        (b.bp + asize + (b.size - asize) - 8) (b.size - asize) a = _
      have := rf.1
      have := rf.2.2.1
      rw [PUT_bytes _ _ _ _ (by omega), PUT_bytes _ _ _ _ (by omega),
        PUT_bytes _ _ _ _ (by omega), PUT_bytes _ _ _ _ (by omega)]
  · refine ⟨?_, rl.nodup⟩
    apply Chain_frame _ _ _ _ _ _ rl.chain
    intro y hy x hx1 hx2
    have := (hsepL y hy).1
    show PUT (PUT (PUT (PUT (remove_from_free_list h b.bp).mem (b.bp - 4) (asize + 1))
          (b.bp + asize - 8) (asize + 1)) (b.bp + asize - 4) (b.size - asize))
        (b.bp + asize + (b.size - asize) - 8) (b.size - asize) x = _
    rw [PUT_bytes _ _ _ _ (by omega), PUT_bytes _ _ _ _ (by omega),
      PUT_bytes _ _ _ _ (by omega), PUT_bytes _ _ _ _ (by omega)]
  · intro x hx
    obtain ⟨c, hc, hcx, hc0⟩ := k2 x hx
    refine ⟨c, ?_, hcx, hc0⟩
    rcases hc with h1 | h1
    · exact List.mem_append_left _ (List.mem_append_left _ h1)
    · exact List.mem_append_right _ (List.mem_cons_of_mem _ h1)
  · intro hin
    have := (hsepL _ hin).1
    show False
    have e : (⟨b.bp + asize, b.size - asize, 0⟩ : Blk).bp = b.bp + asize := rfl
    rw [e] at this
    omega
  · intro c hc hc0 hne
    rcases List.mem_append.mp hc with h1 | h1
    · rcases List.mem_append.mp h1 with h2 | h2
      · exact k3 c (Or.inl h2) hc0
      · rw [List.mem_singleton] at h2
        rw [h2] at hc0; simp at hc0
    · rcases List.mem_cons.mp h1 with h2 | h2
      · rw [h2] at hne; exact absurd rfl hne
      · exact k3 c (Or.inr h2) hc0

/-! ## `extend_heap` -/

theorem extend_size_props (words : Nat) :
    extend_size words % 8 = 0 ∧ 16 ≤ extend_size words ∧ extend_size words < W32 := by
  unfold extend_size WSIZE W32
  dsimp only
  split_ifs <;> omega

theorem extend_size_even (words : Nat) (he : words % 2 = 0) (hlt : words * 4 < W32)
    (h16 : 16 ≤ words * 4) : extend_size words = words * 4 := by
  unfold extend_size WSIZE
  unfold W32 at *
  dsimp only
  split_ifs <;> omega

theorem extend_heap_fail (h : Heap) (words : Nat) (hf : ¬ (h.brk + extend_size words ≤ h.limit)) :
    extend_heap h words = (h, NULL) := by
  unfold extend_heap mem_sbrk
  simp only [if_neg hf, if_true]

theorem extend_heap_eq (h : Heap) (words : Nat) (hs : h.brk + extend_size words ≤ h.limit)
    (hl : h.limit < W32) :
    extend_heap h words =
      coalesce { h with
        brk := h.brk + extend_size words,
        mem := PUT (PUT (PUT h.mem (h.brk - 4) (extend_size words))
          (h.brk + extend_size words - 8) (extend_size words))
          (h.brk + extend_size words - 4) 1 } h.brk := by
  obtain ⟨p8, p16, plt⟩ := extend_size_props words
  have hne : ¬ (h.brk = SBRK_FAIL) := by unfold SBRK_FAIL; unfold W32 at hl; omega
  have e1 := set_tags_free h.mem h.brk (extend_size words) p8 plt
  have e2 : NEXT_BLK (PUT (PUT h.mem (h.brk - 4) (extend_size words))
      (h.brk + extend_size words - 8) (extend_size words)) h.brk
      = h.brk + extend_size words := by
    unfold NEXT_BLK WSIZE
    rw [GET_SIZE_eq _ _ (extend_size words) 0 (by
      rw [GET_PUT_disj _ _ _ _ (by omega), GET_PUT_same_lt _ _ _ plt]; rfl) p8 (by decide)]
  have e3 : PACK 0 1 = 1 := by decide
  unfold extend_heap mem_sbrk
  simp only [if_pos hs, if_neg hne, e1, e2, e3]
  simp only [HDRP, WSIZE]

/-- The state in which `extend_heap` calls `coalesce` on the new block. -/
theorem extend_pre (h : Heap) (bs : List Blk) (L : List Nat) (size : Nat)
    (hw : WF h bs L) (h8 : size % 8 = 0) (h16 : 16 ≤ size) (hs : h.brk + size ≤ h.limit) :
    CoalPre { h with
        brk := h.brk + size,
        mem := PUT (PUT (PUT h.mem (h.brk - 4) size) (h.brk + size - 8) size)
          (h.brk + size - 4) 1 } bs ⟨h.brk, size, 0⟩ [] L := by
  have ha := hw.arena
  have hbg := ha.brk_ge
  have hll := ha.limit_lt
  have hmem : ∀ c ∈ bs, c.bp + c.size ≤ h.brk ∧ 16 ≤ c.size := fun c hc => by
    have := Tiles_mem _ _ _ _ ha.tiles c hc
    exact ⟨this.2.1, this.2.2.2.2⟩
  have hfr : ∀ a, a + 4 < h.brk →
      PUT (PUT (PUT h.mem (h.brk - 4) size) (h.brk + size - 8) size) (h.brk + size - 4) 1 a
        = h.mem a := by
    intro a ha1
    rw [PUT_bytes _ _ _ _ (by omega), PUT_bytes _ _ _ _ (by omega),
      PUT_bytes _ _ _ _ (by omega)]
  refine ⟨⟨ha.base_pos, hs, hll, ?_, ?_, ?_, ?_, ?_⟩, ⟨?_, hw.listed.nodup⟩, rfl, ?_, ?_, ?_⟩
  · show h.heap_listp + 32 ≤ h.brk + size
    omega
  · show GET _ (h.heap_listp + 4) = 9
    rw [← ha.prologue]
    exact GET_congr _ _ _ fun a h1 h2 => hfr a (by omega)
  · show GET _ (h.heap_listp + 24) = 0
    rw [← ha.pad]
    exact GET_congr _ _ _ fun a h1 h2 => hfr a (by omega)
  · show Tiles _ (h.heap_listp + 32) (bs ++ [⟨h.brk, size, 0⟩]) (h.brk + size)
    have t := Tiles_set_block h.mem bs [] (h.heap_listp + 32) h.brk (h.brk + size) size 0
      (by omega) ha.tiles rfl h8 h16 (by decide) (by omega)
    apply Tiles_frame_range _ _ _ _ _ (by omega) t
    intro x h1 h2
    exact PUT_bytes _ _ _ _ (by omega)
  · show GET _ (h.brk + size - 4) = 1
    exact GET_PUT_same_lt _ _ _ (by decide)
  · show Chain _ (h.heap_listp + 8) 0 h.free_list_start L
    apply Chain_frame _ _ _ _ _ _ hw.listed.chain
    intro y hy x hx1 hx2
    obtain ⟨c, hc, rfl, _⟩ := hw.list_free y hy
    have := hmem c hc
    exact hfr x (by omega)
  · intro x hx
    obtain ⟨c, hc, hcx, hc0⟩ := hw.list_free x hx
    exact ⟨c, List.mem_append_left _ hc, hcx, hc0⟩
  · intro hin
    obtain ⟨c, hc, hcx, hc0⟩ := hw.list_free _ hin
    have := hmem c hc
    have e : (⟨h.brk, size, 0⟩ : Blk).bp = h.brk := rfl
    rw [e] at hcx
    omega
  · intro c hc hc0 hne
    rcases List.mem_append.mp hc with h1 | h1
    · exact hw.free_list c h1 hc0
    · rw [List.mem_singleton] at h1
      rw [h1] at hne; exact absurd rfl hne

/-- A granted `extend_heap`: the arena grows by exactly `extend_size words`, the heap is well
formed again, the result is the free block at the head of the list and has at least the new
bytes, and the allocated blocks are the same as before. -/
theorem extend_heap_spec (h : Heap) (bs : List Blk) (L : List Nat) (words : Nat)
    (hw : WF h bs L) (hs : h.brk + extend_size words ≤ h.limit) :
    ∃ pre1 r post1 L1, WF (extend_heap h words).1 (pre1 ++ r :: post1) (r.bp :: L1) ∧
      (extend_heap h words).2 = r.bp ∧ r.alloc = 0 ∧ extend_size words ≤ r.size ∧
      (extend_heap h words).1.brk = h.brk + extend_size words ∧
      (extend_heap h words).1.limit = h.limit ∧
      (extend_heap h words).1.heap_listp = h.heap_listp ∧
      (extend_heap h words).1.last_malloced_size = h.last_malloced_size ∧
      (extend_heap h words).1.repeat_counter = h.repeat_counter ∧
      (∀ c, c.alloc = 1 → (c ∈ pre1 ++ r :: post1 ↔ c ∈ bs)) := by
  obtain ⟨p8, p16, plt⟩ := extend_size_props words
  have hc := extend_pre h bs L (extend_size words) hw p8 p16 hs
  obtain ⟨pre1, r, post1, L1, hw1, hr, hr0, hsz, hsf, hal, -⟩ := coalesce_spec _ bs [] _ L hc
  rw [extend_heap_eq h words hs hw.arena.limit_lt]
  refine ⟨pre1, r, post1, L1, hw1, hr, hr0, hsz, hsf.1, hsf.2.1, hsf.2.2.1, hsf.2.2.2.1,
    hsf.2.2.2.2, ?_⟩
  intro c hc1
  rw [hal c hc1]
  constructor
  · intro hin
    rcases List.mem_append.mp hin with h1 | h1
    · exact h1
    · rw [List.mem_singleton] at h1
      rw [h1] at hc1; simp at hc1
  · intro hin
    exact List.mem_append_left _ hin

/-! ## `find_fit` -/

theorem bypass_words (asize : Nat) (h8 : asize % 8 = 0) (h16 : 16 ≤ asize) (hlt : asize < W32) :
    extend_size (ofInt32 (Int.tdiv (toInt32 (MAX asize (4 * WSIZE))) 4)) = asize := by
  have hmax : MAX asize (4 * WSIZE) = asize := by
    unfold MAX WSIZE
    split_ifs <;> omega
  rw [hmax]
  unfold W32 at hlt
  by_cases hs : asize < 2147483648
  · have e1 : toInt32 asize = (asize : Int) := by
      unfold toInt32 W32
      rw [if_pos (by omega)]
      omega
    have hd : (4 : Int) ∣ toInt32 asize := by rw [e1]; omega
    rw [Int.tdiv_eq_ediv_of_dvd hd, e1]
    have key : ((asize / 4 : Nat) : Int) = ((asize : Int) / 4) % 4294967296 := by omega
    have e2 : ofInt32 ((asize : Int) / 4) = asize / 4 := by
      unfold ofInt32; rw [← key]; exact Int.toNat_ofNat _
    rw [e2]
    exact (extend_size_even _ (by omega) (by unfold W32; omega) (by omega)).trans (by omega)
  · have e1 : toInt32 asize = (asize : Int) - 4294967296 := by
      unfold toInt32 W32
      rw [if_neg (by omega)]
      omega
    have hd : (4 : Int) ∣ toInt32 asize := by rw [e1]; omega
    rw [Int.tdiv_eq_ediv_of_dvd hd, e1]
    have key : ((4294967296 - (4294967296 - asize) / 4 : Nat) : Int)
        = (((asize : Int) - 4294967296) / 4) % 4294967296 := by omega
    have e2 : ofInt32 (((asize : Int) - 4294967296) / 4)
        = 4294967296 - (4294967296 - asize) / 4 := by
      unfold ofInt32; rw [← key]; exact Int.toNat_ofNat _
    rw [e2]
    unfold extend_size WSIZE W32
    dsimp only
    split_ifs <;> omega

/-- The loop of `find_fit` on a chain computes first fit, given enough fuel. -/
theorem find_fit_loop_spec (m : Mem) (S asize : Nat) (L : List Nat) (p c fuel : Nat)
    (hc : Chain m S p c L) (hfree : ∀ x ∈ L, GET_ALLOC m (HDRP x) = 0)
    (hS : GET_ALLOC m (HDRP S) ≠ 0) (hfu : L.length < fuel) :
    find_fit_loop m asize fuel c = some (firstFit m asize L) := by
  induction L generalizing p c fuel with
  | nil =>
    have e : c = S := hc
    subst e
    cases fuel with
    | zero => omega
    | succ f =>
      unfold find_fit_loop
      rw [if_neg hS]
      rfl
  | cons x xs ih =>
    obtain ⟨h1, h2, h3⟩ := hc
    subst h1
    cases fuel with
    | zero => omega
    | succ f =>
      unfold find_fit_loop
      rw [if_pos (hfree c (List.mem_cons_self _ _))]
      by_cases hfit : asize ≤ GET_SIZE m (HDRP c)
      · rw [if_pos hfit]
        unfold firstFit
        rw [List.find?_cons_of_pos _ (by simpa using hfit)]
      · rw [if_neg hfit]
        unfold firstFit
        rw [List.find?_cons_of_neg _ (by simpa using hfit)]
        exact ih c (GET m c) f h3 (fun y hy => hfree y (List.mem_cons_of_mem _ hy))
          (by simp only [List.length_cons] at hfu; omega)

theorem WF_of_eq (h h1 : Heap) (bs : List Blk) (L : List Nat) (hw : WF h bs L)
    (e1 : h1.mem = h.mem) (e2 : h1.brk = h.brk) (e3 : h1.limit = h.limit)
    (e4 : h1.heap_listp = h.heap_listp) (e5 : h1.free_list_start = h.free_list_start) :
    WF h1 bs L := by
  obtain ⟨⟨a1, a2, a3, a4, a5, a6, a7, a8⟩, ⟨l1, l2⟩, m1, m2⟩ := hw
  refine ⟨⟨?_, ?_, ?_, ?_, ?_, ?_, ?_, ?_⟩, ⟨?_, l2⟩, m1, m2⟩
  · rw [e4]; exact a1
  · rw [e2, e3]; exact a2
  · rw [e3]; exact a3
  · rw [e4, e2]; exact a4
  · rw [e1, e4]; exact a5
  · rw [e1, e4]; exact a6
  · rw [e1, e4, e2]; exact a7
  · rw [e1, e2]; exact a8
  · rw [e1, e4, e5]; exact l1

theorem WF_length (h : Heap) (bs : List Blk) (L : List Nat) (hw : WF h bs L) :
    L.length < h.brk := by
  have h1 : L ⊆ bs.map Blk.bp := by
    intro x hx
    obtain ⟨c, hc, hcx, _⟩ := hw.list_free x hx
    exact List.mem_map.mpr ⟨c, hc, hcx⟩
  have h2 := (hw.listed.nodup.subperm h1).length_le
  rw [List.length_map] at h2
  have h3 := (Tiles_length _ _ _ _ hw.arena.tiles).1
  have := hw.arena.brk_ge
  omega

/-- The scan of a well-formed heap finishes and returns first fit. -/
theorem scan_spec (h : Heap) (bs : List Blk) (L : List Nat) (asize : Nat) (hw : WF h bs L) :
    find_fit_loop h.mem asize h.brk h.free_list_start = some (firstFit h.mem asize L) := by
  apply find_fit_loop_spec h.mem (h.heap_listp + 8) asize L 0 _ h.brk hw.listed.chain
  · intro x hx
    obtain ⟨c, hc, rfl, hc0⟩ := hw.list_free x hx
    have := (read_hdr _ _ (Tiles_mem _ _ _ _ hw.arena.tiles c hc).2.2.1).2.1
    rw [this, hc0]
  · have : GET_ALLOC h.mem (HDRP (h.heap_listp + 8)) = 1 := by
      unfold HDRP WSIZE
      rw [show h.heap_listp + 8 - 4 = h.heap_listp + 4 by omega]
      exact GET_ALLOC_eq _ _ 8 1 hw.arena.prologue (by decide) (by decide)
    rw [this]; decide
  · exact WF_length h bs L hw

theorem firstFit_some (h : Heap) (bs : List Blk) (L : List Nat) (asize x : Nat)
    (hw : WF h bs L) (hx : firstFit h.mem asize L = some x) :
    ∃ pre b post, bs = pre ++ b :: post ∧ b.bp = x ∧ b.alloc = 0 ∧ asize ≤ b.size := by
  unfold firstFit at hx
  have hmem := List.mem_of_find?_eq_some hx
  have hp := List.find?_some hx
  obtain ⟨c, hc, rfl, hc0⟩ := hw.list_free x hmem
  have := (read_hdr _ _ (Tiles_mem _ _ _ _ hw.arena.tiles c hc).2.2.1).1
  rw [this] at hp
  obtain ⟨pre, post, rfl⟩ := List.append_of_mem hc
  exact ⟨pre, c, post, rfl, rfl, hc0, by simpa using hp⟩

/-! ## Summary of `place` -/

/-- Placing `asize` bytes in a free block of a well-formed heap: the heap is well formed again,
the block at the same payload address is allocated with at least `asize` bytes, and the other
allocated blocks are untouched. -/
theorem place_spec (h : Heap) (pre post : List Blk) (b : Blk) (L : List Nat) (asize : Nat)
    (hw : WF h (pre ++ b :: post) L) (hb : b.alloc = 0)
    (ha8 : asize % 8 = 0) (ha16 : 16 ≤ asize) (hle : asize ≤ b.size) :
    ∃ bs1 L1 nb, WF (place h b.bp asize) bs1 L1 ∧ SameFields h (place h b.bp asize) ∧
      nb.bp = b.bp ∧ nb.alloc = 1 ∧ asize ≤ nb.size ∧ nb.size ≤ b.size ∧
      (∀ c, c.alloc = 1 → (c ∈ bs1 ↔ ((c ∈ pre ∨ c ∈ post) ∨ c = nb))) := by
  by_cases hbig : asize + 16 ≤ b.size
  · obtain ⟨h4, e, hc, hs⟩ := place_split h pre post b L asize hw hb ha8 ha16 hbig
    obtain ⟨pre1, r, post1, L1, hw1, -, -, -, hs1, hal, -⟩ := coalesce_spec _ _ _ _ _ hc
    rw [e]
    refine ⟨pre1 ++ r :: post1, r.bp :: L1, ⟨b.bp, asize, 1⟩, hw1, SameFields.trans hs hs1,
      rfl, rfl, le_refl _, hle, ?_⟩
    intro c hc1
    rw [hal c hc1]
    simp only [List.mem_append, List.mem_cons, List.mem_singleton, List.not_mem_nil, or_false]
    constructor
    · rintro ((h1 | h1) | h1 | h1)
      · exact Or.inl (Or.inl h1)
      · exact Or.inr h1
      · rw [h1] at hc1; simp at hc1
      · exact Or.inl (Or.inr h1)
    · rintro ((h1 | h1) | h1)
      · exact Or.inl (Or.inl h1)
      · exact Or.inr (Or.inr h1)
      · exact Or.inl (Or.inr h1)
  · obtain ⟨-, hw1, hs⟩ := place_whole h pre post b L asize hw hb hle (by omega)
    refine ⟨_, _, ⟨b.bp, b.size, 1⟩, hw1, hs, rfl, rfl, hle, le_refl _, ?_⟩
    intro c hc1
    simp only [List.mem_append, List.mem_cons]
    constructor
    · rintro (h1 | h1 | h1)
      · exact Or.inl (Or.inl h1)
      · exact Or.inr h1
      · exact Or.inl (Or.inr h1)
    · rintro ((h1 | h1) | h1)
      · exact Or.inl h1
      · exact Or.inr (Or.inr h1)
      · exact Or.inr (Or.inl h1)

/-! ## Summary of `find_fit` -/

theorem find_fit_scan_spec (h : Heap) (bs : List Blk) (L : List Nat) (asize : Nat)
    (hw : WF h bs L) :
    (firstFit h.mem asize L = none ∧ find_fit_scan h asize = some (h, NULL)) ∨
    (∃ x, firstFit h.mem asize L = some x ∧
      find_fit_scan h asize = some ({ h with last_malloced_size := asize }, x)) := by
  unfold find_fit_scan
  rw [scan_spec h bs L asize hw]
  cases hff : firstFit h.mem asize L with
  | none => left; exact ⟨rfl, rfl⟩
  | some x => right; exact ⟨x, rfl, rfl⟩

/-- `find_fit` on a well-formed heap returns: either no block, with the heap's blocks
unchanged, or a free block of at least `asize` bytes of a heap that is again well formed (the
bypass may have grown the arena); allocated blocks stay as they are. -/
theorem find_fit_spec (h : Heap) (bs : List Blk) (L : List Nat) (asize : Nat)
    (hw : WF h bs L) (h8 : asize % 8 = 0) (h16 : 16 ≤ asize) (hlt : asize < W32) :
    ∃ h1 bp, find_fit h asize = some (h1, bp) ∧ h1.limit = h.limit ∧
      h1.heap_listp = h.heap_listp ∧ h.brk ≤ h1.brk ∧
      ((bp = NULL ∧ WF h1 bs L ∧ h1.brk = h.brk) ∨
       (∃ pre b post L1, WF h1 (pre ++ b :: post) L1 ∧ b.bp = bp ∧ b.alloc = 0 ∧
          asize ≤ b.size ∧ (∀ c, c.alloc = 1 → (c ∈ pre ++ b :: post ↔ c ∈ bs)))) := by
  have scan : ∀ rc, ∃ h1 bp, find_fit_scan { h with repeat_counter := rc } asize = some (h1, bp) ∧
      h1.limit = h.limit ∧ h1.heap_listp = h.heap_listp ∧ h.brk ≤ h1.brk ∧
      ((bp = NULL ∧ WF h1 bs L ∧ h1.brk = h.brk) ∨
       (∃ pre b post L1, WF h1 (pre ++ b :: post) L1 ∧ b.bp = bp ∧ b.alloc = 0 ∧
          asize ≤ b.size ∧ (∀ c, c.alloc = 1 → (c ∈ pre ++ b :: post ↔ c ∈ bs)))) := by
    intro rc
    have hw' : WF { h with repeat_counter := rc } bs L := WF_of_eq h _ bs L hw rfl rfl rfl rfl rfl
    rcases find_fit_scan_spec _ bs L asize hw' with ⟨-, e⟩ | ⟨x, hx, e⟩
    · exact ⟨_, _, e, rfl, rfl, le_refl _, Or.inl ⟨rfl, hw', rfl⟩⟩
    · obtain ⟨pre, b, post, rfl, hbx, hb0, hbs⟩ := firstFit_some _ _ L asize x hw' hx
      refine ⟨_, _, e, rfl, rfl, le_refl _, Or.inr ⟨pre, b, post, L, ?_, hbx, hb0, hbs,
        fun _ _ => Iff.rfl⟩⟩
      exact WF_of_eq h _ _ L hw rfl rfl rfl rfl rfl
  unfold find_fit
  by_cases hl : h.last_malloced_size = asize % W32
  · rw [if_pos hl]
    by_cases hr : h.repeat_counter > 30
    · rw [if_pos hr]
      have hws := bypass_words asize h8 h16 hlt
      show ∃ h1 bp, some (extend_heap h (ofInt32 (Int.tdiv (toInt32 (MAX asize (4 * WSIZE))) 4)))
        = some (h1, bp) ∧ _
      generalize ofInt32 (Int.tdiv (toInt32 (MAX asize (4 * WSIZE))) 4) = w at hws ⊢
      by_cases hs : h.brk + extend_size w ≤ h.limit
      · obtain ⟨pre1, r, post1, L1, hw1, hr1, hr0, hsz, hb, hlim, hhp, -, -, hal⟩ :=
          extend_heap_spec h bs L w hw hs
        rw [hws] at hsz hb
        exact ⟨(extend_heap h w).1, (extend_heap h w).2, rfl, hlim, hhp, by rw [hb]; omega,
          Or.inr ⟨pre1, r, post1, r.bp :: L1, hw1, hr1.symm, hr0, hsz, hal⟩⟩
      · rw [extend_heap_fail h _ hs]
        exact ⟨h, NULL, rfl, rfl, rfl, le_refl _, Or.inl ⟨rfl, hw, rfl⟩⟩
    · rw [if_neg hr]
      exact scan _
  · rw [if_neg hl]
    exact scan _

/-! ## `mm_malloc` -/

theorem adjust_props (s : Nat) (hs : 0 < s) (hov : s + 15 < W32) :
    adjust s = max 16 (8 * ((s + 8 + 7) / 8)) ∧ adjust s % 8 = 0 ∧ 16 ≤ adjust s ∧
    s + 8 ≤ adjust s ∧ adjust s < W32 := by
  unfold W32 at hov
  unfold adjust DSIZE W32
  have e1 : (s + 8 + (8 - 1)) % 4294967296 = s + 15 := by
    rw [Nat.mod_eq_of_lt (by omega)]
  have e2 : (8 * ((s + 15) / 8)) % 4294967296 = 8 * ((s + 15) / 8) := by
    apply Nat.mod_eq_of_lt; omega
  by_cases h8 : s ≤ 8
  · rw [if_pos h8]
    exact ⟨by omega, by omega, by omega, by omega, by omega⟩
  · rw [if_neg h8, e1, e2]
    exact ⟨by omega, by omega, by omega, by omega, by omega⟩

theorem chunk_words (asize : Nat) (h8 : asize % 8 = 0) (hlt : asize < W32) :
    extend_size (MAX asize CHUNKSIZE / WSIZE) = MAX asize CHUNKSIZE ∧
    asize ≤ MAX asize CHUNKSIZE := by
  unfold MAX CHUNKSIZE WSIZE
  unfold W32 at hlt
  by_cases h : asize > 4096
  · rw [if_pos h]
    exact ⟨(extend_size_even _ (by omega) (by unfold W32; omega) (by omega)).trans (by omega),
      le_refl _⟩
  · rw [if_neg h]
    exact ⟨(extend_size_even _ (by omega) (by unfold W32; omega) (by omega)).trans (by omega),
      by omega⟩

theorem mm_malloc_zero (h : Heap) : mm_malloc h 0 = some (h, NULL) := by
  unfold mm_malloc
  rw [if_pos rfl]

/-- What `mm_malloc` computes once `find_fit` has returned. -/
theorem mm_malloc_eq (h h1 : Heap) (size bp : Nat) (hs : size ≠ 0)
    (hff : find_fit h (adjust size) = some (h1, bp)) :
    mm_malloc h size =
      if bp ≠ NULL then some (place h1 bp (adjust size), bp)
      else if (extend_heap h1 (MAX (adjust size) CHUNKSIZE / WSIZE)).2 = NULL then
        some ((extend_heap h1 (MAX (adjust size) CHUNKSIZE / WSIZE)).1, NULL)
      else some (place (extend_heap h1 (MAX (adjust size) CHUNKSIZE / WSIZE)).1
        (extend_heap h1 (MAX (adjust size) CHUNKSIZE / WSIZE)).2 (adjust size),
        (extend_heap h1 (MAX (adjust size) CHUNKSIZE / WSIZE)).2) := by
  unfold mm_malloc
  rw [if_neg hs]
  simp only [hff]

/-- `mm_malloc` on a well-formed heap, for a request whose size computation does not overflow:
it returns, the heap is well formed again, and either the result is `NULL` and the allocated
blocks are the same, or the result is the payload address of a new allocated block of at least
the adjusted size and the other allocated blocks are the same. -/
theorem mm_malloc_spec (h : Heap) (bs : List Blk) (L : List Nat) (size : Nat)
    (hw : WF h bs L) (hs : 0 < size) (hov : size + 15 < W32) :
    ∃ h1 p bs1 L1, mm_malloc h size = some (h1, p) ∧ WF h1 bs1 L1 ∧ h1.limit = h.limit ∧
      h1.heap_listp = h.heap_listp ∧ h.brk ≤ h1.brk ∧
      ((p = NULL ∧ ∀ c, c.alloc = 1 → (c ∈ bs1 ↔ c ∈ bs)) ∨
       (∃ nb, nb.bp = p ∧ nb.alloc = 1 ∧ adjust size ≤ nb.size ∧
          (∀ c, c.alloc = 1 → (c ∈ bs1 ↔ (c ∈ bs ∨ c = nb))) ∧
          (∀ c ∈ bs, c.alloc = 1 → c.bp ≠ p))) := by
  obtain ⟨-, a8, a16, a3, alt⟩ := adjust_props size hs hov
  obtain ⟨h1, bp, hff, hl1, hp1, hb1, hcase⟩ := find_fit_spec h bs L (adjust size) hw a8 a16 alt
  rw [mm_malloc_eq h h1 size bp (by omega) hff]
  -- placing in a free block `b` of a well-formed heap `h2` whose allocated blocks are those of `bs`
  have fin : ∀ (h2 : Heap) (pre post : List Blk) (b : Blk) (L2 : List Nat),
      WF h2 (pre ++ b :: post) L2 → b.alloc = 0 → adjust size ≤ b.size →
      (∀ c, c.alloc = 1 → (c ∈ pre ++ b :: post ↔ c ∈ bs)) →
      h2.limit = h.limit → h2.heap_listp = h.heap_listp → h.brk ≤ h2.brk →
      ∃ bs1 L1, WF (place h2 b.bp (adjust size)) bs1 L1 ∧
        (place h2 b.bp (adjust size)).limit = h.limit ∧
        (place h2 b.bp (adjust size)).heap_listp = h.heap_listp ∧
        h.brk ≤ (place h2 b.bp (adjust size)).brk ∧
        ((b.bp = NULL ∧ ∀ c, c.alloc = 1 → (c ∈ bs1 ↔ c ∈ bs)) ∨
         (∃ nb, nb.bp = b.bp ∧ nb.alloc = 1 ∧ adjust size ≤ nb.size ∧
          (∀ c, c.alloc = 1 → (c ∈ bs1 ↔ (c ∈ bs ∨ c = nb))) ∧
          (∀ c ∈ bs, c.alloc = 1 → c.bp ≠ b.bp))) := by
    intro h2 pre post b L2 hw2 hb0 hsz hal e1 e2 e3
    obtain ⟨bs1, L1, nb, hw3, hsf, n1, n2, n3, -, n5⟩ :=
      place_spec h2 pre post b L2 (adjust size) hw2 hb0 a8 a16 hsz
    refine ⟨bs1, L1, hw3, by rw [hsf.2.1, e1], by rw [hsf.2.2.1, e2], by rw [hsf.1]; exact e3,
      Or.inr ⟨nb, n1, n2, n3, ?_, ?_⟩⟩
    · intro c hc1
      rw [n5 c hc1, ← hal c hc1]
      simp only [List.mem_append, List.mem_cons]
      constructor
      · rintro ((h3 | h3) | h3)
        · exact Or.inl (Or.inl h3)
        · exact Or.inl (Or.inr (Or.inr h3))
        · exact Or.inr h3
      · rintro ((h3 | h3 | h3) | h3)
        · exact Or.inl (Or.inl h3)
        · rw [h3, hb0] at hc1; exact absurd hc1 (by decide)
        · exact Or.inl (Or.inr h3)
        · exact Or.inr h3
    · intro c hc hc1 hcb
      have hc' := (hal c hc1).mpr hc
      have := Tiles_bp_inj _ _ _ _ hw2.arena.tiles c b hc' (by simp) hcb
      rw [this, hb0] at hc1
      exact absurd hc1 (by decide)
  rcases hcase with ⟨hnull, hw1, hbrk⟩ | ⟨pre, b, post, L1, hw1, hbp, hb0, hsz, hal⟩
  · -- no fit: extend the arena
    rw [if_neg (by rw [hnull]; simp)]
    obtain ⟨cw1, cw2⟩ := chunk_words (adjust size) a8 alt
    by_cases hgr : h1.brk + extend_size (MAX (adjust size) CHUNKSIZE / WSIZE) ≤ h1.limit
    · obtain ⟨pre1, r, post1, L1, hw2, hr, hr0, hsz, hb, hlim, hhp, -, -, hal⟩ :=
        extend_heap_spec h1 bs L _ hw1 hgr
      have hrpos : r.bp ≠ NULL := by
        have := (Arena_split _ pre1 post1 r hw2.arena).2.2.2.1
        unfold NULL; omega
      rw [hr, if_neg hrpos]
      obtain ⟨bs1, L2, k1, k2, k3, k4, k5⟩ := fin _ pre1 post1 r _ hw2 hr0 (by omega) hal
        (by rw [hlim, hl1]) (by rw [hhp, hp1]) (by rw [hb]; omega)
      exact ⟨_, _, bs1, L2, rfl, k1, k2, k3, k4, k5⟩
    · rw [extend_heap_fail h1 _ hgr, if_pos rfl]
      exact ⟨h1, NULL, bs, L, rfl, hw1, hl1, hp1, hb1, Or.inl ⟨rfl, fun _ _ => Iff.rfl⟩⟩
  · have hbpos : bp ≠ NULL := by
      have := (Arena_split _ pre post b hw1.arena).2.2.2.1
      unfold NULL; omega
    rw [if_pos hbpos, ← hbp]
    obtain ⟨bs1, L2, k1, k2, k3, k4, k5⟩ := fin h1 pre post b L1 hw1 hb0 hsz hal hl1 hp1 hb1
    exact ⟨_, _, bs1, L2, rfl, k1, k2, k3, k4, k5⟩

/-! ## `mm_init` -/

theorem PUT_PUT_same (m : Mem) (p v w : Nat) : PUT (PUT m p v) p w = PUT m p w := by
  funext a
  unfold PUT
  split_ifs <;> rfl

theorem mm_init_eq (h : Heap) (hpos : 0 < h.brk) (hgr : h.brk + 48 ≤ h.limit)
    (hl : h.limit < W32) :
    mm_init h = ((coalesce (init_block h) (h.brk + 32)).1,
      if (coalesce (init_block h) (h.brk + 32)).2 = NULL then -1 else 0) := by
  have e0 : mem_sbrk h (8 * WSIZE) = ({ h with brk := h.brk + 32 }, h.brk) := by
    unfold mem_sbrk WSIZE
    rw [if_pos (by omega)]
  have e1 : ¬ (h.brk = NULL) := by unfold NULL; omega
  have e2 := extend_heap_eq (init_heap h) 4 (by
    show h.brk + 32 + extend_size 4 ≤ h.limit
    have : extend_size 4 = 16 := by decide
    omega) hl
  have e3 : extend_size 4 = 16 := by decide
  rw [e3] at e2
  unfold mm_init
  simp only [e0, e1, if_false]
  show (if (extend_heap (init_heap h) 4).2 = NULL then ((extend_heap (init_heap h) 4).1, -1)
    else ((extend_heap (init_heap h) 4).1, 0)) = _
  rw [e2]
  have e7 : ({ init_heap h with
      brk := (init_heap h).brk + 16,
      mem := PUT (PUT (PUT (init_heap h).mem ((init_heap h).brk - 4) 16)
        ((init_heap h).brk + 16 - 8) 16) ((init_heap h).brk + 16 - 4) 1 } : Heap)
      = init_block h := by
    unfold init_block
    have a1 : (init_heap h).brk = h.brk + 32 := rfl
    rw [a1]
    have a2 : h.brk + 32 - 4 = h.brk + 28 := by omega
    have a3 : h.brk + 32 + 16 - 8 = h.brk + 40 := by omega
    have a4 : h.brk + 32 + 16 - 4 = h.brk + 44 := by omega
    rw [a2, a3, a4]
  have e8 : (init_heap h).brk = h.brk + 32 := rfl
  rw [e7, e8]
  split_ifs <;> rfl

theorem init_block_pre (h : Heap) (hpos : 0 < h.brk) (hgr : h.brk + 48 ≤ h.limit)
    (hl : h.limit < W32) (hpad : GET h.mem (h.brk + 24) = 0) :
    CoalPre (init_block h) [] ⟨h.brk + 32, 16, 0⟩ [] [] := by
  have g4 : GET (init_block h).mem (h.brk + 4) = 9 := by
    show GET (PUT (PUT (PUT (PUT (PUT (PUT (PUT h.mem h.brk 0) (h.brk + 4) 9) (h.brk + 8) 9)
      (h.brk + 12) 1) (h.brk + 28) 16) (h.brk + 40) 16) (h.brk + 44) 1) (h.brk + 4) = 9
    repeat rw [GET_PUT_disj _ _ _ _ (by omega)]
    rw [GET_PUT_same_lt _ _ _ (by decide)]
  have g24 : GET (init_block h).mem (h.brk + 24) = 0 := by
    show GET (PUT (PUT (PUT (PUT (PUT (PUT (PUT h.mem h.brk 0) (h.brk + 4) 9) (h.brk + 8) 9)
      (h.brk + 12) 1) (h.brk + 28) 16) (h.brk + 40) 16) (h.brk + 44) 1) (h.brk + 24) = 0
    repeat rw [GET_PUT_disj _ _ _ _ (by omega)]
    exact hpad
  have g28 : GET (init_block h).mem (h.brk + 28) = 16 := by
    show GET (PUT (PUT (PUT (PUT (PUT (PUT (PUT h.mem h.brk 0) (h.brk + 4) 9) (h.brk + 8) 9)
      (h.brk + 12) 1) (h.brk + 28) 16) (h.brk + 40) 16) (h.brk + 44) 1) (h.brk + 28) = 16
    repeat rw [GET_PUT_disj _ _ _ _ (by omega)]
    rw [GET_PUT_same_lt _ _ _ (by decide)]
  have g40 : GET (init_block h).mem (h.brk + 40) = 16 := by
    show GET (PUT (PUT (PUT (PUT (PUT (PUT (PUT h.mem h.brk 0) (h.brk + 4) 9) (h.brk + 8) 9)
      (h.brk + 12) 1) (h.brk + 28) 16) (h.brk + 40) 16) (h.brk + 44) 1) (h.brk + 40) = 16
    repeat rw [GET_PUT_disj _ _ _ _ (by omega)]
    rw [GET_PUT_same_lt _ _ _ (by decide)]
  have g44 : GET (init_block h).mem (h.brk + 44) = 1 := by
    show GET (PUT (PUT (PUT (PUT (PUT (PUT (PUT h.mem h.brk 0) (h.brk + 4) 9) (h.brk + 8) 9)
      (h.brk + 12) 1) (h.brk + 28) 16) (h.brk + 40) 16) (h.brk + 44) 1) (h.brk + 44) = 1
    rw [GET_PUT_same_lt _ _ _ (by decide)]
  refine ⟨⟨hpos, hgr, hl, ?_, g4, g24, ?_, ?_⟩, ⟨rfl, List.nodup_nil⟩, rfl, ?_, ?_, ?_⟩
  · show h.brk + 32 ≤ h.brk + 48
    omega
  · show Tiles (init_block h).mem (h.brk + 32) [⟨h.brk + 32, 16, 0⟩] (h.brk + 48)
    refine ⟨rfl, ⟨(by rfl : 16 % 8 = 0), le_refl _, (by omega : 0 ≤ 1), ?_, ?_⟩, rfl⟩
    · show GET (init_block h).mem (h.brk + 32 - 4) = 16 + 0
      rw [show h.brk + 32 - 4 = h.brk + 28 by omega, g28]
    · show GET (init_block h).mem (h.brk + 32 + 16 - 8) = 16 + 0
      rw [show h.brk + 32 + 16 - 8 = h.brk + 40 by omega, g40]
  · show GET (init_block h).mem (h.brk + 48 - 4) = 1
    rw [show h.brk + 48 - 4 = h.brk + 44 by omega, g44]
  · intro x hx
    simp at hx
  · simp
  · intro c hc h0 hne
    simp at hc
    rw [hc] at hne
    exact absurd rfl hne

/-- After `mm_init` on a provider that grants its two requests, with the never-written word
`base + 24` reading zero: the result is `0`, the arena is the 48 bytes from the old break, and
the heap is well formed with one free block of 16 bytes at `base + 32`. -/
theorem mm_init_spec (h : Heap) (hpos : 0 < h.brk) (hgr : h.brk + 48 ≤ h.limit)
    (hl : h.limit < W32) (hpad : GET h.mem (h.brk + 24) = 0) :
    mm_init h = (insert_in_free_list (init_block h) (h.brk + 32), 0) ∧
    WF (mm_init h).1 [⟨h.brk + 32, 16, 0⟩] [h.brk + 32] ∧
    (mm_init h).1.heap_listp = h.brk ∧ (mm_init h).1.brk = h.brk + 48 ∧
    (mm_init h).1.limit = h.limit := by
  have hc := init_block_pre h hpos hgr hl hpad
  obtain ⟨ce, cw⟩ := coalesce_none (init_block h) [] [] ⟨h.brk + 32, 16, 0⟩ [] hc rfl rfl
  have e := mm_init_eq h hpos hgr hl
  have ce1 : coalesce (init_block h) (h.brk + 32) =
    (insert_in_free_list (init_block h) (h.brk + 32), h.brk + 32) := ce
  rw [ce1] at e
  have hne : ¬ (h.brk + 32 = NULL) := by unfold NULL; omega
  simp only [hne, if_false] at e
  rw [e]
  exact ⟨rfl, cw, rfl, rfl, rfl⟩

/-! ## Call sequences -/

theorem WF_aligned (h : Heap) (bs : List Blk) (L : List Nat) (hw : WF h bs L) (c : Blk)
    (hc : c ∈ bs) : c.bp % 8 = h.heap_listp % 8 ∧ c.bp ≠ NULL := by
  have := Tiles_mem _ _ _ _ hw.arena.tiles c hc
  have hp := hw.arena.base_pos
  unfold NULL
  omega

theorem malloc_inv (base : Nat) (s : Sys) (size : Nat) (hi : Inv base s)
    (hv : validSize size) :
    ∃ h1 p, mm_malloc s.heap size = some (h1, p) ∧
      Inv base { heap := h1, live := if p = NULL then s.live else (p, size) :: s.live,
                 rets := p :: s.rets } := by
  obtain ⟨bs, L, hw, hb, hlive, hrets⟩ := hi
  by_cases h0 : size = 0
  · subst h0
    refine ⟨s.heap, NULL, mm_malloc_zero _, bs, L, hw, hb, ?_, ?_⟩
    · intro p hp
      rw [if_pos rfl] at hp
      exact hlive p hp
    · intro p hp hne
      rcases List.mem_cons.mp hp with h1 | h1
      · exact absurd h1 hne
      · exact hrets p h1 hne
  · obtain ⟨h1, p, bs1, L1, he, hw1, -, hp1, -, hcase⟩ :=
      mm_malloc_spec s.heap bs L size hw (by omega) hv
    refine ⟨h1, p, he, bs1, L1, hw1, hp1.trans hb, ?_, ?_⟩
    · rcases hcase with ⟨hnull, hal⟩ | ⟨nb, n1, n2, -, hal, -⟩
      · intro q hq
        rw [if_pos hnull] at hq
        obtain ⟨c, hc, hcq, hc1⟩ := hlive q hq
        exact ⟨c, (hal c hc1).mpr hc, hcq, hc1⟩
      · have hnb : nb ∈ bs1 := (hal nb n2).mpr (Or.inr rfl)
        have hpn : p ≠ NULL := by rw [← n1]; exact (WF_aligned _ _ _ hw1 nb hnb).2
        intro q hq
        rw [if_neg hpn] at hq
        rcases List.mem_cons.mp hq with h2 | h2
        · exact ⟨nb, hnb, by rw [n1]; exact h2.symm, n2⟩
        · obtain ⟨c, hc, hcq, hc1⟩ := hlive q h2
          exact ⟨c, (hal c hc1).mpr (Or.inl hc), hcq, hc1⟩
    · intro q hq hne
      rcases List.mem_cons.mp hq with h2 | h2
      · rcases hcase with ⟨hnull, -⟩ | ⟨nb, n1, n2, -, hal, -⟩
        · rw [h2] at hne; exact absurd hnull hne
        · have hnb : nb ∈ bs1 := (hal nb n2).mpr (Or.inr rfl)
          have := (WF_aligned _ _ _ hw1 nb hnb).1
          rw [h2, ← n1, this, hp1, hb]
      · exact hrets q h2 hne

theorem mm_free_null (h : Heap) : mm_free h NULL = h := by
  unfold mm_free
  rw [if_pos rfl]

theorem mem_dropLive (live : List (Nat × Nat)) (p q : Nat)
    (hq : q ∈ (dropLive live p).map Prod.fst) : q ∈ live.map Prod.fst ∧ q ≠ p := by
  unfold dropLive at hq
  obtain ⟨e, he, rfl⟩ := List.mem_map.mp hq
  rw [List.mem_filter] at he
  exact ⟨List.mem_map.mpr ⟨e, he.1, rfl⟩, by simpa using he.2⟩

theorem free_inv (base : Nat) (s : Sys) (p : Nat) (hi : Inv base s) (hp : isLive s p) :
    Inv base { s with heap := mm_free s.heap p, live := dropLive s.live p } := by
  obtain ⟨bs, L, hw, hb, hlive, hrets⟩ := hi
  obtain ⟨c, hc, hcp, hc1⟩ := hlive p hp
  obtain ⟨pre, post, rfl⟩ := List.append_of_mem hc
  obtain ⟨pre1, r, post1, L1, hw1, -, hsf, hal⟩ := mm_free_spec s.heap pre post c L hw hc1
  rw [hcp] at hw1 hsf
  refine ⟨_, _, hw1, hsf.2.2.1.trans hb, ?_, hrets⟩
  intro q hq
  obtain ⟨hq1, hq2⟩ := mem_dropLive _ _ _ hq
  obtain ⟨d, hd, hdq, hd1⟩ := hlive q hq1
  have := mem_split_cases pre post c d hd (by rw [hdq, hcp]; exact hq2)
  exact ⟨d, (hal d hd1).mpr this, hdq, hd1⟩

theorem step_inv (base : Nat) (s : Sys) (op : Op) (hi : Inv base s)
    (hop : op.noRealloc = true) (hf : op.fits) :
    step s op ≠ .diverged ∧ ∀ s1, step s op = .ok s1 → Inv base s1 := by
  cases op with
  | malloc size =>
    simp only [step]
    have hv : validSize size := hf
    have hlt : size < W32 := by unfold validSize at hv; omega
    obtain ⟨h1, p, he, hi1⟩ := malloc_inv base s size hi hv
    rw [if_pos hlt]
    simp only [he]
    refine ⟨by simp, ?_⟩
    intro s1 hs1
    simp only [Outcome.ok.injEq] at hs1
    rw [← hs1]
    exact hi1
  | free p =>
    simp only [step]
    by_cases hn : p = NULL
    · rw [if_pos hn]
      refine ⟨by simp, ?_⟩
      intro s1 hs1
      simp only [Outcome.ok.injEq] at hs1
      rw [← hs1, hn, mm_free_null]
      exact hi
    · rw [if_neg hn]
      by_cases hl : isLive s p
      · rw [if_pos hl]
        refine ⟨by simp, ?_⟩
        intro s1 hs1
        simp only [Outcome.ok.injEq] at hs1
        rw [← hs1]
        exact free_inv base s p hi hl
      · rw [if_neg hl]
        exact ⟨by simp, by simp⟩
  | realloc p size => simp [Op.noRealloc] at hop

theorem run_inv (base : Nat) (ops : List Op) :
    ∀ s : Sys, Inv base s → (∀ op ∈ ops, op.noRealloc = true) → (∀ op ∈ ops, op.fits) →
      run s ops ≠ .diverged ∧ ∀ s1, run s ops = .ok s1 → Inv base s1 := by
  induction ops with
  | nil =>
    intro s hi _ _
    unfold run
    refine ⟨by simp, ?_⟩
    intro s1 hs1
    simp only [Outcome.ok.injEq] at hs1
    rw [← hs1]
    exact hi
  | cons op ops ih =>
    intro s hi hops hfit
    obtain ⟨hd, hok⟩ := step_inv base s op hi (hops op (by simp)) (hfit op (by simp))
    unfold run
    cases hst : step s op with
    | ok s1 =>
      simp only
      exact ih s1 (hok s1 hst) (fun o ho => hops o (by simp [ho]))
        (fun o ho => hfit o (by simp [ho]))
    | invalid => exact ⟨by simp, by simp⟩
    | diverged => exact absurd hst hd

theorem init_inv (h : Heap) (hpos : 0 < h.brk) (hgr : h.brk + 48 ≤ h.limit)
    (hl : h.limit < W32) (hpad : GET h.mem (h.brk + 24) = 0) : Inv h.brk (initSys h) := by
  obtain ⟨-, hw, hb, -, -⟩ := mm_init_spec h hpos hgr hl hpad
  exact ⟨_, _, hw, hb, by simp [initSys], by simp [initSys]⟩

/-! ## `mm_realloc` -/

theorem toInt32_pos (s : Nat) (h0 : 0 < s) (hlt : s < 2147483648) :
    ¬ toInt32 s < 0 ∧ ¬ toInt32 s = 0 := by
  unfold toInt32 W32
  rw [Nat.mod_eq_of_lt (by omega), if_pos hlt]
  constructor <;> omega

theorem mm_realloc_eq_keep (h : Heap) (bp s : Nat) (h0 : 0 < s) (hlt : s < 2147483648)
    (hle : s + 8 ≤ GET_SIZE h.mem (HDRP bp)) : mm_realloc h bp s = some (h, bp) := by
  obtain ⟨t1, t2⟩ := toInt32_pos s h0 hlt
  have e : (s + 2 * WSIZE) % W32 = s + 8 := by
    unfold WSIZE W32; rw [Nat.mod_eq_of_lt (by omega)]
  unfold mm_realloc
  rw [if_neg t1, if_neg t2, if_pos (by omega : s > 0)]
  simp only [e]
  rw [if_pos hle]

theorem mm_realloc_eq_absorb (h : Heap) (bp s : Nat) (h0 : 0 < s) (hlt : s < 2147483648)
    (hgt : GET_SIZE h.mem (HDRP bp) < s + 8)
    (hn : GET_ALLOC h.mem (HDRP (NEXT_BLK h.mem bp)) = 0)
    (hc : s + 8 ≤ (GET_SIZE h.mem (HDRP bp) + GET_SIZE h.mem (HDRP (NEXT_BLK h.mem bp))) % W32) :
    mm_realloc h bp s =
      some ({ remove_from_free_list h (NEXT_BLK h.mem bp) with
        mem := PUT (PUT (remove_from_free_list h (NEXT_BLK h.mem bp)).mem (HDRP bp)
            (PACK ((GET_SIZE h.mem (HDRP bp) +
              GET_SIZE h.mem (HDRP (NEXT_BLK h.mem bp))) % W32) 1))
          (FTRP (PUT (remove_from_free_list h (NEXT_BLK h.mem bp)).mem (HDRP bp)
            (PACK ((GET_SIZE h.mem (HDRP bp) +
              GET_SIZE h.mem (HDRP (NEXT_BLK h.mem bp))) % W32) 1)) bp)
          (PACK ((GET_SIZE h.mem (HDRP bp) +
              GET_SIZE h.mem (HDRP (NEXT_BLK h.mem bp))) % W32) 1) }, bp) := by
  obtain ⟨t1, t2⟩ := toInt32_pos s h0 hlt
  have e : (s + 2 * WSIZE) % W32 = s + 8 := by
    unfold WSIZE W32; rw [Nat.mod_eq_of_lt (by omega)]
  unfold mm_realloc
  rw [if_neg t1, if_neg t2, if_pos (by omega : s > 0)]
  simp only [e]
  rw [if_neg (by omega), if_pos ⟨hn, hc⟩]

/-- The block already covers the request: nothing changes. -/
theorem realloc_keep (h : Heap) (pre post : List Blk) (b : Blk) (L : List Nat) (s : Nat)
    (hw : WF h (pre ++ b :: post) L) (h0 : 0 < s) (hlt : s < 2147483648)
    (hle : s + 8 ≤ b.size) : mm_realloc h b.bp s = some (h, b.bp) := by
  obtain ⟨-, s2, -, -, -, -⟩ := Arena_split h pre post b hw.arena
  exact mm_realloc_eq_keep h b.bp s h0 hlt (by rw [(read_hdr _ _ s2).1]; exact hle)

/-- The free next block is absorbed in place. -/
theorem realloc_absorb (h : Heap) (pre post : List Blk) (b n : Blk) (L : List Nat) (s : Nat)
    (hw : WF h (pre ++ b :: n :: post) L) (hb : b.alloc = 1) (hn : n.alloc = 0)
    (h0 : 0 < s) (hlt : s < 2147483648) (hgt : b.size < s + 8)
    (hc : s + 8 ≤ b.size + n.size) :
    mm_realloc h b.bp s =
      some ({ remove_from_free_list h n.bp with
        mem := PUT (PUT (remove_from_free_list h n.bp).mem (b.bp - 4) (b.size + n.size + 1))
          (b.bp + (b.size + n.size) - 8) (b.size + n.size + 1) }, b.bp) ∧
    WF { remove_from_free_list h n.bp with
        mem := PUT (PUT (remove_from_free_list h n.bp).mem (b.bp - 4) (b.size + n.size + 1))
          (b.bp + (b.size + n.size) - 8) (b.size + n.size + 1) }
      (pre ++ ⟨b.bp, b.size + n.size, 1⟩ :: post) (L.erase n.bp) ∧
    n.bp ∈ L ∧
    (∀ a, b.bp ≤ a → a < b.bp + b.size - 4 →
      PUT (PUT (remove_from_free_list h n.bp).mem (b.bp - 4) (b.size + n.size + 1))
          (b.bp + (b.size + n.size) - 8) (b.size + n.size + 1) a = h.mem a) := by
  have hN := next_alloc_val h pre (n :: post) b hw.arena
  rw [show nextAlloc (n :: post) = 0 from hn] at hN
  obtain ⟨s1, s2, ⟨n1, n2, n3⟩, s4, s5, s6⟩ := Arena_split h pre (n :: post) b hw.arena
  have hle := Tiles_le _ _ _ _ n3
  obtain ⟨rb1, -, -, -, rb5⟩ := read_hdr _ _ s2
  have rn1 := (read_hdr _ _ n2).1
  have hb8 := s2.1
  have hn8 := n2.1
  have hb16 := s2.2.1
  have hn16 := n2.2.1
  have hnext : NEXT_BLK h.mem b.bp = n.bp := by rw [rb5, n1]
  have hsz : (b.size + n.size) % W32 = b.size + n.size := Nat.mod_eq_of_lt (by omega)
  have hnL : n.bp ∈ L := hw.free_list n (by simp) hn
  have hLb : ∀ x ∈ L, ∃ c ∈ pre ++ b :: n :: post, c.bp = x := fun x hx => by
    obtain ⟨c, hc1, hc2, _⟩ := hw.list_free x hx
    exact ⟨c, hc1, hc2⟩
  obtain ⟨k1, k2, k3⟩ := WF_split_alloc h pre (n :: post) b L hw hb
  obtain ⟨ra, rl, rf, rfr⟩ := remove_step h _ L n.bp hw.arena hw.listed hLb hnL
  obtain ⟨t1, -, ⟨-, -, t4⟩, -, -, -⟩ := Arena_split _ pre (n :: post) b ra
  have hbs : pre ++ b :: n :: post = pre ++ [b, n] ++ post := by simp
  have hmem : ∀ x ∈ L.erase n.bp, ∃ c, (c ∈ pre ∨ c ∈ post) ∧ c.bp = x ∧ c.alloc = 0 := by
    apply merge_members pre [b, n] post L _ (by rw [← hbs]; exact hw.list_free)
    intro x hx
    have hx' := (List.Nodup.mem_erase_iff hw.listed.nodup).mp hx
    refine ⟨hx'.2, ?_⟩
    intro d hd
    simp only [List.mem_cons, List.mem_singleton, List.not_mem_nil, or_false] at hd
    rcases hd with rfl | rfl
    · exact fun e => k1 (e ▸ hx'.2)
    · exact fun e => hx'.1 e.symm
  have hpost : Tiles h.mem (b.bp + (b.size + n.size)) post h.brk := by
    rw [← Nat.add_assoc]; exact n3
  have hsep : ∀ x ∈ L.erase n.bp,
      (x + 8 ≤ b.bp - 4 ∨ b.bp + (b.size + n.size) ≤ x) ∧ x ≠ b.bp := by
    intro x hx
    obtain ⟨c, hc1, rfl, _⟩ := hmem x hx
    exact mem_pre_post_sep _ pre post _ b.bp (b.size + n.size) _ s1 hpost (by omega) (by omega)
      c hc1
  have e : mm_realloc h b.bp s =
      some ({ remove_from_free_list h n.bp with
        mem := PUT (PUT (remove_from_free_list h n.bp).mem (b.bp - 4) (b.size + n.size + 1))
          (b.bp + (b.size + n.size) - 8) (b.size + n.size + 1) }, b.bp) := by
    rw [mm_realloc_eq_absorb h b.bp s h0 hlt (by rw [rb1]; exact hgt) hN
      (by rw [hnext, rb1, rn1, hsz]; exact hc), hnext, rb1, rn1, hsz,
      set_tags _ b.bp (b.size + n.size) 1 (by omega) (by decide) (by omega)]
  refine ⟨e, ⟨?_, ?_, ?_, ?_⟩, hnL, ?_⟩
  · exact finish_arena _ _ pre post b.bp (b.size + n.size) 1 ra t1
      (by rw [← Nat.add_assoc]; exact t4) (by omega) (by omega) (by decide)
  · exact finish_listed _ (L.erase n.bp) b.bp (b.size + n.size) (b.size + n.size + 1) rl
      (fun x hx => (hsep x hx).1) (by omega) (by omega)
  · intro x hx
    obtain ⟨c, hc1, hcx, hc0⟩ := hmem x hx
    refine ⟨c, ?_, hcx, hc0⟩
    rcases hc1 with h1 | h1
    · exact List.mem_append_left _ h1
    · exact List.mem_append_right _ (List.mem_cons_of_mem _ h1)
  · intro c hc1 hc0
    have hcin : c ∈ pre ∨ c ∈ post := by
      rcases List.mem_append.mp hc1 with h1 | h1
      · exact Or.inl h1
      · rcases List.mem_cons.mp h1 with h2 | h2
        · rw [h2] at hc0; simp at hc0
        · exact Or.inr h2
    have hcL : c.bp ∈ L := k3 c (hcin.elim Or.inl (fun h1 => Or.inr (List.mem_cons_of_mem _ h1)))
      hc0
    have hcn := (mem_pre_post_sep _ pre post _ b.bp (b.size + n.size) _ s1 hpost (by omega)
      (by omega) c hcin).1
    exact (List.Nodup.mem_erase_iff hw.listed.nodup).mpr ⟨by omega, hcL⟩
  · intro a ha1 ha2
    rw [PUT_bytes _ _ _ _ (by omega), PUT_bytes _ _ _ _ (by omega)]
    apply rfr
    rintro (hs | ⟨y, hy, hy1, hy2⟩)
    · have := hw.arena.base_pos
      omega
    · have := (hsep y hy).1
      omega

/-! ## Reading the block list and the free list back from memory -/

theorem Tiles_blocks (m : Mem) (e : Nat) (bs : List Blk) :
    ∀ (a fuel : Nat) (l : List Blk), Tiles m a bs e → blocks_from m e fuel a = some l →
      l = bs := by
  induction bs with
  | nil =>
    intro a fuel l ht hl
    have hae : a = e := ht
    cases fuel with
    | zero => simp [blocks_from] at hl
    | succ fuel =>
      simp only [blocks_from, if_pos hae, Option.some.injEq] at hl
      exact hl.symm
  | cons b bs ih =>
    intro a fuel l ht hl
    obtain ⟨hb, hok, ht1⟩ := ht
    have hle := Tiles_le _ _ _ _ ht1
    have h16 := hok.2.1
    obtain ⟨r1, r2, -, -, r5⟩ := read_hdr m b hok
    cases fuel with
    | zero => simp [blocks_from] at hl
    | succ fuel =>
      subst hb
      simp only [blocks_from, if_neg (show ¬ (b.bp = e) by omega), r1, r2, r5,
        Option.map_eq_some'] at hl
      obtain ⟨l1, hl1, rfl⟩ := hl
      rw [ih _ _ _ ht1 hl1]

theorem Chain_walk (m : Mem) (S : Nat) (L : List Nat) :
    ∀ (prev cur fuel : Nat) (l : List Nat), Chain m S prev cur L →
      (∀ x ∈ L, GET_ALLOC m (HDRP x) = 0) → GET_ALLOC m (HDRP S) ≠ 0 →
      free_list_from m fuel cur = some l → l = L := by
  induction L with
  | nil =>
    intro prev cur fuel l hc _ hS hl
    have hcs : cur = S := hc
    subst hcs
    cases fuel with
    | zero => simp [free_list_from] at hl
    | succ fuel =>
      simp only [free_list_from, if_neg hS, Option.some.injEq] at hl
      exact hl.symm
  | cons x xs ih =>
    intro prev cur fuel l hc hfree hS hl
    obtain ⟨hx, -, hc1⟩ := hc
    subst hx
    cases fuel with
    | zero => simp [free_list_from] at hl
    | succ fuel =>
      simp only [free_list_from, if_pos (hfree cur (by simp)), Option.map_eq_some'] at hl
      obtain ⟨l1, hl1, rfl⟩ := hl
      rw [ih _ _ _ _ hc1 (fun y hy => hfree y (by simp [hy])) hS hl1]

/-- On a well-formed heap the block walk and the list walk return the blocks and the list. -/
theorem WF_walk (h : Heap) (bs : List Blk) (L : List Nat) (hw : WF h bs L) :
    (∀ fuel l, blocks_from h.mem h.brk fuel (h.heap_listp + 32) = some l → l = bs) ∧
    (∀ fuel l, free_list_from h.mem fuel h.free_list_start = some l → l = L) := by
  refine ⟨fun fuel l hl => Tiles_blocks _ _ _ _ _ _ hw.arena.tiles hl, fun fuel l hl => ?_⟩
  refine Chain_walk _ _ _ _ _ _ _ hw.listed.chain ?_ ?_ hl
  · intro x hx
    obtain ⟨c, hc, hcx, hc0⟩ := hw.list_free x hx
    have hok := (Tiles_mem _ _ _ _ hw.arena.tiles c hc).2.2.1
    rw [← hcx, (read_hdr _ _ hok).2.1, hc0]
  · have hp := hw.arena.prologue
    have e : HDRP (h.heap_listp + 8) = h.heap_listp + 4 := by unfold HDRP WSIZE; omega
    rw [e]
    unfold GET_ALLOC
    rw [hp]
    decide

/-! ## Tags, first fit, adjacent frees, splitting -/

theorem BlkOK_tags (m : Mem) (b : Blk) (hb : BlkOK m b) :
    GET m (HDRP b.bp) = PACK b.size b.alloc ∧ GET m (FTRP m b.bp) = PACK b.size b.alloc := by
  have r := (read_hdr m b hb).2.2.2.1
  obtain ⟨h8, -, hal, hh, hf⟩ := hb
  rw [r, PACK_eq _ _ h8 hal]
  unfold HDRP WSIZE
  exact ⟨hh, hf⟩

theorem WF_tags (h : Heap) (bs : List Blk) (L : List Nat) (hw : WF h bs L) (b : Blk)
    (hb : b ∈ bs) :
    GET h.mem (HDRP b.bp) = PACK b.size b.alloc ∧
    GET h.mem (FTRP h.mem b.bp) = GET h.mem (HDRP b.bp) ∧
    b.size % 8 = 0 ∧ 16 ≤ b.size ∧ b.alloc ≤ 1 := by
  have hok := (Tiles_mem _ _ _ _ hw.arena.tiles b hb).2.2.1
  obtain ⟨t1, t2⟩ := BlkOK_tags _ _ hok
  exact ⟨t1, by rw [t1, t2], hok.1, hok.2.1, hok.2.2.1⟩

theorem find_fit_no_bypass (h : Heap) (asize : Nat) (hlt : asize < W32)
    (hby : ¬ (h.last_malloced_size = asize ∧ h.repeat_counter > 30)) :
    ∃ rc, find_fit h asize = find_fit_scan { h with repeat_counter := rc } asize := by
  unfold find_fit
  rw [Nat.mod_eq_of_lt hlt]
  by_cases h1 : h.last_malloced_size = asize
  · rw [if_pos h1, if_neg (fun h2 => hby ⟨h1, h2⟩)]
    exact ⟨_, rfl⟩
  · rw [if_neg h1]
    exact ⟨_, rfl⟩

/-- Without the bypass, a request that fits some list member gets the first such member and
the arena keeps its size. -/
theorem malloc_first_fit (h : Heap) (bs : List Blk) (L : List Nat) (size x : Nat)
    (hw : WF h bs L) (hs : 0 < size) (hov : size + 15 < W32)
    (hby : ¬ (h.last_malloced_size = adjust size ∧ h.repeat_counter > 30))
    (hx : firstFit h.mem (adjust size) L = some x) :
    ∃ h1, mm_malloc h size = some (h1, x) ∧ h1.brk = h.brk := by
  obtain ⟨-, a8, a16, -, alt⟩ := adjust_props size hs hov
  obtain ⟨rc, hrc⟩ := find_fit_no_bypass h _ alt hby
  have hw' : WF { h with repeat_counter := rc } bs L := WF_of_eq h _ bs L hw rfl rfl rfl rfl rfl
  have hx' : firstFit ({ h with repeat_counter := rc } : Heap).mem (adjust size) L = some x := hx
  rcases find_fit_scan_spec _ bs L (adjust size) hw' with ⟨hn, -⟩ | ⟨y, hy, e⟩
  · rw [hx'] at hn
    exact absurd hn (by simp)
  · rw [hx'] at hy
    have hyx : y = x := (Option.some.inj hy).symm
    subst hyx
    obtain ⟨pre, b, post, rfl, hbx, hb0, hbs⟩ := firstFit_some _ _ L _ y hw' hx'
    have hw1 : WF ({ ({ h with repeat_counter := rc } : Heap) with
        last_malloced_size := adjust size } : Heap) (pre ++ b :: post) L :=
      WF_of_eq _ _ _ L hw' rfl rfl rfl rfl rfl
    obtain ⟨bs1, L1, nb, -, hsf, -⟩ := place_spec _ pre post b L (adjust size) hw1 hb0 a8 a16 hbs
    have hyn : y ≠ NULL := by
      have := (Arena_split _ pre post b hw1.arena).2.2.2.1
      rw [← hbx]
      unfold NULL
      have e4 : ({ ({ h with repeat_counter := rc } : Heap) with
        last_malloced_size := adjust size } : Heap).heap_listp = h.heap_listp := rfl
      omega
    refine ⟨place ({ ({ h with repeat_counter := rc } : Heap) with
        last_malloced_size := adjust size } : Heap) y (adjust size), ?_, ?_⟩
    · rw [mm_malloc_eq h _ size y (by omega) (hrc.trans e), if_pos hyn]
    · rw [← hbx]
      exact hsf.1

/-- Without the bypass, a request that fits no list member grows the arena by
`MAX asize CHUNKSIZE` bytes when the provider grants it. -/
theorem malloc_grow (h : Heap) (bs : List Blk) (L : List Nat) (size : Nat)
    (hw : WF h bs L) (hs : 0 < size) (hov : size + 15 < W32)
    (hby : ¬ (h.last_malloced_size = adjust size ∧ h.repeat_counter > 30))
    (hnone : firstFit h.mem (adjust size) L = none)
    (hgr : h.brk + MAX (adjust size) CHUNKSIZE ≤ h.limit) :
    ∃ h1 p, mm_malloc h size = some (h1, p) ∧ p ≠ NULL ∧
      h1.brk = h.brk + MAX (adjust size) CHUNKSIZE := by
  obtain ⟨-, a8, a16, -, alt⟩ := adjust_props size hs hov
  obtain ⟨rc, hrc⟩ := find_fit_no_bypass h _ alt hby
  have hw' : WF { h with repeat_counter := rc } bs L := WF_of_eq h _ bs L hw rfl rfl rfl rfl rfl
  have hn' : firstFit ({ h with repeat_counter := rc } : Heap).mem (adjust size) L = none := hnone
  obtain ⟨cw1, cw2⟩ := chunk_words (adjust size) a8 alt
  rcases find_fit_scan_spec _ bs L (adjust size) hw' with ⟨-, e⟩ | ⟨y, hy, -⟩
  · have hgr' : ({ h with repeat_counter := rc } : Heap).brk +
        extend_size (MAX (adjust size) CHUNKSIZE / WSIZE) ≤
        ({ h with repeat_counter := rc } : Heap).limit := by
      rw [cw1]; exact hgr
    obtain ⟨pre1, r, post1, L1, hw2, hr, hr0, hsz, hb, -⟩ := extend_heap_spec _ bs L _ hw' hgr'
    have hrpos : r.bp ≠ NULL := by
      have := (Arena_split _ pre1 post1 r hw2.arena).2.2.2.1
      unfold NULL; omega
    obtain ⟨bs1, L2, nb, -, hsf, -⟩ :=
      place_spec _ pre1 post1 r _ (adjust size) hw2 hr0 a8 a16 (by omega)
    refine ⟨place (extend_heap ({ h with repeat_counter := rc } : Heap)
        (MAX (adjust size) CHUNKSIZE / WSIZE)).1 r.bp (adjust size), r.bp, ?_, ?_, ?_⟩
    · rw [mm_malloc_eq h _ size NULL (by omega) (hrc.trans e), if_neg (by simp), hr,
        if_neg hrpos]
    · exact hrpos
    · rw [hsf.1, hb, cw1]
  · rw [hn'] at hy
    exact absurd hy (by simp)

theorem prevAlloc_snoc (pre : List Blk) (x : Blk) : prevAlloc (pre ++ [x]) = x.alloc := by
  unfold prevAlloc
  rw [List.getLast?_append]
  rfl

/-- Freeing two adjacent allocated blocks between allocated neighbours, first the lower one:
one free block over both extents, at the head of the list. -/
theorem free_low_high (h : Heap) (pre post : List Blk) (x y : Blk) (L : List Nat)
    (hw : WF h (pre ++ x :: y :: post) L) (hx : x.alloc = 1) (hy : y.alloc = 1)
    (hp : prevAlloc pre = 1) (hn : nextAlloc post = 1) :
    WF (mm_free (mm_free h x.bp) y.bp) (pre ++ ⟨x.bp, x.size + y.size, 0⟩ :: post)
      (x.bp :: L) := by
  have hc1 := free_pre h pre (y :: post) x L hw hx
  obtain ⟨ce1, cw1⟩ := coalesce_none _ pre (y :: post) ⟨x.bp, x.size, 0⟩ L hc1 hp hy
  have e1 : mm_free h x.bp = insert_in_free_list { h with
      mem := PUT (PUT h.mem (x.bp - 4) x.size) (x.bp + x.size - 8) x.size } x.bp := by
    rw [mm_free_eq h pre (y :: post) x L hw]
    exact congrArg Prod.fst ce1
  rw [← e1] at cw1
  have hw2 : WF (mm_free h x.bp) ((pre ++ [⟨x.bp, x.size, 0⟩]) ++ y :: post) (x.bp :: L) := by
    rw [List.append_assoc]; exact cw1
  have hc2 := free_pre _ (pre ++ [⟨x.bp, x.size, 0⟩]) post y (x.bp :: L) hw2 hy
  obtain ⟨-, cw2, -⟩ := coalesce_prev _ pre post ⟨x.bp, x.size, 0⟩ ⟨y.bp, y.size, 0⟩ (x.bp :: L)
    hc2 rfl hn
  rw [mm_free_eq _ (pre ++ [⟨x.bp, x.size, 0⟩]) post y (x.bp :: L) hw2]
  have e3 : (x.bp :: L).erase x.bp = L := List.erase_cons_head _ _
  have cw3 : WF (coalesce { mm_free h x.bp with
      mem := PUT (PUT (mm_free h x.bp).mem (y.bp - 4) y.size) (y.bp + y.size - 8) y.size }
      y.bp).1 (pre ++ ⟨x.bp, y.size + x.size, 0⟩ :: post) (x.bp :: (x.bp :: L).erase x.bp) := cw2
  rw [e3, Nat.add_comm y.size x.size] at cw3
  exact cw3

/-- Freeing two adjacent allocated blocks between allocated neighbours, first the higher one:
one free block over both extents, at the head of the list. -/
theorem free_high_low (h : Heap) (pre post : List Blk) (x y : Blk) (L : List Nat)
    (hw : WF h (pre ++ x :: y :: post) L) (hx : x.alloc = 1) (hy : y.alloc = 1)
    (hp : prevAlloc pre = 1) (hn : nextAlloc post = 1) :
    WF (mm_free (mm_free h y.bp) x.bp) (pre ++ ⟨x.bp, x.size + y.size, 0⟩ :: post)
      (x.bp :: L) := by
  have hw' : WF h ((pre ++ [x]) ++ y :: post) L := by
    rw [List.append_assoc]; exact hw
  have hc1 := free_pre h (pre ++ [x]) post y L hw' hy
  have hpa : prevAlloc (pre ++ [x]) = 1 := by rw [prevAlloc_snoc]; exact hx
  obtain ⟨ce1, cw1⟩ := coalesce_none _ (pre ++ [x]) post ⟨y.bp, y.size, 0⟩ L hc1 hpa hn
  have e1 : mm_free h y.bp = insert_in_free_list { h with
      mem := PUT (PUT h.mem (y.bp - 4) y.size) (y.bp + y.size - 8) y.size } y.bp := by
    rw [mm_free_eq h (pre ++ [x]) post y L hw']
    exact congrArg Prod.fst ce1
  rw [← e1] at cw1
  have hw2 : WF (mm_free h y.bp) (pre ++ x :: ⟨y.bp, y.size, 0⟩ :: post) (y.bp :: L) := by
    rw [List.append_assoc] at cw1; exact cw1
  have hc2 := free_pre _ pre (⟨y.bp, y.size, 0⟩ :: post) x (y.bp :: L) hw2 hx
  obtain ⟨-, cw2, -⟩ := coalesce_next _ pre post ⟨x.bp, x.size, 0⟩ ⟨y.bp, y.size, 0⟩ (y.bp :: L)
    hc2 hp rfl
  rw [mm_free_eq _ pre (⟨y.bp, y.size, 0⟩ :: post) x (y.bp :: L) hw2]
  have e3 : (y.bp :: L).erase y.bp = L := List.erase_cons_head _ _
  have cw3 : WF (coalesce { mm_free h y.bp with
      mem := PUT (PUT (mm_free h y.bp).mem (x.bp - 4) x.size) (x.bp + x.size - 8) x.size }
      x.bp).1 (pre ++ ⟨x.bp, x.size + y.size, 0⟩ :: post) (x.bp :: (y.bp :: L).erase y.bp) := cw2
  rw [e3] at cw3
  exact cw3

/-- A split whose rest is followed by an allocated block (or the epilogue). -/
theorem place_split_none (h : Heap) (pre post : List Blk) (b : Blk) (L : List Nat) (a : Nat)
    (hw : WF h (pre ++ b :: post) L) (hb : b.alloc = 0)
    (ha8 : a % 8 = 0) (ha16 : 16 ≤ a) (hbig : a + 16 ≤ b.size) (hn : nextAlloc post = 1) :
    WF (place h b.bp a) (pre ++ ⟨b.bp, a, 1⟩ :: ⟨b.bp + a, b.size - a, 0⟩ :: post)
      ((b.bp + a) :: L.erase b.bp) := by
  obtain ⟨h4, e, hc, -⟩ := place_split h pre post b L a hw hb ha8 ha16 hbig
  obtain ⟨ce, cw⟩ := coalesce_none h4 _ post ⟨b.bp + a, b.size - a, 0⟩ _ hc
    (prevAlloc_snoc pre _) hn
  have e2 : place h b.bp a = insert_in_free_list h4 (b.bp + a) := by
    rw [e]; exact congrArg Prod.fst ce
  rw [e2]
  rw [List.append_assoc] at cw
  exact cw

/-- A split whose rest is followed by a free block: the rest absorbs it. -/
theorem place_split_next (h : Heap) (pre post : List Blk) (b n : Blk) (L : List Nat) (a : Nat)
    (hw : WF h (pre ++ b :: n :: post) L) (hb : b.alloc = 0)
    (ha8 : a % 8 = 0) (ha16 : 16 ≤ a) (hbig : a + 16 ≤ b.size) (hn : n.alloc = 0) :
    WF (place h b.bp a) (pre ++ ⟨b.bp, a, 1⟩ :: ⟨b.bp + a, b.size - a + n.size, 0⟩ :: post)
      ((b.bp + a) :: (L.erase b.bp).erase n.bp) := by
  obtain ⟨h4, e, hc, -⟩ := place_split h pre (n :: post) b L a hw hb ha8 ha16 hbig
  obtain ⟨-, cw, -⟩ := coalesce_next h4 _ post ⟨b.bp + a, b.size - a, 0⟩ n _ hc
    (prevAlloc_snoc pre _) hn
  rw [e]
  rw [List.append_assoc] at cw
  exact cw

/-! ## Checking well-formedness of a given heap -/

theorem WF_intro (h : Heap) (bs : List Blk) (L : List Nat)
    (hc : (0 < h.heap_listp ∧ h.brk ≤ h.limit ∧ h.limit < W32 ∧ h.heap_listp + 32 ≤ h.brk ∧
      GET h.mem (h.heap_listp + 4) = 9 ∧ GET h.mem (h.heap_listp + 24) = 0 ∧
      Tiles h.mem (h.heap_listp + 32) bs h.brk ∧ GET h.mem (h.brk - 4) = 1) ∧
      (Chain h.mem (h.heap_listp + 8) 0 h.free_list_start L ∧ L.Nodup) ∧
      (∀ x ∈ L, ∃ b ∈ bs, b.bp = x ∧ b.alloc = 0) ∧ (∀ b ∈ bs, b.alloc = 0 → b.bp ∈ L)) :
    WF h bs L := by
  obtain ⟨⟨a1, a2, a3, a4, a5, a6, a7, a8⟩, ⟨l1, l2⟩, m1, m2⟩ := hc
  exact ⟨⟨a1, a2, a3, a4, a5, a6, a7, a8⟩, ⟨l1, l2⟩, m1, m2⟩

theorem CoalPost_intro (h : Heap) (pre post : List Blk) (r total : Nat) (L : List Nat)
    (hw : WF h (pre ++ ⟨r, total, 0⟩ :: post) (r :: L)) :
    CoalPost h r total (pre ++ ⟨r, total, 0⟩ :: post) L := by
  obtain ⟨t1, t2, -⟩ := WF_tags h _ _ hw ⟨r, total, 0⟩ (by simp)
  exact ⟨hw, hw.listed.chain.1, t1, by rw [t2]; exact t1⟩

/-! ## The block scan from the prologue -/

theorem heap_scan_stuck (m : Mem) (bp : Nat) (h0 : GET m (HDRP bp) = 0) :
    ∀ fuel, heap_scan m fuel bp = none := by
  have hs : GET_SIZE m (HDRP bp) = 0 := by unfold GET_SIZE; rw [h0]; rfl
  have ha : GET_ALLOC m (HDRP bp) = 0 := by unfold GET_ALLOC; rw [h0]; rfl
  have hn : NEXT_BLK m bp = bp := by
    have e : HDRP bp = bp - WSIZE := rfl
    unfold NEXT_BLK
    rw [← e, hs]
    rfl
  intro fuel
  induction fuel with
  | zero => rfl
  | succ n ih =>
    have hc : ¬ (GET_SIZE m (HDRP bp) = 0 ∧ GET_ALLOC m (HDRP bp) = 1) := by
      rw [ha]; simp
    simp only [heap_scan, if_neg hc, hn, ih, Option.map_none']

theorem heap_scan_step (m : Mem) (bp fuel : Nat)
    (hc : ¬ (GET_SIZE m (HDRP bp) = 0 ∧ GET_ALLOC m (HDRP bp) = 1))
    (hn : heap_scan m fuel (NEXT_BLK m bp) = none) : heap_scan m (fuel + 1) bp = none := by
  simp only [heap_scan, if_neg hc, hn, Option.map_none']

/-! ## `mm_malloc` returning `NULL` -/

/-- On a well-formed heap `find_fit` returns; when it returns `NULL` the heap is as before but
for the repeat counter. -/
theorem find_fit_null (h : Heap) (bs : List Blk) (L : List Nat) (asize : Nat)
    (hw : WF h bs L) :
    ∃ h1 bp, find_fit h asize = some (h1, bp) ∧
      (bp = NULL → h1.mem = h.mem ∧ h1.brk = h.brk ∧ h1.limit = h.limit ∧
        h1.heap_listp = h.heap_listp ∧ h1.free_list_start = h.free_list_start) := by
  have scan : ∀ rc, ∃ h1 bp,
      find_fit_scan { h with repeat_counter := rc } asize = some (h1, bp) ∧
      (bp = NULL → h1.mem = h.mem ∧ h1.brk = h.brk ∧ h1.limit = h.limit ∧
        h1.heap_listp = h.heap_listp ∧ h1.free_list_start = h.free_list_start) := by
    intro rc
    have hw' : WF { h with repeat_counter := rc } bs L := WF_of_eq h _ bs L hw rfl rfl rfl rfl rfl
    rcases find_fit_scan_spec _ bs L asize hw' with ⟨-, e⟩ | ⟨x, -, e⟩
    · exact ⟨_, _, e, fun _ => ⟨rfl, rfl, rfl, rfl, rfl⟩⟩
    · exact ⟨_, _, e, fun _ => ⟨rfl, rfl, rfl, rfl, rfl⟩⟩
  unfold find_fit
  by_cases h1 : h.last_malloced_size = asize % W32
  · rw [if_pos h1]
    by_cases h2 : h.repeat_counter > 30
    · rw [if_pos h2]
      show ∃ h1 bp, some (extend_heap h (ofInt32 (Int.tdiv (toInt32 (MAX asize (4 * WSIZE))) 4)))
        = some (h1, bp) ∧ _
      generalize ofInt32 (Int.tdiv (toInt32 (MAX asize (4 * WSIZE))) 4) = w
      by_cases hgr : h.brk + extend_size w ≤ h.limit
      · obtain ⟨pre1, r, post1, L1, hw2, hr, -⟩ := extend_heap_spec h bs L w hw hgr
        have hrpos : r.bp ≠ NULL := (WF_aligned _ _ _ hw2 r (by simp)).2
        refine ⟨(extend_heap h w).1, (extend_heap h w).2, rfl, ?_⟩
        intro hn
        rw [hr] at hn
        exact absurd hn hrpos
      · rw [extend_heap_fail h w hgr]
        exact ⟨h, NULL, rfl, fun _ => ⟨rfl, rfl, rfl, rfl, rfl⟩⟩
    · rw [if_neg h2]
      exact scan _
  · rw [if_neg h1]
    exact scan _

/-- On a well-formed heap `mm_malloc` returns; when it returns `NULL`, the request had size 0
or the provider denied the growth `mm_malloc` asked for, and memory, break, limit and list
head are as before the call. -/
theorem mm_malloc_null (h : Heap) (bs : List Blk) (L : List Nat) (size : Nat)
    (hw : WF h bs L) :
    ∃ h1 p, mm_malloc h size = some (h1, p) ∧
      (p = NULL →
        (size = 0 ∨
          (mem_sbrk h (extend_size (MAX (adjust size) CHUNKSIZE / WSIZE))).2 = SBRK_FAIL) ∧
        h1.mem = h.mem ∧ h1.brk = h.brk ∧ h1.limit = h.limit ∧
        h1.heap_listp = h.heap_listp ∧ h1.free_list_start = h.free_list_start) := by
  by_cases h0 : size = 0
  · subst h0
    exact ⟨h, NULL, mm_malloc_zero h, fun _ => ⟨Or.inl rfl, rfl, rfl, rfl, rfl, rfl⟩⟩
  · obtain ⟨h1, bp, hff, hnull⟩ := find_fit_null h bs L (adjust size) hw
    rw [mm_malloc_eq h h1 size bp h0 hff]
    by_cases hb : bp = NULL
    · obtain ⟨e1, e2, e3, e4, e5⟩ := hnull hb
      have hw1 : WF h1 bs L := WF_of_eq h h1 bs L hw e1 e2 e3 e4 e5
      rw [if_neg (by simp [hb])]
      by_cases hgr : h1.brk + extend_size (MAX (adjust size) CHUNKSIZE / WSIZE) ≤ h1.limit
      · obtain ⟨pre1, r, post1, L1, hw2, hr, -⟩ := extend_heap_spec h1 bs L _ hw1 hgr
        have hrpos : r.bp ≠ NULL := (WF_aligned _ _ _ hw2 r (by simp)).2
        rw [hr, if_neg hrpos]
        exact ⟨_, _, rfl, fun hn => absurd hn hrpos⟩
      · rw [extend_heap_fail h1 _ hgr, if_pos rfl]
        refine ⟨h1, NULL, rfl, fun _ => ⟨Or.inr ?_, e1, e2, e3, e4, e5⟩⟩
        unfold mem_sbrk
        rw [← e2, ← e3, if_neg hgr]
    · rw [if_pos hb]
      exact ⟨_, _, rfl, fun hn => absurd hn hb⟩

/-! ## `extend_heap` -/

theorem extend_size_eq (w : Nat) (hov : 4 * (w + 1) < W32) :
    extend_size w = max 16 (4 * (w + w % 2)) := by
  unfold W32 at hov
  unfold extend_size WSIZE W32
  dsimp only
  by_cases hodd : w % 2 ≠ 0
  · rw [if_pos hodd, Nat.mod_eq_of_lt (by omega)]
    split_ifs <;> omega
  · rw [if_neg hodd, Nat.mod_eq_of_lt (by omega)]
    split_ifs <;> omega

/-- A granted `extend_heap` after an allocated last block (or on an arena without blocks). -/
theorem extend_heap_none (h : Heap) (bs : List Blk) (L : List Nat) (w : Nat)
    (hw : WF h bs L) (hgr : h.brk + extend_size w ≤ h.limit) (hp : prevAlloc bs = 1) :
    (extend_heap h w).2 = h.brk ∧
    WF (extend_heap h w).1 (bs ++ [⟨h.brk, extend_size w, 0⟩]) (h.brk :: L) ∧
    (extend_heap h w).1.brk = h.brk + extend_size w := by
  obtain ⟨p8, p16, -⟩ := extend_size_props w
  have hc := extend_pre h bs L (extend_size w) hw p8 p16 hgr
  obtain ⟨ce, cw⟩ := coalesce_none _ bs [] ⟨h.brk, extend_size w, 0⟩ L hc hp rfl
  rw [extend_heap_eq h w hgr hw.arena.limit_lt]
  have ce1 : coalesce { h with
      brk := h.brk + extend_size w,
      mem := PUT (PUT (PUT h.mem (h.brk - 4) (extend_size w))
        (h.brk + extend_size w - 8) (extend_size w)) (h.brk + extend_size w - 4) 1 } h.brk = _ :=
    ce
  rw [ce1]
  exact ⟨rfl, cw, rfl⟩

/-- A granted `extend_heap` after a free last block: the new bytes join it. -/
theorem extend_heap_prev (h : Heap) (pre : List Blk) (p : Blk) (L : List Nat) (w : Nat)
    (hw : WF h (pre ++ [p]) L) (hgr : h.brk + extend_size w ≤ h.limit) (hp : p.alloc = 0) :
    (extend_heap h w).2 = p.bp ∧
    WF (extend_heap h w).1 (pre ++ [⟨p.bp, extend_size w + p.size, 0⟩])
      (p.bp :: L.erase p.bp) ∧
    (extend_heap h w).1.brk = h.brk + extend_size w := by
  obtain ⟨p8, p16, -⟩ := extend_size_props w
  have hc := extend_pre h (pre ++ [p]) L (extend_size w) hw p8 p16 hgr
  obtain ⟨ce, cw, sf⟩ := coalesce_prev _ pre [] p ⟨h.brk, extend_size w, 0⟩ L hc hp rfl
  rw [extend_heap_eq h w hgr hw.arena.limit_lt]
  exact ⟨ce, cw, sf.1⟩

/-! ## Free-list operations: exact link words and writes -/

/-- The links `insert_in_free_list` stores, and the bytes it writes. -/
theorem insert_links (h : Heap) (S x : Nat) (L : List Nat)
    (hc : Chain h.mem S 0 h.free_list_start L) (hs : Sep S (x :: L)) (hnd : (x :: L).Nodup) :
    h.free_list_start = L.headD S ∧
    GET (insert_in_free_list h x).mem (x + 4) = 0 ∧
    GET (insert_in_free_list h x).mem x = h.free_list_start ∧
    GET (insert_in_free_list h x).mem (h.free_list_start + 4) = x ∧
    (∀ a, ¬ (x ≤ a ∧ a < x + 8) →
      ¬ (h.free_list_start + 4 ≤ a ∧ a < h.free_list_start + 8) →
      (insert_in_free_list h x).mem a = h.mem a) := by
  have hx := hs.2 x (List.mem_cons_self _ _)
  have hd := Chain_head _ _ _ _ _ hc
  have hsep := headD_sep S _ L x hs (List.mem_cons_self _ _)
    (fun z hz => List.mem_cons_of_mem _ hz) (List.nodup_cons.mp hnd).1
  rw [← hd] at hsep
  have e : (insert_in_free_list h x).mem =
      PUT (PUT (PUT h.mem x h.free_list_start) (h.free_list_start + 4) x) (x + 4) 0 := rfl
  rw [e]
  refine ⟨hd, GET_PUT_same_lt _ _ _ (by decide), ?_, ?_, ?_⟩
  · rw [GET_PUT_disj _ _ _ _ (by omega), GET_PUT_disj _ _ _ _ (by omega),
      GET_PUT_same_lt _ _ _ hsep.1]
  · rw [GET_PUT_disj _ _ _ _ (by omega), GET_PUT_same_lt _ _ _ hx.2.1]
  · intro a h1 h2
    rw [PUT_bytes _ _ _ _ (by omega), PUT_bytes _ _ _ _ (by omega),
      PUT_bytes _ _ _ _ (by omega)]

/-- The head after `remove_from_free_list`, and the bytes it writes: the `next` word of the
predecessor (when there is one) and the `prev` word of the successor (of the sentinel when
the member is the last). -/
theorem remove_links (h : Heap) (S x : Nat) (L : List Nat)
    (hc : Chain h.mem S 0 h.free_list_start L) (hs : Sep S L) (hnd : L.Nodup) (hx : x ∈ L) :
    (GET h.mem (x + 4) = 0 →
      (remove_from_free_list h x).free_list_start = GET h.mem x ∧ h.free_list_start = x) ∧
    (GET h.mem (x + 4) ≠ 0 →
      (remove_from_free_list h x).free_list_start = h.free_list_start ∧
      GET h.mem (x + 4) ∈ L ∧
      GET (remove_from_free_list h x).mem (GET h.mem (x + 4)) = GET h.mem x) ∧
    GET (remove_from_free_list h x).mem (GET h.mem x + 4) = GET h.mem (x + 4) ∧
    (∀ a, ¬ (GET h.mem (x + 4) ≠ 0 ∧ GET h.mem (x + 4) ≤ a ∧ a < GET h.mem (x + 4) + 4) →
      ¬ (GET h.mem x + 4 ≤ a ∧ a < GET h.mem x + 8) →
      (remove_from_free_list h x).mem a = h.mem a) := by
  obtain ⟨l1, l2, rfl⟩ := List.append_of_mem hx
  have hxs := hs.2 x hx
  have hnx : GET h.mem x < W32 := GET_lt _ _
  have hpx : GET h.mem (x + 4) < W32 := GET_lt _ _
  cases l1 with
  | nil =>
    obtain ⟨h1, h2, h3, -⟩ := Chain_remove_head _ _ _ _ _ hc hs hnd
    have hp : ¬ (GET_PREV_PTR h.mem x ≠ 0) := by
      unfold GET_PREV_PTR WSIZE; rw [h2]; simp
    have e : remove_from_free_list h x =
        { h with free_list_start := GET h.mem x, mem := PUT h.mem (GET h.mem x + 4) 0 } := by
      unfold remove_from_free_list
      simp only [if_neg hp]
      simp only [GET_PREV_PTR, GET_NEXT_PTR, SET_PREV_PTR, WSIZE, h2]
    rw [e]
    refine ⟨fun _ => ⟨rfl, h1⟩, fun hne => absurd h2 hne, ?_, ?_⟩
    · show GET (PUT h.mem (GET h.mem x + 4) 0) (GET h.mem x + 4) = GET h.mem (x + 4)
      rw [h2, GET_PUT_same_lt _ _ _ (by decide)]
    · intro a _ h5
      show PUT h.mem (GET h.mem x + 4) 0 a = h.mem a
      rw [PUT_bytes _ _ _ _ (by omega)]
  | cons y l1 =>
    obtain ⟨h1, h2, -⟩ := Chain_remove_mid _ _ _ _ _ _ _ hc (by simp) hs hnd
    have hpv := hs.2 _ (List.mem_append_left (x :: l2) h1)
    have hxpv : x ≠ GET h.mem (x + 4) := fun e => by
      have := List.nodup_append.mp hnd
      exact this.2.2 (e ▸ h1) (List.mem_cons_self _ _)
    have hsep := hxs.2.2 _ (List.mem_append_left (x :: l2) h1)
    have hp : GET_PREV_PTR h.mem x ≠ 0 := by
      unfold GET_PREV_PTR WSIZE; omega
    have e1 : GET (PUT h.mem (GET h.mem (x + 4)) (GET h.mem x)) x = GET h.mem x :=
      GET_PUT_disj _ _ _ _ (by omega)
    have e2 : GET (PUT h.mem (GET h.mem (x + 4)) (GET h.mem x)) (x + 4) = GET h.mem (x + 4) :=
      GET_PUT_disj _ _ _ _ (by omega)
    have e : remove_from_free_list h x =
        { h with mem := (PUT (PUT h.mem (GET h.mem (x + 4)) (GET h.mem x)) (GET h.mem x + 4)
            (GET h.mem (x + 4))) } := by
      unfold remove_from_free_list
      simp only [if_pos hp]
      simp only [GET_PREV_PTR, GET_NEXT_PTR, SET_PREV_PTR, SET_NEXT_PTR, WSIZE, e1, e2]
    -- the successor (or the sentinel) is at least 8 bytes from the predecessor
    have hnp : GET h.mem x + 8 ≤ GET h.mem (x + 4) ∨ GET h.mem (x + 4) + 8 ≤ GET h.mem x := by
      have hnd2 := List.nodup_append.mp hnd
      have := headD_sep S _ l2 (GET h.mem (x + 4)) hs (List.mem_append_left (x :: l2) h1)
        (fun z hz => List.mem_append_right _ (List.mem_cons_of_mem _ hz))
        (fun hin => hnd2.2.2 h1 (List.mem_cons_of_mem _ hin))
      rw [← h2] at this
      omega
    rw [e]
    refine ⟨fun h0 => absurd h0 (by omega), fun _ => ⟨rfl, List.mem_append_left _ h1, ?_⟩, ?_, ?_⟩
    · show GET (PUT (PUT h.mem (GET h.mem (x + 4)) (GET h.mem x)) (GET h.mem x + 4)
        (GET h.mem (x + 4))) (GET h.mem (x + 4)) = GET h.mem x
      rw [GET_PUT_disj _ _ _ _ (by omega), GET_PUT_same_lt _ _ _ hnx]
    · show GET (PUT (PUT h.mem (GET h.mem (x + 4)) (GET h.mem x)) (GET h.mem x + 4)
        (GET h.mem (x + 4))) (GET h.mem x + 4) = GET h.mem (x + 4)
      rw [GET_PUT_same_lt _ _ _ hpx]
    · intro a h4 h5
      show PUT (PUT h.mem (GET h.mem (x + 4)) (GET h.mem x)) (GET h.mem x + 4)
        (GET h.mem (x + 4)) a = h.mem a
      rw [PUT_bytes _ _ _ _ (by omega), PUT_bytes _ _ _ _ (by omega)]

/-! ## The statics of `find_fit` -/

theorem coalesce_statics (h : Heap) (bp : Nat) :
    (coalesce h bp).1.last_malloced_size = h.last_malloced_size ∧
    (coalesce h bp).1.repeat_counter = h.repeat_counter := by
  unfold coalesce
  dsimp only
  split_ifs <;>
    simp only [insert_in_free_list, (remove_fields _ _).2.2.2.1, (remove_fields _ _).2.2.2.2,
      and_self]

theorem extend_heap_statics (h : Heap) (w : Nat) :
    (extend_heap h w).1.last_malloced_size = h.last_malloced_size ∧
    (extend_heap h w).1.repeat_counter = h.repeat_counter := by
  unfold extend_heap mem_sbrk
  dsimp only
  by_cases hgr : h.brk + extend_size w ≤ h.limit
  · simp only [if_pos hgr]
    split_ifs
    · exact ⟨rfl, rfl⟩
    · exact coalesce_statics _ _
  · simp only [if_neg hgr, if_true]
    exact ⟨trivial, trivial⟩

theorem place_statics (h : Heap) (bp asize : Nat) :
    (place h bp asize).last_malloced_size = h.last_malloced_size ∧
    (place h bp asize).repeat_counter = h.repeat_counter := by
  unfold place
  dsimp only
  split_ifs
  · refine ⟨(coalesce_statics _ _).1.trans ?_, (coalesce_statics _ _).2.trans ?_⟩
    · exact (remove_fields _ _).2.2.2.1
    · exact (remove_fields _ _).2.2.2.2
  · exact ⟨(remove_fields _ _).2.2.2.1, (remove_fields _ _).2.2.2.2⟩

theorem find_fit_bypass (h : Heap) (asize : Nat) (hb : bypass h asize) :
    find_fit h asize =
      some (extend_heap h (ofInt32 (Int.tdiv (toInt32 (MAX asize (4 * WSIZE))) 4))) := by
  unfold find_fit
  rw [if_pos hb.1, if_pos hb.2]

theorem find_fit_scans (h : Heap) (asize : Nat) (hb : ¬ bypass h asize) :
    find_fit h asize =
      find_fit_scan { h with repeat_counter :=
        if h.last_malloced_size = asize % W32 then h.repeat_counter + 1 else 0 } asize := by
  unfold find_fit
  by_cases h1 : h.last_malloced_size = asize % W32
  · rw [if_pos h1, if_neg (fun h2 => hb ⟨h1, h2⟩), if_pos h1]
  · rw [if_neg h1, if_neg h1]

/-- The scan changes the remembered size exactly when it finds a block. -/
theorem find_fit_scan_result (h h1 : Heap) (asize bp : Nat)
    (e : find_fit_scan h asize = some (h1, bp)) :
    h1.repeat_counter = h.repeat_counter ∧
    ((find_fit_loop h.mem asize h.brk h.free_list_start = some (some bp) ∧
        h1.last_malloced_size = asize) ∨
     (find_fit_loop h.mem asize h.brk h.free_list_start = some none ∧ bp = NULL ∧
        h1.last_malloced_size = h.last_malloced_size)) := by
  unfold find_fit_scan at e
  cases hl : find_fit_loop h.mem asize h.brk h.free_list_start with
  | none => rw [hl] at e; simp at e
  | some r =>
    cases r with
    | none =>
      rw [hl] at e
      simp only [Option.some.injEq, Prod.mk.injEq] at e
      obtain ⟨e1, e2⟩ := e
      subst e1
      exact ⟨rfl, Or.inr ⟨rfl, e2.symm, rfl⟩⟩
    | some b =>
      rw [hl] at e
      simp only [Option.some.injEq, Prod.mk.injEq] at e
      obtain ⟨e1, e2⟩ := e
      subst e1 e2
      exact ⟨rfl, Or.inl ⟨rfl, rfl⟩⟩

/-- After `find_fit`, `mm_malloc` leaves the statics alone. -/
theorem mm_malloc_statics (h h1 : Heap) (size p : Nat) (hs : size ≠ 0)
    (e : mm_malloc h size = some (h1, p)) :
    ∃ h2 bp, find_fit h (adjust size) = some (h2, bp) ∧
      h1.last_malloced_size = h2.last_malloced_size ∧
      h1.repeat_counter = h2.repeat_counter := by
  cases hff : find_fit h (adjust size) with
  | none =>
    unfold mm_malloc at e
    rw [if_neg hs] at e
    simp only [hff] at e
    exact absurd e (by simp)
  | some r =>
    obtain ⟨h2, bp⟩ := r
    rw [mm_malloc_eq h h2 size bp hs hff] at e
    refine ⟨h2, bp, rfl, ?_⟩
    split_ifs at e
    · simp only [Option.some.injEq, Prod.mk.injEq] at e
      rw [← e.1]
      exact place_statics _ _ _
    · simp only [Option.some.injEq, Prod.mk.injEq] at e
      rw [← e.1]
      exact extend_heap_statics _ _
    · simp only [Option.some.injEq, Prod.mk.injEq] at e
      rw [← e.1]
      exact ⟨(place_statics _ _ _).1.trans (extend_heap_statics _ _).1,
        (place_statics _ _ _).2.trans (extend_heap_statics _ _).2⟩

/-! ## Adjacent free blocks -/

theorem mm_free_grows (h : Heap) (pre post : List Blk) (b : Blk) (L : List Nat)
    (hw : WF h (pre ++ b :: post) L) (hb : b.alloc = 1) :
    ∃ pre1 r post1 L1, WF (mm_free h b.bp) (pre1 ++ r :: post1) (r.bp :: L1) ∧ r.alloc = 0 ∧
      b.size ≤ r.size ∧ SameFields h (mm_free h b.bp) := by
  have hc := free_pre h pre post b L hw hb
  obtain ⟨pre1, r, post1, L1, hw1, -, hr0, hsz, hs, -, -⟩ := coalesce_spec _ pre post _ L hc
  rw [mm_free_eq h pre post b L hw]
  exact ⟨pre1, r, post1, L1, hw1, hr0, hsz, ⟨hs.1, hs.2.1, hs.2.2.1, hs.2.2.2.1, hs.2.2.2.2⟩⟩

theorem firstFit_head (h : Heap) (pre post : List Blk) (r : Blk) (L : List Nat) (asize : Nat)
    (hw : WF h (pre ++ r :: post) (r.bp :: L)) (hsz : asize ≤ r.size) :
    firstFit h.mem asize (r.bp :: L) = some r.bp := by
  have hok := (Tiles_mem _ _ _ _ hw.arena.tiles r (by simp)).2.2.1
  have e := (read_hdr _ _ hok).1
  unfold firstFit
  rw [List.find?_cons_of_pos]
  rw [e]
  exact decide_eq_true hsz

/-- No fit and a denied request: `mm_malloc` returns `NULL` and a heap with the same memory. -/
theorem malloc_denied (h : Heap) (bs : List Blk) (L : List Nat) (size : Nat)
    (hw : WF h bs L) (hs : 0 < size) (hov : size + 15 < W32)
    (hby : ¬ (h.last_malloced_size = adjust size ∧ h.repeat_counter > 30))
    (hnone : firstFit h.mem (adjust size) L = none)
    (hden : h.limit < h.brk + extend_size (MAX (adjust size) CHUNKSIZE / WSIZE)) :
    ∃ h1, mm_malloc h size = some (h1, NULL) ∧ h1.brk = h.brk := by
  obtain ⟨-, a8, a16, -, alt⟩ := adjust_props size hs hov
  obtain ⟨rc, hrc⟩ := find_fit_no_bypass h _ alt hby
  have hw' : WF { h with repeat_counter := rc } bs L := WF_of_eq h _ bs L hw rfl rfl rfl rfl rfl
  have hn' : firstFit ({ h with repeat_counter := rc } : Heap).mem (adjust size) L = none := hnone
  rcases find_fit_scan_spec _ bs L (adjust size) hw' with ⟨-, e⟩ | ⟨y, hy, -⟩
  · have hgr : ¬ (({ h with repeat_counter := rc } : Heap).brk +
        extend_size (MAX (adjust size) CHUNKSIZE / WSIZE) ≤
        ({ h with repeat_counter := rc } : Heap).limit) := by
      show ¬ (h.brk + extend_size (MAX (adjust size) CHUNKSIZE / WSIZE) ≤ h.limit)
      omega
    refine ⟨{ h with repeat_counter := rc }, ?_, rfl⟩
    rw [mm_malloc_eq h _ size NULL (by omega) (hrc.trans e), if_neg (by simp),
      extend_heap_fail _ _ hgr, if_pos rfl]
  · rw [hn'] at hy
    exact absurd hy (by simp)

/-- The repeat counter after a call that did not take the bypass. -/
theorem malloc_counter (h h1 : Heap) (size p : Nat) (hs : 0 < size) (hov : size + 15 < W32)
    (hby : ¬ (h.last_malloced_size = adjust size ∧ h.repeat_counter > 30))
    (e : mm_malloc h size = some (h1, p)) :
    h1.repeat_counter =
      if h.last_malloced_size = adjust size then h.repeat_counter + 1 else 0 := by
  obtain ⟨-, -, -, -, alt⟩ := adjust_props size hs hov
  have hmod : adjust size % W32 = adjust size := Nat.mod_eq_of_lt alt
  have hb : ¬ bypass h (adjust size) := by unfold bypass; rw [hmod]; exact hby
  obtain ⟨h2, bp, hff, -, e2⟩ := mm_malloc_statics h h1 size p (by omega) e
  rw [find_fit_scans h _ hb, hmod] at hff
  rw [e2, (find_fit_scan_result _ h2 _ bp hff).1]

/-- One repetition `p = mm_malloc(s); mm_free(p)` without the bypass. -/
theorem churn_step (h : Heap) (bs : List Blk) (L : List Nat) (size : Nat)
    (hw : WF h bs L) (hs : 0 < size) (hov : size + 15 < W32)
    (hby : ¬ (h.last_malloced_size = adjust size ∧ h.repeat_counter > 30)) :
    ∃ h1 p, mm_malloc h size = some (h1, p) ∧ Settled (mm_free h1 p) (adjust size) ∧
      (mm_free h1 p).repeat_counter =
        (if h.last_malloced_size = adjust size then h.repeat_counter + 1 else 0) ∧
      ((firstFit h.mem (adjust size) L ≠ none ∨
          h.limit < h.brk + extend_size (MAX (adjust size) CHUNKSIZE / WSIZE)) →
        (mm_free h1 p).brk = h.brk) := by
  obtain ⟨h1, p, bs1, L1, e, hw1, hl1, hp1, hb1, hcase⟩ := mm_malloc_spec h bs L size hw hs hov
  have hrc := malloc_counter h h1 size p hs hov hby e
  refine ⟨h1, p, e, ?_⟩
  rcases hcase with ⟨hnull, -⟩ | ⟨nb, n1, n2, n3, hal, -⟩
  · -- the request failed: the heap is as before
    obtain ⟨h1', p', e', hn⟩ := mm_malloc_null h bs L size hw
    rw [e] at e'
    obtain ⟨e1, e2⟩ := Prod.mk.inj (Option.some.inj e')
    subst e1 e2
    obtain ⟨hd, m1, m2, m3, m4, m5⟩ := hn hnull
    have hden : h.limit < h.brk + extend_size (MAX (adjust size) CHUNKSIZE / WSIZE) := by
      rcases hd with hd | hd
      · omega
      · unfold mem_sbrk at hd
        by_contra hcon
        rw [if_pos (by omega)] at hd
        have hll := hw.arena.limit_lt
        have h16 := (extend_size_props (MAX (adjust size) CHUNKSIZE / WSIZE)).2.1
        unfold SBRK_FAIL at hd
        unfold W32 at hll
        simp only at hd
        omega
    rw [hnull, mm_free_null]
    refine ⟨⟨bs, L, WF_of_eq h h1 bs L hw m1 m2 m3 m4 m5, Or.inr ?_⟩, hrc, fun _ => m2⟩
    rw [m2, m3]
    exact hden
  · have hnb : nb ∈ bs1 := (hal nb n2).mpr (Or.inr rfl)
    obtain ⟨pre, post, rfl⟩ := List.append_of_mem hnb
    obtain ⟨pre1, r, post1, L2, hw2, hr0, hsz, hsf⟩ := mm_free_grows h1 pre post nb L1 hw1 n2
    rw [← n1]
    refine ⟨⟨_, _, hw2, Or.inl ?_⟩, ?_, ?_⟩
    · rw [firstFit_head _ pre1 post1 r L2 (adjust size) hw2 (by omega)]
      simp
    · rw [hsf.2.2.2.2, hrc]
    · intro hq
      rw [hsf.1]
      have hpn : p ≠ NULL := by
        rw [← n1]; exact (WF_aligned _ _ _ hw1 nb hnb).2
      cases hff : firstFit h.mem (adjust size) L with
      | some x =>
        obtain ⟨h1', e1, e2⟩ := malloc_first_fit h bs L size x hw hs hov hby hff
        rw [e] at e1
        rw [(Prod.mk.inj (Option.some.inj e1)).1]
        exact e2
      | none =>
        rcases hq with hq | hq
        · exact absurd hff hq
        · obtain ⟨h1', e1, -⟩ := malloc_denied h bs L size hw hs hov hby hff hq
          rw [e] at e1
          exact absurd (Prod.mk.inj (Option.some.inj e1)).2 hpn

theorem churn_succ (s n : Nat) (h h1 : Heap) (p : Nat) (e : mm_malloc h s = some (h1, p)) :
    churn s (n + 1) h = churn s n (mm_free h1 p) := by
  simp only [churn, e]

/-- After a repetition, further repetitions up to the thirty-second keep the arena size. -/
theorem churn_inv (size : Nat) (hs : 0 < size) (hov : size + 15 < W32) :
    ∀ (n j : Nat) (h : Heap), j + n ≤ 32 → Settled h (adjust size) →
      h.repeat_counter + 1 ≤ j → ∃ h1, churn size n h = some h1 ∧ h1.brk = h.brk := by
  intro n
  induction n with
  | zero => intro j h _ _ _; exact ⟨h, rfl, rfl⟩
  | succ n ih =>
    intro j h hj hset hrc
    obtain ⟨bs, L, hw, hq⟩ := hset
    have hby : ¬ (h.last_malloced_size = adjust size ∧ h.repeat_counter > 30) := by
      rintro ⟨-, h2⟩
      omega
    obtain ⟨h1, p, e, hset1, hrc1, hbrk⟩ := churn_step h bs L size hw hs hov hby
    have hrc2 : (mm_free h1 p).repeat_counter + 1 ≤ j + 1 := by
      rw [hrc1]
      split_ifs <;> omega
    obtain ⟨h2, e2, hb2⟩ := ih (j + 1) (mm_free h1 p) (by omega) hset1 hrc2
    exact ⟨h2, by rw [churn_succ size n h h1 p e]; exact e2, by rw [hb2]; exact hbrk hq⟩

/-! ## Properties of the specification -/

set_option maxRecDepth 100000 in
/-- C1 (failing run): after `mm_init` on a fresh zero-filled 8-aligned arena, thirteen valid
calls leave two live allocations, `65568` with 104 bytes and `65616` with 56 bytes, whose
byte ranges overlap. -/
theorem realloc_run_overlaps :
    (run (initSys arena0) overlapOps).live =
      [(65536 + 80, 56), (65536 + 32, 104), (65536 + 216, 8), (65536 + 144, 8)] ∧
    65536 + 32 ≤ 65536 + 80 ∧ 65536 + 80 < 65536 + 32 + 104 := by
  decide

set_option maxRecDepth 100000 in
/-- C4 (failing call): the heap reached from a zero-filled arena by `mm_init` and the eight
calls of `listOps` is well formed and `65568` is live in it; `mm_realloc` of that pointer to
24 bytes, which takes the allocate-copy-free branch, returns a heap that is not well formed
for any block list and free list: the free block at `65736` is not in the list. -/
theorem realloc_loses_free_block :
    (∃ bs L, WF (heapAfter listOps) bs L) ∧
    (65536 + 32, 8) ∈ (run (initSys arena0) listOps).live ∧
    ∃ h1 q, mm_realloc (heapAfter listOps) (65536 + 32) 24 = some (h1, q) ∧
      ¬ ∃ bs L, WF h1 bs L := by
  have hlive : (run (initSys arena0) listOps).live =
      [(65752, 8), (65680, 8), (65584, 24), (65568, 8)] := by decide
  refine ⟨?_, by rw [hlive]; decide, ?_⟩
  · cases hrun : run (initSys arena0) listOps with
    | ok s =>
      obtain ⟨bs, L, hw, -⟩ := (run_inv arena0.brk listOps (initSys arena0)
        (init_inv arena0 (by decide) (by decide) (by decide) (by decide)) (by decide)
        (by decide)).2 s hrun
      have e : heapAfter listOps = s.heap := by unfold heapAfter; rw [hrun]
      rw [e]
      exact ⟨bs, L, hw⟩
    | invalid => rw [hrun] at hlive; simp [Outcome.live] at hlive
    | diverged => rw [hrun] at hlive; simp [Outcome.live] at hlive
  · have k1 : (mm_realloc (heapAfter listOps) (65536 + 32) 24).map
        (fun r => blocks_from r.1.mem r.1.brk 20 (r.1.heap_listp + 32)) =
        some (some [⟨65568, 16, 0⟩, ⟨65584, 32, 1⟩, ⟨65616, 64, 0⟩, ⟨65680, 16, 1⟩,
          ⟨65696, 40, 1⟩, ⟨65736, 16, 0⟩, ⟨65752, 16, 1⟩, ⟨65768, 3912, 0⟩]) := by decide
    have k2 : (mm_realloc (heapAfter listOps) (65536 + 32) 24).map
        (fun r => free_list_from r.1.mem 20 r.1.free_list_start) =
        some (some [65568, 65616, 65768]) := by decide
    cases hr : mm_realloc (heapAfter listOps) (65536 + 32) 24 with
    | none => rw [hr] at k1; simp at k1
    | some r =>
      rw [hr] at k1 k2
      simp only [Option.map_some', Option.some.injEq] at k1 k2
      refine ⟨r.1, r.2, rfl, ?_⟩
      rintro ⟨bs, L, hw⟩
      obtain ⟨w1, w2⟩ := WF_walk _ _ _ hw
      have e1 := w1 _ _ k1
      have e2 := w2 _ _ k2
      have hin := hw.free_list ⟨65736, 16, 0⟩ (by rw [← e1]; decide) rfl
      rw [← e2] at hin
      revert hin
      decide

set_option maxRecDepth 100000 in
/-- C5 (failing call): the heap reached from a zero-filled arena by `mm_init` and the five
calls of `copyOps` is well formed; the live block at `65568` (8 bytes requested, block size
16) is followed by an allocated block, and the only free block does not follow it. The call
`mm_realloc(65568, 65593)` returns `131184`, but the byte at offset 1 of the result is `89`
where the old block held `0` before the call. -/
theorem realloc_copy_changes_bytes :
    (∃ bs L, WF (heapAfter copyOps) bs L) ∧
    (run (initSys arena0) copyOps).live = [(196808, 65560), (65584, 65592), (65568, 8)] ∧
    blocks_from (heapAfter copyOps).mem (heapAfter copyOps).brk 20 (65536 + 32) =
      some [⟨65568, 16, 1⟩, ⟨65584, 65600, 1⟩, ⟨131184, 65624, 0⟩, ⟨196808, 65568, 1⟩] ∧
    (mm_realloc (heapAfter copyOps) 65568 65593).map Prod.snd = some 131184 ∧
    (heapAfter copyOps).mem (65568 + 1) = 0 ∧
    (mm_realloc (heapAfter copyOps) 65568 65593).map (fun r => r.1.mem (131184 + 1)) =
      some 89 := by
  have hlive : (run (initSys arena0) copyOps).live =
      [(196808, 65560), (65584, 65592), (65568, 8)] := by decide
  refine ⟨?_, hlive, by decide, by decide, by decide, by decide⟩
  cases hrun : run (initSys arena0) copyOps with
  | ok s =>
    obtain ⟨bs, L, hw, -⟩ := (run_inv arena0.brk copyOps (initSys arena0)
      (init_inv arena0 (by decide) (by decide) (by decide) (by decide)) (by decide)
      (by decide)).2 s hrun
    have e : heapAfter copyOps = s.heap := by unfold heapAfter; rw [hrun]
    rw [e]
    exact ⟨bs, L, hw⟩
  | invalid => rw [hrun] at hlive; simp [Outcome.live] at hlive
  | diverged => rw [hrun] at hlive; simp [Outcome.live] at hlive

/-- C6: let `b` be an allocated block of a well-formed heap and `s` a positive request (as the
signed value the code reads, so below `2^31`). If `s + 8 ≤ b.size`, `mm_realloc` returns the
block's address and the heap unchanged. Otherwise, if the next block `n` is free and
`s + 8 ≤ b.size + n.size`, it returns the block's address; header and footer of the block are
`PACK(b.size + n.size, 1)`; the heap is well formed with that block in place of `b` and `n`
and with the free list `L` without `n`, all its other members kept; and the bytes of the old
payload (up to the old footer) are unchanged. -/
theorem realloc_in_place (h : Heap) (pre post : List Blk) (b : Blk) (L : List Nat) (s : Nat)
    (hw : WF h (pre ++ b :: post) L) (hb : b.alloc = 1) (h0 : 0 < s) (hlt : s < 2147483648) :
    (s + 8 ≤ b.size → mm_realloc h b.bp s = some (h, b.bp)) ∧
    (b.size < s + 8 → ∀ n post1, post = n :: post1 → n.alloc = 0 → s + 8 ≤ b.size + n.size →
      ∃ h1, mm_realloc h b.bp s = some (h1, b.bp) ∧
        GET h1.mem (HDRP b.bp) = PACK (b.size + n.size) 1 ∧
        GET h1.mem (FTRP h1.mem b.bp) = PACK (b.size + n.size) 1 ∧
        WF h1 (pre ++ ⟨b.bp, b.size + n.size, 1⟩ :: post1) (L.erase n.bp) ∧
        n.bp ∈ L ∧ n.bp ∉ L.erase n.bp ∧ (∀ x ∈ L, x ≠ n.bp → x ∈ L.erase n.bp) ∧
        (∀ a, b.bp ≤ a → a < b.bp + b.size - DSIZE → h1.mem a = h.mem a) ∧
        h1.brk = h.brk) := by
  refine ⟨fun hle => realloc_keep h pre post b L s hw h0 hlt hle, ?_⟩
  intro hgt n post1 hpost hn hc
  subst hpost
  obtain ⟨e, hw1, hnL, hfr⟩ := realloc_absorb h pre post1 b n L s hw hb hn h0 hlt hgt hc
  obtain ⟨t1, t2, -⟩ := WF_tags _ _ _ hw1 ⟨b.bp, b.size + n.size, 1⟩ (by simp)
  refine ⟨_, e, t1, by rw [t2]; exact t1, hw1, hnL, ?_, ?_, ?_, (remove_fields h n.bp).1⟩
  · exact fun hin => ((List.Nodup.mem_erase_iff hw.listed.nodup).mp hin).1 rfl
  · exact fun x hx hne => (List.Nodup.mem_erase_iff hw.listed.nodup).mpr ⟨hne, hx⟩
  · intro a ha1 ha2
    exact hfr a ha1 (by unfold DSIZE at ha2; omega)

set_option maxRecDepth 100000 in
theorem realloc_in_place_witness :
    (100 + 8 ≤ 16 → mm_realloc (heapAfter [.malloc 8, .malloc 8]) 65584 100 =
      some (heapAfter [.malloc 8, .malloc 8], 65584)) ∧
    (16 < 100 + 8 → ∀ n post1, [(⟨65600, 4080, 0⟩ : Blk)] = n :: post1 → n.alloc = 0 →
      100 + 8 ≤ 16 + n.size →
      ∃ h1, mm_realloc (heapAfter [.malloc 8, .malloc 8]) 65584 100 = some (h1, 65584) ∧
        GET h1.mem (HDRP 65584) = PACK (16 + n.size) 1 ∧
        GET h1.mem (FTRP h1.mem 65584) = PACK (16 + n.size) 1 ∧
        WF h1 ([⟨65568, 16, 1⟩] ++ ⟨65584, 16 + n.size, 1⟩ :: post1) ([65600].erase n.bp) ∧
        n.bp ∈ [65600] ∧ n.bp ∉ [65600].erase n.bp ∧
        (∀ x ∈ [65600], x ≠ n.bp → x ∈ [65600].erase n.bp) ∧
        (∀ a, 65584 ≤ a → a < 65584 + 16 - DSIZE →
          h1.mem a = (heapAfter [.malloc 8, .malloc 8]).mem a) ∧
        h1.brk = (heapAfter [.malloc 8, .malloc 8]).brk) :=
  realloc_in_place (heapAfter [.malloc 8, .malloc 8]) [⟨65568, 16, 1⟩] [⟨65600, 4080, 0⟩]
    ⟨65584, 16, 1⟩ [65600] 100 (WF_intro _ _ _ (by decide)) rfl (by decide) (by decide)

set_option maxRecDepth 100000 in
/-- C7: on a well-formed heap on which the repeat bypass of `find_fit` is not triggered, a
request of `size > 0` bytes with adjusted size `A = adjust size`: if some member of the free
list has size at least `A`, `mm_malloc` returns the first such member in list order and the
arena keeps its size; if none has and the provider grants the request, `mm_malloc` returns a
block and the arena has grown by exactly `MAX(A, 4096)` bytes. On a fresh zero-filled arena,
`a = malloc 100; b = malloc 200; free a; c = malloc 90` gives `c = a`. -/
theorem first_fit_reuse (h : Heap) (bs : List Blk) (L : List Nat) (size : Nat)
    (hw : WF h bs L) (hs : 0 < size) (hov : size + 15 < W32)
    (hby : ¬ (h.last_malloced_size = adjust size ∧ h.repeat_counter > 30)) :
    (∀ x, firstFit h.mem (adjust size) L = some x →
      ∃ h1, mm_malloc h size = some (h1, x) ∧ h1.brk = h.brk) ∧
    (firstFit h.mem (adjust size) L = none →
      h.brk + MAX (adjust size) CHUNKSIZE ≤ h.limit →
      ∃ h1 p, mm_malloc h size = some (h1, p) ∧ p ≠ NULL ∧
        h1.brk = h.brk + MAX (adjust size) CHUNKSIZE) ∧
    (run (initSys arena0) reuseOps).rets = [65536 + 32, 65536 + 144, 65536 + 32] :=
  ⟨fun x hx => malloc_first_fit h bs L size x hw hs hov hby hx,
   fun hn hgr => malloc_grow h bs L size hw hs hov hby hn hgr, by decide⟩

set_option maxRecDepth 100000 in
theorem first_fit_reuse_witness :
    firstFit (heapAfter [.malloc 100, .malloc 200, .free 65568]).mem (adjust 90)
      [65568, 65888] = some 65568 ∧
    ((∀ x, firstFit (heapAfter [.malloc 100, .malloc 200, .free 65568]).mem (adjust 90)
        [65568, 65888] = some x →
      ∃ h1, mm_malloc (heapAfter [.malloc 100, .malloc 200, .free 65568]) 90 = some (h1, x) ∧
        h1.brk = (heapAfter [.malloc 100, .malloc 200, .free 65568]).brk) ∧
    (firstFit (heapAfter [.malloc 100, .malloc 200, .free 65568]).mem (adjust 90)
        [65568, 65888] = none →
      (heapAfter [.malloc 100, .malloc 200, .free 65568]).brk + MAX (adjust 90) CHUNKSIZE ≤
        (heapAfter [.malloc 100, .malloc 200, .free 65568]).limit →
      ∃ h1 p, mm_malloc (heapAfter [.malloc 100, .malloc 200, .free 65568]) 90 =
          some (h1, p) ∧ p ≠ NULL ∧
        h1.brk = (heapAfter [.malloc 100, .malloc 200, .free 65568]).brk +
          MAX (adjust 90) CHUNKSIZE) ∧
    (run (initSys arena0) reuseOps).rets = [65536 + 32, 65536 + 144, 65536 + 32]) :=
  ⟨by decide,
   first_fit_reuse (heapAfter [.malloc 100, .malloc 200, .free 65568])
    [⟨65568, 112, 0⟩, ⟨65680, 208, 1⟩, ⟨65888, 3792, 0⟩] [65568, 65888] 90
    (WF_intro _ _ _ (by decide)) (by decide) (by decide) (by decide)⟩

/-- C8: let `coalesce` be called on block `b` in the state `CoalPre`: the arena is tiled by
`pre ++ b :: post`, `b` is marked free (header and footer `PACK(size, 0)`) and is not in the
free list `L`, which holds exactly the other free blocks. Then the result `r` is the head of
the free list of a well-formed heap and has `PACK(total, 0)` in header and footer, where:
`r = b`, `total = size`, nothing removed, if both neighbours are allocated; `r = b`,
`total = size + size(next)`, next removed, if only the next block is free; `r = prev`,
`total = size + size(prev)` if only the previous block is free; `r = prev`,
`total = size + size(prev) + size(next)`, next removed, if both are free (the previous block
stays in the list as the head). Consequently, freeing two adjacent allocated blocks `x`, `y`
whose outer neighbours are allocated leaves, in either order, one free block of size
`x.size + y.size` at `x` in place of both. -/
theorem coalesce_cases (h : Heap) (pre post : List Blk) (b : Blk) (L : List Nat)
    (hc : CoalPre h pre b post L) :
    (prevAlloc pre = 1 → nextAlloc post = 1 →
      (coalesce h b.bp).2 = b.bp ∧
      CoalPost (coalesce h b.bp).1 b.bp b.size (pre ++ ⟨b.bp, b.size, 0⟩ :: post) L) ∧
    (prevAlloc pre = 1 → ∀ n post1, post = n :: post1 → n.alloc = 0 →
      (coalesce h b.bp).2 = b.bp ∧
      CoalPost (coalesce h b.bp).1 b.bp (b.size + n.size)
        (pre ++ ⟨b.bp, b.size + n.size, 0⟩ :: post1) (L.erase n.bp)) ∧
    (∀ pre1 p, pre = pre1 ++ [p] → p.alloc = 0 → nextAlloc post = 1 →
      (coalesce h b.bp).2 = p.bp ∧
      CoalPost (coalesce h b.bp).1 p.bp (b.size + p.size)
        (pre1 ++ ⟨p.bp, b.size + p.size, 0⟩ :: post) (L.erase p.bp)) ∧
    (∀ pre1 p n post1, pre = pre1 ++ [p] → post = n :: post1 → p.alloc = 0 → n.alloc = 0 →
      (coalesce h b.bp).2 = p.bp ∧
      CoalPost (coalesce h b.bp).1 p.bp (b.size + (p.size + n.size))
        (pre1 ++ ⟨p.bp, b.size + (p.size + n.size), 0⟩ :: post1)
        ((L.erase p.bp).erase n.bp)) ∧
    (∀ (h2 : Heap) (pre2 post2 : List Blk) (x y : Blk) (L2 : List Nat),
      WF h2 (pre2 ++ x :: y :: post2) L2 → x.alloc = 1 → y.alloc = 1 →
      prevAlloc pre2 = 1 → nextAlloc post2 = 1 →
      WF (mm_free (mm_free h2 x.bp) y.bp) (pre2 ++ ⟨x.bp, x.size + y.size, 0⟩ :: post2)
        (x.bp :: L2) ∧
      WF (mm_free (mm_free h2 y.bp) x.bp) (pre2 ++ ⟨x.bp, x.size + y.size, 0⟩ :: post2)
        (x.bp :: L2)) := by
  have hb0 := hc.free
  have hbe : b = ⟨b.bp, b.size, 0⟩ := by
    cases b with
    | mk bp size alloc => simp only [Blk.mk.injEq, true_and]; exact hb0
  refine ⟨?_, ?_, ?_, ?_, ?_⟩
  · intro hp hn
    obtain ⟨ce, cw⟩ := coalesce_none h pre post b L hc hp hn
    rw [ce]
    rw [hbe] at cw
    exact ⟨rfl, CoalPost_intro _ pre post b.bp b.size L cw⟩
  · intro hp n post1 hpost hn
    subst hpost
    obtain ⟨e, cw, -⟩ := coalesce_next h pre post1 b n L hc hp hn
    exact ⟨e, CoalPost_intro _ pre post1 b.bp _ _ cw⟩
  · intro pre1 p hpre hp hn
    subst hpre
    obtain ⟨e, cw, -⟩ := coalesce_prev h pre1 post p b L hc hp hn
    exact ⟨e, CoalPost_intro _ pre1 post p.bp _ _ cw⟩
  · intro pre1 p n post1 hpre hpost hp hn
    subst hpre hpost
    obtain ⟨e, cw, -⟩ := coalesce_both h pre1 post1 p b n L hc hp hn
    exact ⟨e, CoalPost_intro _ pre1 post1 p.bp _ _ cw⟩
  · intro h2 pre2 post2 x y L2 hw hx hy hp hn
    exact ⟨free_low_high h2 pre2 post2 x y L2 hw hx hy hp hn,
      free_high_low h2 pre2 post2 x y L2 hw hx hy hp hn⟩

set_option maxRecDepth 100000 in
theorem coalesce_cases_witness :
    CoalPre (init_block arena0) [] ⟨65568, 16, 0⟩ [] [] ∧
    ((coalesce (init_block arena0) 65568).2 = 65568 ∧
      CoalPost (coalesce (init_block arena0) 65568).1 65568 16 ([] ++ [⟨65568, 16, 0⟩]) []) ∧
    (WF (mm_free (mm_free (heapAfter [.malloc 8, .malloc 8, .malloc 8]) 65568) 65584)
        ([] ++ ⟨65568, 16 + 16, 0⟩ :: [⟨65600, 16, 1⟩, ⟨65616, 4064, 0⟩]) [65568, 65616] ∧
      WF (mm_free (mm_free (heapAfter [.malloc 8, .malloc 8, .malloc 8]) 65584) 65568)
        ([] ++ ⟨65568, 16 + 16, 0⟩ :: [⟨65600, 16, 1⟩, ⟨65616, 4064, 0⟩]) [65568, 65616]) :=
  ⟨init_block_pre arena0 (by decide) (by decide) (by decide) (by decide),
   (coalesce_cases (init_block arena0) [] [] ⟨65568, 16, 0⟩ []
      (init_block_pre arena0 (by decide) (by decide) (by decide) (by decide))).1 rfl rfl,
   (coalesce_cases (init_block arena0) [] [] ⟨65568, 16, 0⟩ []
      (init_block_pre arena0 (by decide) (by decide) (by decide) (by decide))).2.2.2.2
      (heapAfter [.malloc 8, .malloc 8, .malloc 8]) [] [⟨65600, 16, 1⟩, ⟨65616, 4064, 0⟩]
      ⟨65568, 16, 1⟩ ⟨65584, 16, 1⟩ [65616] (WF_intro _ _ _ (by decide)) rfl rfl rfl rfl⟩

/-- C9: let `b` be a free block of size `c` of a well-formed heap (so a member of the free
list `L`) and `a` an adjusted size, a multiple of 8 with `16 ≤ a ≤ c`. After `place(b, a)` the
heap is well formed and `b` is no longer in the list. If `c - a ≥ 16`, `b` has become an
allocated block of size `a` followed by a free block that is the head of the list, of size
`c - a` when the block after it is allocated (or it is the last), and of size
`c - a + size(next)` when the next block was free and got absorbed. If `c - a < 16`, that is
`c = a` or `c = a + 8`, `b` has become one allocated block of size `c` and the block list is
otherwise the same. -/
theorem place_split_threshold (h : Heap) (pre post : List Blk) (b : Blk) (L : List Nat)
    (a : Nat) (hw : WF h (pre ++ b :: post) L) (hb : b.alloc = 0)
    (ha8 : a % 8 = 0) (ha16 : 16 ≤ a) (hle : a ≤ b.size) :
    b.bp ∈ L ∧ b.bp ∉ L.erase b.bp ∧
    (a + 16 ≤ b.size → nextAlloc post = 1 →
      WF (place h b.bp a) (pre ++ ⟨b.bp, a, 1⟩ :: ⟨b.bp + a, b.size - a, 0⟩ :: post)
        ((b.bp + a) :: L.erase b.bp)) ∧
    (a + 16 ≤ b.size → ∀ n post1, post = n :: post1 → n.alloc = 0 →
      WF (place h b.bp a)
        (pre ++ ⟨b.bp, a, 1⟩ :: ⟨b.bp + a, b.size - a + n.size, 0⟩ :: post1)
        ((b.bp + a) :: (L.erase b.bp).erase n.bp)) ∧
    (b.size < a + 16 →
      (b.size = a ∨ b.size = a + 8) ∧
      WF (place h b.bp a) (pre ++ ⟨b.bp, b.size, 1⟩ :: post) (L.erase b.bp)) := by
  have hbL : b.bp ∈ L := hw.free_list b (by simp) hb
  have hb8 := (Arena_split h pre post b hw.arena).2.1.1
  refine ⟨hbL, fun hin => ((List.Nodup.mem_erase_iff hw.listed.nodup).mp hin).1 rfl, ?_, ?_, ?_⟩
  · intro hbig hn
    exact place_split_none h pre post b L a hw hb ha8 ha16 hbig hn
  · intro hbig n post1 hpost hn
    subst hpost
    exact place_split_next h pre post1 b n L a hw hb ha8 ha16 hbig hn
  · intro hsm
    exact ⟨by omega, (place_whole h pre post b L a hw hb hle hsm).2.1⟩

set_option maxRecDepth 100000 in
theorem place_split_threshold_witness :
    WF (heapAfter [.malloc 100, .malloc 200, .free 65568])
      ([⟨65568, 112, 0⟩, ⟨65680, 208, 1⟩] ++ ⟨65888, 3792, 0⟩ :: []) [65568, 65888] ∧
    WF (place (heapAfter [.malloc 100, .malloc 200, .free 65568]) 65888 64)
      ([⟨65568, 112, 0⟩, ⟨65680, 208, 1⟩] ++ ⟨65888, 64, 1⟩ :: ⟨65888 + 64, 3792 - 64, 0⟩ :: [])
      ((65888 + 64) :: [65568, 65888].erase 65888) :=
  ⟨WF_intro _ _ _ (by decide),
   (place_split_threshold (heapAfter [.malloc 100, .malloc 200, .free 65568])
      [⟨65568, 112, 0⟩, ⟨65680, 208, 1⟩] [] ⟨65888, 3792, 0⟩ [65568, 65888] 64
      (WF_intro _ _ _ (by decide)) rfl (by decide) (by decide) (by decide)).2.2.1
      (by decide) rfl⟩

/-- C10: for every request size `s > 0` with `s + 15` below `2^32`, the adjusted block size
computed by `mm_malloc` is `max 16 (8 * ⌈(s + 8) / 8⌉)` (the ceiling written as
`(s + 8 + 7) / 8`, which is the least `k` with `s + 8 ≤ 8 * k`); it is a multiple of 8, at
least 16 and at least `s + 8`. -/
theorem adjust_eq_max_roundup (s : Nat) (hs : 0 < s) (hov : s + 15 < W32) :
    adjust s = max 16 (8 * ((s + 8 + 7) / 8)) ∧
    (s + 8 ≤ 8 * ((s + 8 + 7) / 8) ∧ ∀ k, s + 8 ≤ 8 * k → (s + 8 + 7) / 8 ≤ k) ∧
    adjust s % 8 = 0 ∧ 16 ≤ adjust s ∧ s + 8 ≤ adjust s := by
  obtain ⟨e, a8, a16, a3, -⟩ := adjust_props s hs hov
  exact ⟨e, ⟨by omega, fun k hk => by omega⟩, a8, a16, a3⟩

theorem adjust_eq_max_roundup_witness :
    adjust 100 = max 16 (8 * ((100 + 8 + 7) / 8)) ∧
    (100 + 8 ≤ 8 * ((100 + 8 + 7) / 8) ∧ ∀ k, 100 + 8 ≤ 8 * k → (100 + 8 + 7) / 8 ≤ k) ∧
    adjust 100 % 8 = 0 ∧ 16 ≤ adjust 100 ∧ 100 + 8 ≤ adjust 100 :=
  adjust_eq_max_roundup 100 (by decide) (by decide)

/-- C12 (failing input): on a provider that denies the 32 bytes of the first request of
`mm_init` (it returns `(void *)-1`) and grants the 16 bytes of the seeding `extend_heap(4)`,
`mm_init` returns 0, with `heap_listp` holding the failure value. -/
theorem init_misses_denied_bootstrap :
    (mem_sbrk arenaTight (8 * WSIZE)).2 = SBRK_FAIL ∧
    (mm_init arenaTight).2 = 0 ∧
    (mm_init arenaTight).1.heap_listp = SBRK_FAIL := by
  decide

/-- C13: for every heap, pointer `p` and size `s`: if `s` read as a signed 32-bit integer is
negative (for `s < 2^32`: if `2^31 ≤ s`), `mm_realloc` returns `NULL` and the heap as it was;
if `s = 0`, it returns `NULL` and the heap that `mm_free(p)` produces. -/
theorem realloc_nonpositive (h : Heap) (p s : Nat) :
    (toInt32 s < 0 → mm_realloc h p s = some (h, NULL)) ∧
    (2147483648 ≤ s → s < W32 → toInt32 s < 0) ∧
    (s = 0 → mm_realloc h p s = some (mm_free h p, NULL)) := by
  refine ⟨?_, ?_, ?_⟩
  · intro hneg
    unfold mm_realloc
    rw [if_pos hneg]
  · intro h1 h2
    unfold toInt32
    unfold W32 at h2 ⊢
    rw [Nat.mod_eq_of_lt h2, if_neg (by omega)]
    omega
  · intro h0
    subst h0
    have e : toInt32 0 = 0 := by decide
    unfold mm_realloc
    rw [e, if_neg (by decide), if_pos rfl]

set_option maxRecDepth 100000 in
theorem realloc_nonpositive_witness :
    toInt32 4294967295 < 0 ∧
    mm_realloc (heapAfter [.malloc 8]) 65568 4294967295 = some (heapAfter [.malloc 8], NULL) ∧
    mm_realloc (heapAfter [.malloc 8]) 65568 0 =
      some (mm_free (heapAfter [.malloc 8]) 65568, NULL) :=
  ⟨by decide,
   (realloc_nonpositive (heapAfter [.malloc 8]) 65568 4294967295).1 (by decide),
   (realloc_nonpositive (heapAfter [.malloc 8]) 65568 0).2.2 rfl⟩

set_option maxRecDepth 100000 in
/-- C14 (failing input): after `mm_init` on a zero-filled arena at 65536 the heap has one real
block, at 65568, and the epilogue in the last word, 65580. The scan from the prologue block
(payload 65544, header `PACK(8,1)` at 65540) steps to 65552, whose header word 65548 is the
`prev` link of the list sentinel and holds 65568; the next step leaves the arena (131120 with
the break at 65584). The scan never visits the real block nor the epilogue, and on the model's
memory, zero beyond the arena, it never stops. -/
theorem prologue_scan_misses_blocks :
    (mm_init arena0).2 = 0 ∧ WF (mm_init arena0).1 [⟨65568, 16, 0⟩] [65568] ∧
    (mm_init arena0).1.brk = 65584 ∧
    GET (mm_init arena0).1.mem (HDRP (65536 + 8)) = PACK 8 1 ∧
    NEXT_BLK (mm_init arena0).1.mem (65536 + 8) = 65536 + 16 ∧
    GET (mm_init arena0).1.mem (HDRP (65536 + 16)) = 65568 ∧
    NEXT_BLK (mm_init arena0).1.mem (65536 + 16) = 131120 ∧
    ∀ fuel, heap_scan (mm_init arena0).1.mem fuel (65536 + 8) = none := by
  refine ⟨by decide, WF_intro _ _ _ (by decide), by decide, by decide, by decide, by decide,
    by decide, ?_⟩
  have h3 := heap_scan_stuck (mm_init arena0).1.mem 131120 (by decide)
  have e2 : NEXT_BLK (mm_init arena0).1.mem (65536 + 16) = 131120 := by decide
  have e1 : NEXT_BLK (mm_init arena0).1.mem (65536 + 8) = 65536 + 16 := by decide
  intro fuel
  cases fuel with
  | zero => rfl
  | succ n =>
    apply heap_scan_step _ _ _ (by decide)
    rw [e1]
    cases n with
    | zero => rfl
    | succ k =>
      apply heap_scan_step _ _ _ (by decide)
      rw [e2]
      exact h3 k

set_option maxRecDepth 100000 in
/-- C20 (failing input): `mm_init` on two provider memories that differ only in the word at
`base + 24` (zero, or the stale value 8), which `mm_init` never writes. Both calls return 0,
but the results differ: with the zero word the free list starts at the block 65568, whose
header word 65564 holds `PACK(16,0)`; with the stale word `coalesce` takes the word for the
footer of a free previous block, the free list starts at 65560 and the word 65564 holds 0. -/
theorem init_reads_stale_word :
    (∀ a, ¬ (65536 + 24 ≤ a ∧ a < 65536 + 28) → arenaStale.mem a = arena0.mem a) ∧
    (mm_init arena0).2 = 0 ∧ (mm_init arenaStale).2 = 0 ∧
    (mm_init arena0).1.free_list_start = 65568 ∧
    (mm_init arenaStale).1.free_list_start = 65560 ∧
    GET (mm_init arena0).1.mem (HDRP 65568) = PACK 16 0 ∧
    GET (mm_init arenaStale).1.mem (HDRP 65568) = 0 := by
  refine ⟨?_, by decide, by decide, by decide, by decide, by decide, by decide⟩
  intro a ha
  exact PUT_bytes _ _ _ _ (by omega)

/-- C11: on a well-formed heap `mm_malloc` returns. When the result is `NULL`, the requested
size is 0 or the provider denied the request `mm_malloc` made of it (`mem_sbrk` returned its
failure value for the `MAX(A, CHUNKSIZE)` bytes asked), and the arena size, every byte of
memory, the list head (hence the walk of the free list) and the provider's limit are as before
the call. `mm_malloc(0)` returns `NULL` and the heap unchanged. -/
theorem malloc_absent (h : Heap) (bs : List Blk) (L : List Nat) (size : Nat)
    (hw : WF h bs L) :
    mm_malloc h 0 = some (h, NULL) ∧
    ∃ h1 p, mm_malloc h size = some (h1, p) ∧
      (p = NULL →
        (size = 0 ∨
          (mem_sbrk h (extend_size (MAX (adjust size) CHUNKSIZE / WSIZE))).2 = SBRK_FAIL) ∧
        h1.brk = h.brk ∧ (∀ a, h1.mem a = h.mem a) ∧
        h1.free_list_start = h.free_list_start ∧ h1.limit = h.limit ∧
        (∀ fuel, free_list_from h1.mem fuel h1.free_list_start =
          free_list_from h.mem fuel h.free_list_start)) := by
  refine ⟨mm_malloc_zero h, ?_⟩
  obtain ⟨h1, p, e, hn⟩ := mm_malloc_null h bs L size hw
  refine ⟨h1, p, e, fun hp => ?_⟩
  obtain ⟨c, e1, e2, e3, -, e5⟩ := hn hp
  exact ⟨c, e2, fun a => by rw [e1], e5, e3, fun fuel => by rw [e1, e5]⟩

set_option maxRecDepth 100000 in
theorem malloc_absent_witness :
    WF (mm_init arenaFull).1 [⟨65568, 16, 0⟩] [65568] ∧
    (mm_malloc (mm_init arenaFull).1 100).map Prod.snd = some NULL ∧
    (mm_malloc (mm_init arenaFull).1 0 = some ((mm_init arenaFull).1, NULL) ∧
     ∃ h1 p, mm_malloc (mm_init arenaFull).1 100 = some (h1, p) ∧
      (p = NULL →
        (100 = 0 ∨
          (mem_sbrk (mm_init arenaFull).1
            (extend_size (MAX (adjust 100) CHUNKSIZE / WSIZE))).2 = SBRK_FAIL) ∧
        h1.brk = (mm_init arenaFull).1.brk ∧ (∀ a, h1.mem a = (mm_init arenaFull).1.mem a) ∧
        h1.free_list_start = (mm_init arenaFull).1.free_list_start ∧
        h1.limit = (mm_init arenaFull).1.limit ∧
        (∀ fuel, free_list_from h1.mem fuel h1.free_list_start =
          free_list_from (mm_init arenaFull).1.mem fuel
            (mm_init arenaFull).1.free_list_start))) :=
  ⟨WF_intro _ _ _ (by decide), by decide,
   malloc_absent (mm_init arenaFull).1 [⟨65568, 16, 0⟩] [65568] 100
    (WF_intro _ _ _ (by decide))⟩

/-- C15: `extend_heap(w)` on a well-formed heap. When `4 * (w + 1)` does not overflow, the
number of bytes it asks the provider for, `extend_size w`, is `max 16 (4 * w')` with `w'` the
word count rounded up to even. When the provider grants them, the arena has grown by exactly
that many bytes, its last word is the epilogue `PACK(0,1)`, and the result is the head of the
free list of a well-formed heap with `PACK(n, 0)` in header and footer: the new block at the
old break with `n` the bytes obtained when the last block was allocated (or there was none),
the last block with `n` the bytes obtained plus its size when it was free. When the provider
denies them, the result is `NULL` and the heap is unchanged. -/
theorem extend_heap_cases (h : Heap) (bs : List Blk) (L : List Nat) (w : Nat)
    (hw : WF h bs L) :
    (4 * (w + 1) < W32 → extend_size w = max 16 (4 * (w + w % 2))) ∧
    (h.brk + extend_size w ≤ h.limit →
      (mem_sbrk h (extend_size w)).2 = h.brk ∧
      (extend_heap h w).1.brk = h.brk + extend_size w ∧
      GET (extend_heap h w).1.mem ((extend_heap h w).1.brk - WSIZE) = PACK 0 1 ∧
      (prevAlloc bs = 1 →
        (extend_heap h w).2 = h.brk ∧
        CoalPost (extend_heap h w).1 h.brk (extend_size w)
          (bs ++ [⟨h.brk, extend_size w, 0⟩]) L) ∧
      (∀ pre p, bs = pre ++ [p] → p.alloc = 0 →
        (extend_heap h w).2 = p.bp ∧
        CoalPost (extend_heap h w).1 p.bp (extend_size w + p.size)
          (pre ++ [⟨p.bp, extend_size w + p.size, 0⟩]) (L.erase p.bp))) ∧
    (¬ (h.brk + extend_size w ≤ h.limit) →
      (mem_sbrk h (extend_size w)).2 = SBRK_FAIL ∧ extend_heap h w = (h, NULL)) := by
  refine ⟨extend_size_eq w, ?_, ?_⟩
  · intro hgr
    obtain ⟨pre1, r, post1, L1, hw2, -, -, -, hb, -⟩ := extend_heap_spec h bs L w hw hgr
    refine ⟨by unfold mem_sbrk; rw [if_pos hgr], hb, hw2.arena.epilogue, ?_, ?_⟩
    · intro hp
      obtain ⟨e, cw, -⟩ := extend_heap_none h bs L w hw hgr hp
      exact ⟨e, CoalPost_intro _ bs [] h.brk _ L cw⟩
    · intro pre p hbs hp
      subst hbs
      obtain ⟨e, cw, -⟩ := extend_heap_prev h pre p L w hw hgr hp
      exact ⟨e, CoalPost_intro _ pre [] p.bp _ _ cw⟩
  · intro hden
    exact ⟨by unfold mem_sbrk; rw [if_neg hden], extend_heap_fail h w hden⟩

set_option maxRecDepth 100000 in
theorem extend_heap_cases_witness :
    WF (heapAfter [.malloc 8]) [⟨65568, 16, 1⟩] [] ∧
    extend_size 5 = max 16 (4 * (5 + 5 % 2)) ∧
    ((extend_heap (heapAfter [.malloc 8]) 5).2 = (heapAfter [.malloc 8]).brk ∧
      CoalPost (extend_heap (heapAfter [.malloc 8]) 5).1 (heapAfter [.malloc 8]).brk
        (extend_size 5)
        ([⟨65568, 16, 1⟩] ++ [⟨(heapAfter [.malloc 8]).brk, extend_size 5, 0⟩]) []) :=
  ⟨WF_intro _ _ _ (by decide),
   (extend_heap_cases (heapAfter [.malloc 8]) [⟨65568, 16, 1⟩] [] 5
      (WF_intro _ _ _ (by decide))).1 (by decide),
   ((extend_heap_cases (heapAfter [.malloc 8]) [⟨65568, 16, 1⟩] [] 5
      (WF_intro _ _ _ (by decide))).2.1 (by decide)).2.2.2.1 rfl⟩

set_option maxRecDepth 1000000 in
set_option maxHeartbeats 0 in
/-- C16 (counterexample): after `mm_init` on a zero-filled arena, thirty-one consecutive
requests of 5000 bytes (adjusted size 5008) are all served, none of them by the scan of the
free list. The remembered size is still 0 and the repeat counter 0, so the thirty-second
request of the same size does not skip the scan. -/
theorem repeats_without_bypass :
    sameOps = List.replicate 31 (Op.malloc 5000) ∧ adjust 5000 = 5008 ∧
    (run (initSys arena0) sameOps).live.length = 31 ∧
    (heapAfter sameOps).last_malloced_size = 0 ∧ (heapAfter sameOps).repeat_counter = 0 ∧
    ¬ bypass (heapAfter sameOps) (adjust 5000) ∧
    find_fit (heapAfter sameOps) (adjust 5000) =
      find_fit_scan { heapAfter sameOps with repeat_counter := 0 } (adjust 5000) := by
  have k : (run (initSys arena0) sameOps).live.length = 31 ∧
      (heapAfter sameOps).last_malloced_size = 0 ∧ (heapAfter sameOps).repeat_counter = 0 := by
    decide
  have ha : adjust 5000 = 5008 := by decide
  have hb : ¬ bypass (heapAfter sameOps) (adjust 5000) := by
    unfold bypass
    rw [k.2.1, ha]
    decide
  have hne : ¬ ((heapAfter sameOps).last_malloced_size = adjust 5000 % W32) := by
    rw [k.2.1, ha]
    decide
  refine ⟨rfl, ha, k.1, k.2.1, k.2.2, hb, ?_⟩
  rw [find_fit_scans _ _ hb, if_neg hne]

/-- C16 (amended): the allocator keeps the adjusted size of the most recent request that the
scan of the free list served (`last_malloced_size`) and a repeat counter. A request with
adjusted size `A` skips the scan and asks the provider directly for `MAX(A, 16)` bytes exactly
when `last_malloced_size` equals `A` and the counter is above 30; such a call changes neither
value. In every other case the free list is scanned first; the call then leaves the counter
incremented if `last_malloced_size` equalled `A` and reset to 0 otherwise, and
`last_malloced_size` set to `A` if the scan found a block and unchanged if it found none. -/
theorem bypass_trigger (h : Heap) (size : Nat) (hs : 0 < size) (hov : size + 15 < W32) :
    (bypass h (adjust size) ↔
      h.last_malloced_size = adjust size ∧ h.repeat_counter > 30) ∧
    (bypass h (adjust size) →
      find_fit h (adjust size) =
        some (extend_heap h (ofInt32 (Int.tdiv (toInt32 (MAX (adjust size) (4 * WSIZE))) 4))) ∧
      extend_size (ofInt32 (Int.tdiv (toInt32 (MAX (adjust size) (4 * WSIZE))) 4)) =
        MAX (adjust size) 16 ∧
      ∀ h1 p, mm_malloc h size = some (h1, p) →
        h1.last_malloced_size = h.last_malloced_size ∧
        h1.repeat_counter = h.repeat_counter) ∧
    (¬ bypass h (adjust size) →
      find_fit h (adjust size) =
        find_fit_scan { h with repeat_counter :=
          if h.last_malloced_size = adjust size then h.repeat_counter + 1 else 0 }
          (adjust size) ∧
      ∀ h1 p, mm_malloc h size = some (h1, p) →
        h1.repeat_counter =
          (if h.last_malloced_size = adjust size then h.repeat_counter + 1 else 0) ∧
        (((∃ bp, find_fit_loop h.mem (adjust size) h.brk h.free_list_start = some (some bp)) ∧
            h1.last_malloced_size = adjust size) ∨
         (find_fit_loop h.mem (adjust size) h.brk h.free_list_start = some none ∧
            h1.last_malloced_size = h.last_malloced_size))) := by
  obtain ⟨-, a8, a16, -, alt⟩ := adjust_props size hs hov
  have hmod : adjust size % W32 = adjust size := Nat.mod_eq_of_lt alt
  have hbw := bypass_words (adjust size) a8 a16 alt
  have hmax : MAX (adjust size) 16 = adjust size := by
    unfold MAX
    split_ifs <;> omega
  refine ⟨by unfold bypass; rw [hmod], ?_, ?_⟩
  · intro hb
    have e := find_fit_bypass h (adjust size) hb
    refine ⟨e, hbw.trans hmax.symm, ?_⟩
    intro h1 p hm
    obtain ⟨h2, bp, hff, e1, e2⟩ := mm_malloc_statics h h1 size p (by omega) hm
    rw [e] at hff
    have e3 : h2 = (extend_heap h (ofInt32 (Int.tdiv (toInt32 (MAX (adjust size) (4 * WSIZE)))
        4))).1 := by
      have := Option.some.inj hff
      rw [this]
    rw [e1, e2, e3]
    exact extend_heap_statics _ _
  · intro hb
    have e := find_fit_scans h (adjust size) hb
    rw [hmod] at e
    refine ⟨e, ?_⟩
    intro h1 p hm
    obtain ⟨h2, bp, hff, e1, e2⟩ := mm_malloc_statics h h1 size p (by omega) hm
    rw [e] at hff
    obtain ⟨r1, r2⟩ := find_fit_scan_result _ h2 _ bp hff
    rw [e1, e2]
    refine ⟨r1, ?_⟩
    rcases r2 with ⟨f1, f2⟩ | ⟨f1, -, f2⟩
    · exact Or.inl ⟨⟨bp, f1⟩, f2⟩
    · exact Or.inr ⟨f1, f2⟩

set_option maxRecDepth 100000 in
theorem bypass_trigger_witness :
    bypass { heapAfter [] with last_malloced_size := 16, repeat_counter := 31 } (adjust 8) ∧
    find_fit { heapAfter [] with last_malloced_size := 16, repeat_counter := 31 } (adjust 8) =
      some (extend_heap { heapAfter [] with last_malloced_size := 16, repeat_counter := 31 }
        (ofInt32 (Int.tdiv (toInt32 (MAX (adjust 8) (4 * WSIZE))) 4))) ∧
    extend_size (ofInt32 (Int.tdiv (toInt32 (MAX (adjust 8) (4 * WSIZE))) 4)) =
      MAX (adjust 8) 16 :=
  ⟨by decide,
   ((bypass_trigger { heapAfter [] with last_malloced_size := 16, repeat_counter := 31 } 8
      (by decide) (by decide)).2.1 (by decide)).1,
   ((bypass_trigger { heapAfter [] with last_malloced_size := 16, repeat_counter := 31 } 8
      (by decide) (by decide)).2.1 (by decide)).2.1⟩

/-- C17: let memory represent the sequence `L` of distinct list members (`Chain`: the head is
the first member, `next` links follow `L` and end at the sentinel `S`, every `prev` link holds
the predecessor, the head's holds `NULL`), the members being 32-bit addresses above the
sentinel whose link words do not overlap (`Sep`). For `b` not in `L`, `insert_in_free_list(b)`
yields the representation of `list_insert b L`, with head `b`, `b`'s `prev` `NULL`, `b`'s
`next` the old head and the old head's `prev` (the sentinel's when `L` is empty) `b`; it
writes no byte outside the link words of `b` and the `prev` word of the old head. For `b` in
`L`, `remove_from_free_list(b)` yields the representation of `list_remove b L`; the head moves
to `b`'s `next` when `b`'s `prev` is `NULL` and stays otherwise; it writes no byte outside the
`next` word of `b`'s predecessor and the `prev` word of `b`'s successor (of the sentinel when
`b` is the last member). -/
theorem free_list_refines (h : Heap) (S b : Nat) (L : List Nat)
    (hc : Chain h.mem S 0 h.free_list_start L) (hnd : L.Nodup) :
    (b ∉ L → Sep S (b :: L) →
      Chain (insert_in_free_list h b).mem S 0 (insert_in_free_list h b).free_list_start
        (list_insert b L) ∧
      (insert_in_free_list h b).free_list_start = b ∧
      h.free_list_start = L.headD S ∧
      GET_PREV_PTR (insert_in_free_list h b).mem b = NULL ∧
      GET_NEXT_PTR (insert_in_free_list h b).mem b = h.free_list_start ∧
      GET_PREV_PTR (insert_in_free_list h b).mem h.free_list_start = b ∧
      (∀ a, ¬ (b ≤ a ∧ a < b + 8) →
        ¬ (h.free_list_start + 4 ≤ a ∧ a < h.free_list_start + 8) →
        (insert_in_free_list h b).mem a = h.mem a)) ∧
    (b ∈ L → Sep S L →
      Chain (remove_from_free_list h b).mem S 0 (remove_from_free_list h b).free_list_start
        (list_remove b L) ∧
      (GET_PREV_PTR h.mem b = NULL →
        (remove_from_free_list h b).free_list_start = GET_NEXT_PTR h.mem b) ∧
      (GET_PREV_PTR h.mem b ≠ NULL →
        (remove_from_free_list h b).free_list_start = h.free_list_start ∧
        GET_PREV_PTR h.mem b ∈ L ∧
        GET_NEXT_PTR (remove_from_free_list h b).mem (GET_PREV_PTR h.mem b) =
          GET_NEXT_PTR h.mem b) ∧
      GET_PREV_PTR (remove_from_free_list h b).mem (GET_NEXT_PTR h.mem b) =
        GET_PREV_PTR h.mem b ∧
      (∀ a, ¬ (GET_PREV_PTR h.mem b ≠ NULL ∧ GET_PREV_PTR h.mem b ≤ a ∧
            a < GET_PREV_PTR h.mem b + 4) →
        ¬ (GET_NEXT_PTR h.mem b + 4 ≤ a ∧ a < GET_NEXT_PTR h.mem b + 8) →
        (remove_from_free_list h b).mem a = h.mem a)) := by
  constructor
  · intro hb hs
    have hnd1 : (b :: L).Nodup := List.nodup_cons.mpr ⟨hb, hnd⟩
    obtain ⟨c1, -⟩ := insert_chain h S b L hc hs hnd1
    obtain ⟨l1, l2, l3, l4, l5⟩ := insert_links h S b L hc hs hnd1
    exact ⟨c1, rfl, l1, l2, l3, l4, l5⟩
  · intro hb hs
    obtain ⟨c1, -⟩ := remove_chain h S b L hc hs hnd hb
    obtain ⟨l1, l2, l3, l4⟩ := remove_links h S b L hc hs hnd hb
    exact ⟨c1, fun h0 => (l1 h0).1, l2, l3, l4⟩

set_option maxRecDepth 100000 in
theorem free_list_refines_witness :
    (Chain (heapAfter []).mem 65544 0 (heapAfter []).free_list_start [65568] ∧
      [65568].Nodup ∧ 65600 ∉ [65568] ∧ Sep 65544 [65600, 65568]) ∧
    (Chain (insert_in_free_list (heapAfter []) 65600).mem 65544 0
        (insert_in_free_list (heapAfter []) 65600).free_list_start (list_insert 65600 [65568]) ∧
      (insert_in_free_list (heapAfter []) 65600).free_list_start = 65600 ∧
      (heapAfter []).free_list_start = [65568].headD 65544 ∧
      GET_PREV_PTR (insert_in_free_list (heapAfter []) 65600).mem 65600 = NULL ∧
      GET_NEXT_PTR (insert_in_free_list (heapAfter []) 65600).mem 65600 =
        (heapAfter []).free_list_start ∧
      GET_PREV_PTR (insert_in_free_list (heapAfter []) 65600).mem
        (heapAfter []).free_list_start = 65600 ∧
      (∀ a, ¬ (65600 ≤ a ∧ a < 65600 + 8) →
        ¬ ((heapAfter []).free_list_start + 4 ≤ a ∧ a < (heapAfter []).free_list_start + 8) →
        (insert_in_free_list (heapAfter []) 65600).mem a = (heapAfter []).mem a)) ∧
    Chain (remove_from_free_list (heapAfter []) 65568).mem 65544 0
      (remove_from_free_list (heapAfter []) 65568).free_list_start (list_remove 65568 [65568]) :=
  ⟨⟨by decide, by decide, by decide, by unfold Sep; decide⟩,
   (free_list_refines (heapAfter []) 65544 65600 [65568] (by decide) (by decide)).1
      (by decide) (by unfold Sep; decide),
   ((free_list_refines (heapAfter []) 65544 65568 [65568] (by decide) (by decide)).2
      (by decide) (by unfold Sep; decide)).1⟩

set_option maxRecDepth 1000000 in
set_option maxHeartbeats 0 in
/-- C19 (counterexample): on a zero-filled arena, after `mm_init` and one repetition of
`p = mm_malloc(8); mm_free(p)` the arena ends at 65584; after thirty-three repetitions it ends
at 65600: the thirty-third `mm_malloc` takes the bypass of `find_fit` and grows the arena by 16
bytes although the freed block is in the list. -/
theorem churn_grows_at_33 :
    (churn 8 1 (mm_init arena0).1).map (fun h => h.brk) = some 65584 ∧
    (churn 8 33 (mm_init arena0).1).map (fun h => h.brk) = some 65600 := by
  decide

/-- C19 (amended): let the provider be as in C2, with the statics of `find_fit` at their
initial value 0. For every request size `s > 0` (with `s + 15` below `2^32`) and every `N`
from 1 to 32, `N` repetitions of `p = mm_malloc(s); mm_free(p)` after `mm_init` all return,
and the arena has the same size as after the first repetition. -/
theorem churn_keeps_arena (h0 : Heap) (s N : Nat)
    (hpos : 0 < h0.brk) (hgr : h0.brk + 48 ≤ h0.limit) (hl : h0.limit < W32)
    (hpad : GET h0.mem (h0.brk + 24) = 0)
    (hst : h0.last_malloced_size = 0 ∧ h0.repeat_counter = 0)
    (hs : 0 < s) (hov : s + 15 < W32) (hN1 : 1 ≤ N) (hN : N ≤ 32) :
    ∃ h1 hN, churn s 1 (mm_init h0).1 = some h1 ∧ churn s N (mm_init h0).1 = some hN ∧
      hN.brk = h1.brk := by
  obtain ⟨e0, hw, -⟩ := mm_init_spec h0 hpos hgr hl hpad
  have hlast : (mm_init h0).1.last_malloced_size = 0 := by rw [e0]; exact hst.1
  have hrc : (mm_init h0).1.repeat_counter = 0 := by rw [e0]; exact hst.2
  have a16 := (adjust_props s hs hov).2.2.1
  have hby : ¬ ((mm_init h0).1.last_malloced_size = adjust s ∧
      (mm_init h0).1.repeat_counter > 30) := by
    rw [hlast]
    rintro ⟨h1, -⟩
    omega
  obtain ⟨h1, p, e, hset, hrc1, -⟩ := churn_step _ _ _ s hw hs hov hby
  have hne : ¬ ((mm_init h0).1.last_malloced_size = adjust s) := by rw [hlast]; omega
  rw [if_neg hne] at hrc1
  obtain ⟨n, rfl⟩ : ∃ n, N = n + 1 := ⟨N - 1, by omega⟩
  obtain ⟨h2, e2, hb2⟩ := churn_inv s hs hov n 1 (mm_free h1 p) (by omega) hset
    (by rw [hrc1])
  refine ⟨mm_free h1 p, h2, ?_, ?_, hb2⟩
  · rw [churn_succ s 0 _ h1 p e]
    rfl
  · rw [churn_succ s n _ h1 p e]
    exact e2

set_option maxRecDepth 1000000 in
set_option maxHeartbeats 0 in
theorem churn_keeps_arena_witness :
    (churn 100 5 (mm_init arena0).1).map (fun h => h.brk) = some (65536 + 48 + 4096) ∧
    ∃ h1 hN, churn 100 1 (mm_init arena0).1 = some h1 ∧
      churn 100 5 (mm_init arena0).1 = some hN ∧ hN.brk = h1.brk :=
  ⟨by decide,
   churn_keeps_arena arena0 100 5 (by decide) (by decide) (by decide) (by decide)
    ⟨rfl, rfl⟩ (by decide) (by decide) (by decide) (by decide)⟩

end MM
